import Mathlib

/-!
# Schema-typed value conversion of `helpers/resource_binder.go`

A shallow embedding of the converter (`convertCtyValue`, `convertCtyMap`,
`convertCtyMapPtr`), of the null-collection normalizer
(`normalizeTypesOfCtyJson`) and of `ReadResource`, together with the parts of
the go-cty value model they inspect (namespace `ResourceBinder`); of the JSON
encoder of `AzureDataExplorerSink` (namespace `Pipelines`); and of the parsers
of the Front Door custom domain ID (namespace `Parse`).

Conventions of the embedding:

* a Go `map[string]T` is an association list `List (String × T)`; reading a key
  is `getKey`, the assignment `m[k] = v` is `setKey` (overwrite in place, else
  append), and a `range` loop visits the entries in list order.  A well-formed
  Go map has pairwise distinct keys (`distinctKeys`);
* a Go function returning `(T, error)` returns `Except String T`; a Go panic is
  also an `Except.error`, for the functions that have no error result;
* cty values are known and unmarked.
-/

namespace ResourceBinder

/-! ## Go maps -/

/-- Reading `m[k]` with the comma-ok form: the value stored under `k`, if any. -/
def getKey {α : Type} (k : String) : List (String × α) → Option α
  | [] => none
  | (k', v) :: rest => if k' = k then some v else getKey k rest

/-- The assignment `m[k] = v`: overwrite the entry of `k`, or add one. -/
def setKey {α : Type} (k : String) (v : α) : List (String × α) → List (String × α)
  | [] => [(k, v)]
  | (k', v') :: rest => if k' = k then (k, v) :: rest else (k', v') :: setKey k v rest

/-- The keys of a Go map, in the order of the association list. -/
def keys {α : Type} (m : List (String × α)) : List String := m.map Prod.fst

/-- Well-formedness of a Go map: no key occurs twice. -/
def distinctKeys {α : Type} (m : List (String × α)) : Prop := (keys m).Nodup

/-! ## The go-cty type and value model -/

/-- Type `cty.Type`: the three primitive types, the collection types, the
structural types, and `capsule` standing for every other type (capsule types,
`cty.DynamicPseudoType`), which the typed value model of the converter does not
contain. -/
inductive CtyType where
  | string
  | number
  | bool
  | list (elem : CtyType)
  | set (elem : CtyType)
  | map (elem : CtyType)
  | tuple (elems : List CtyType)
  | object (attrs : List (String × CtyType))
  | capsule (name : String)

/-- Go `float64` results of `big.Float.Float64`: a finite double, given by the
rational number it denotes, or an infinity.  The sign of zero is not modelled. -/
inductive Float64 where
  | finite (x : ℚ)
  | inf (negative : Bool)
  deriving DecidableEq

/-- Type `cty.Value`, known and unmarked.  A null value carries its type; a
number is a finite `big.Float`, which denotes a rational; collections carry
their elements in the order `AsValueSlice` yields them, maps and objects carry
the entries `AsValueMap` yields. -/
inductive CtyValue where
  | null (ty : CtyType)
  | str (s : String)
  | num (x : ℚ)
  | bool (b : Bool)
  | list (elem : CtyType) (vs : List CtyValue)
  | tuple (vs : List CtyValue)
  | set (elem : CtyType) (vs : List CtyValue)
  | map (elem : CtyType) (kvs : List (String × CtyValue))
  | object (kvs : List (String × CtyValue))
  | capsule (name : String)

/-- Go `interface{}` values the converter produces.  `null` is the nil
interface, `obj` a non-nil `map[string]interface{}`, and `nilMap` the nil
`map[string]interface{}` stored in an interface, which is what
`convertCtyValue` returns when it drops the error of `convertCtyMapPtr`. -/
inductive Json where
  | null
  | str (s : String)
  | num (x : Float64)
  | bool (b : Bool)
  | arr (xs : List Json)
  | obj (kvs : List (String × Json))
  | nilMap

/-- A non-nil `map[string]interface{}`. -/
abbrev Document := List (String × Json)

/-- Method `Type.IsPrimitiveType`. -/
def CtyType.IsPrimitiveType : CtyType → Bool
  | .string => true
  | .number => true
  | .bool => true
  | _ => false

/-- Method `Type.IsListType`. -/
def CtyType.IsListType : CtyType → Bool
  | .list _ => true
  | _ => false

/-- Method `Type.IsSetType`. -/
def CtyType.IsSetType : CtyType → Bool
  | .set _ => true
  | _ => false

/-- Method `Type.IsTupleType`. -/
def CtyType.IsTupleType : CtyType → Bool
  | .tuple _ => true
  | _ => false

/-- Method `Type.IsMapType`. -/
def CtyType.IsMapType : CtyType → Bool
  | .map _ => true
  | _ => false

/-- Method `Type.IsObjectType`. -/
def CtyType.IsObjectType : CtyType → Bool
  | .object _ => true
  | _ => false

/-- The collection-shaped types of the spec: list, set and tuple. -/
def CtyType.isCollection (t : CtyType) : Bool :=
  t.IsListType || t.IsSetType || t.IsTupleType

/-- Method `Type.AttributeType` of go-cty: the declared type of an attribute.
It panics when the receiver is not an object type and when the object type has
no such attribute; `none` stands for that panic. -/
def CtyType.AttributeType : CtyType → String → Option CtyType
  | .object attrs, name => getKey name attrs
  | _, _ => none

mutual
/-- Method `Value.Type`. -/
def CtyValue.type : CtyValue → CtyType
  | .null ty => ty
  | .str _ => .string
  | .num _ => .number
  | .bool _ => .bool
  | .list elem _ => .list elem
  | .tuple vs => .tuple (CtyValue.typesOf vs)
  | .set elem _ => .set elem
  | .map elem _ => .map elem
  | .object kvs => .object (CtyValue.attrTypesOf kvs)
  | .capsule name => .capsule name
/-- The element types of a tuple value. -/
def CtyValue.typesOf : List CtyValue → List CtyType
  | [] => []
  | v :: vs => CtyValue.type v :: CtyValue.typesOf vs
/-- The attribute types of an object value. -/
def CtyValue.attrTypesOf : List (String × CtyValue) → List (String × CtyType)
  | [] => []
  | (k, v) :: rest => (k, CtyValue.type v) :: CtyValue.attrTypesOf rest
end

/-- Method `Value.IsNull`. -/
def CtyValue.IsNull : CtyValue → Bool
  | .null _ => true
  | _ => false

mutual
/-- The typed value model of the converter: values built from null, string,
number and bool primitives, lists, tuples, sets, maps and objects, that is,
values with no value of another type anywhere inside. -/
def CtyValue.inModel : CtyValue → Bool
  | .null _ => true
  | .str _ => true
  | .num _ => true
  | .bool _ => true
  | .list _ vs => CtyValue.allInModel vs
  | .tuple vs => CtyValue.allInModel vs
  | .set _ vs => CtyValue.allInModel vs
  | .map _ kvs => CtyValue.entriesInModel kvs
  | .object kvs => CtyValue.entriesInModel kvs
  | .capsule _ => false
/-- Every element is in the typed value model. -/
def CtyValue.allInModel : List CtyValue → Bool
  | [] => true
  | v :: vs => CtyValue.inModel v && CtyValue.allInModel vs
/-- Every entry value is in the typed value model. -/
def CtyValue.entriesInModel : List (String × CtyValue) → Bool
  | [] => true
  | (_, v) :: rest => CtyValue.inModel v && CtyValue.entriesInModel rest
end

/-! ## Numbers -/

/-- Rounding a rational to an integer: to nearest, ties to even. -/
def roundHalfEven (t : ℚ) : ℤ :=
  if t - ⌊t⌋ < 1 / 2 then ⌊t⌋
  else if 1 / 2 < t - ⌊t⌋ then ⌊t⌋ + 1
  else if ⌊t⌋ % 2 = 0 then ⌊t⌋ else ⌊t⌋ + 1

/-- The binary exponent of the unit in the last place of the double format at
`x`: 53 significant bits from the leading bit of `x` down, and never below the
exponent `-1074` of the smallest denormal. -/
def ulpExponent (x : ℚ) : ℤ := max (Int.log 2 |x| - 52) (-1074)

/-- The multiple of the unit in the last place at `x` that is nearest to `x`,
ties to even. -/
def roundToUlp (x : ℚ) : ℚ :=
  (roundHalfEven (x / 2 ^ ulpExponent x) : ℚ) * 2 ^ ulpExponent x

/-- Modelled from the spec: method `big.Float.Float64` of the Go standard
library, which is not among the sources.  The spec has a number converted to
the nearest representable floating-point value; the model rounds to the
nearest multiple of the unit in the last place, ties to even, which is the
rounding of `Float64` to 53 bits or to the denormal grid, and overflows to an
infinity when the rounded magnitude reaches `2 ^ 1024`. -/
def bigFloatFloat64 (x : ℚ) : Float64 :=
  if (2 : ℚ) ^ (1024 : ℕ) ≤ |roundToUlp x| then .inf (decide (x < 0))
  else .finite (roundToUlp x)

/-- The finite doubles: a significand below `2 ^ 53` in magnitude times a power
of two with exponent from `-1074` to `971`. -/
def isFloat64 (y : ℚ) : Prop :=
  ∃ m e : ℤ, |m| < 2 ^ 53 ∧ -1074 ≤ e ∧ e ≤ 971 ∧ y = (m : ℚ) * 2 ^ e

/-- The finite doubles whose significand is even in the IEEE encoding, where a
normal number has a significand from `2 ^ 52` up and a denormal number has the
exponent `-1074`. -/
def hasEvenSignificand (y : ℚ) : Prop :=
  ∃ m e : ℤ, m % 2 = 0 ∧ -1074 ≤ e ∧ e ≤ 971 ∧ y = (m : ℚ) * 2 ^ e ∧
    ((2 ^ 52 ≤ |m| ∧ |m| < 2 ^ 53) ∨ (e = -1074 ∧ |m| < 2 ^ 52))

/-! ## The converter -/

mutual
/-- Function `convertCtyValue`: null gives nil, a primitive its Go value, a
list or a tuple the slice of its converted elements, a map or an object the
result of `convertCtyMapPtr` with the error dropped, and anything else, a set
included, falls through to the final `return nil`. -/
def convertCtyValue : CtyValue → Json
  | .null _ => .null
  | .str s => .str s
  | .num x => .num (bigFloatFloat64 x)
  | .bool b => .bool b
  | .list _ vs => .arr (convertSlice vs)
  | .tuple vs => .arr (convertSlice vs)
  | .set _ _ => .null
  | .map _ kvs =>
    match convertCtyMapPtrFrom kvs [] with
    | .ok m => .obj m
    | .error _ => .nilMap
  | .object kvs =>
    match convertCtyMapPtrFrom kvs [] with
    | .ok m => .obj m
    | .error _ => .nilMap
  | .capsule _ => .null
/-- The loop `for i, v := range listVals { listResult[i] = convertCtyValue(v) }`. -/
def convertSlice : List CtyValue → List Json
  | [] => []
  | v :: vs => convertCtyValue v :: convertSlice vs
/-- The body of the loop of `convertCtyMap` for a non-nil pointer: the value it
stores under the key, or the error it returns.  The three tests of the
primitive case are exhaustive, string, number and bool being the only
primitive types of go-cty. -/
def convertCtyMapEntry : CtyValue → Except String Json
  | .null ty => if ty.IsListType then .ok (.arr []) else .ok .null
  | .str s => .ok (.str s)
  | .num x => .ok (.num (bigFloatFloat64 x))
  | .bool b => .ok (.bool b)
  | .list _ vs => .ok (.arr (convertSlice vs))
  | .tuple vs => .ok (.arr (convertSlice vs))
  | .set _ vs => .ok (.arr (convertSlice vs))
  | .map _ kvs =>
    match convertCtyMapPtrFrom kvs [] with
    | .ok m => .ok (.obj m)
    | .error e => .error e
  | .object kvs =>
    match convertCtyMapPtrFrom kvs [] with
    | .ok m => .ok (.obj m)
    | .error e => .error e
  | .capsule name => .error ("unsupported cty.Value type: " ++ name)
/-- Function `convertCtyMapPtr` fused with the loop of `convertCtyMap`: every
value of the map is wrapped in a non-nil pointer, and the loop runs over the
entries with `result` as built so far. -/
def convertCtyMapPtrFrom : List (String × CtyValue) → Document → Except String Document
  | [], result => .ok result
  | (key, v) :: rest, result =>
    match convertCtyMapEntry v with
    | .ok j => convertCtyMapPtrFrom rest (setKey key j result)
    | .error e => .error e
end

/-- Function `convertCtyMapPtr`. -/
def convertCtyMapPtr (ctyMap : List (String × CtyValue)) : Except String Document :=
  convertCtyMapPtrFrom ctyMap []

/-- The loop of `convertCtyMap` over a `map[string]*cty.Value`, a nil pointer
being `none`, with `result` as built so far. -/
def convertCtyMapFrom : List (String × Option CtyValue) → Document → Except String Document
  | [], result => .ok result
  | (key, none) :: rest, result => convertCtyMapFrom rest (setKey key .null result)
  | (key, some v) :: rest, result =>
    match convertCtyMapEntry v with
    | .ok j => convertCtyMapFrom rest (setKey key j result)
    | .error e => .error e

/-- Function `convertCtyMap`. -/
def convertCtyMap (ctyMap : List (String × Option CtyValue)) : Except String Document :=
  convertCtyMapFrom ctyMap []

/-- The pointer map `ptrMap` that `convertCtyMapPtr` builds. -/
def ptrMap (ctyMap : List (String × CtyValue)) : List (String × Option CtyValue) :=
  ctyMap.map fun kv => (kv.1, some kv.2)

/-! ## The normalizer -/

/-- The loop of `normalizeTypesOfCtyJson` over the entries still to visit, with
the map as rewritten so far.  `jsonType.AttributeType(key)` is evaluated for
every nil value, first of all as an argument of `log.Printf`, and its panic
ends the call. -/
def normalizeFrom (jsonType : CtyType) : Document → Document → Except String Document
  | [], jsonValue => .ok jsonValue
  | (key, .null) :: rest, jsonValue =>
    match jsonType.AttributeType key with
    | none => .error "panic: AttributeType"
    | some t =>
      if t.IsListType then normalizeFrom jsonType rest (setKey key (.arr []) jsonValue)
      else normalizeFrom jsonType rest jsonValue
  | (_, _) :: rest, jsonValue => normalizeFrom jsonType rest jsonValue

/-- Function `normalizeTypesOfCtyJson` on a non-nil map: the result map, or the
panic of go-cty. -/
def normalizeTypesOfCtyJson (jsonValue : Document) (jsonType : CtyType) : Except String Document :=
  normalizeFrom jsonType jsonValue jsonValue

/-! ## Reading a resource -/

/-- The calls `ReadResource` makes to the provider collaborator. -/
inductive Call where
  | Configure
  | Data
  | SetId
  | Meta
  | Read
  | AttrsAsObjectValue
  | Marshal
  deriving DecidableEq

/-- The resource-type handler `*schema.Resource`, by the results of the calls
`ReadResource` makes to it. -/
structure Resource where
  /-- Whether `resource.Data(nil)` is a nil pointer. -/
  dataIsNil : Bool
  /-- The error of `resource.Read(data, meta)`, if any. -/
  readErr : Option String
  /-- The result of `data.State().AttrsAsObjectValue(...)` after the read. -/
  attrsAsObjectValue : Except String CtyValue
  /-- The type `resource.CoreConfigSchema().ImpliedType()`. -/
  impliedType : CtyType
  /-- The error of `ctyjson.Marshal(attr_value, ...)`, if any. -/
  marshalErr : Option String

/-- The provider `provider.AzureProvider()`, by the results of the calls
`ReadResource` makes to it; the credentials only enter through the
configuration. -/
structure Provider where
  /-- Whether `p.Configure` ends in `log.Fatalf`, inside the configure function
  or on its diagnostics. -/
  configureFails : Bool
  /-- The registered resource-type handlers. -/
  ResourcesMap : List (String × Resource)
  /-- Whether `p.Meta()` holds a `*clients.Client`. -/
  metaIsClient : Bool
  /-- Whether that client pointer is nil. -/
  metaIsNil : Bool

/-- How a call of `ReadResource` ends: it returns the pair `(value, err)`, where
`Json.null` is the nil interface and `none` the nil error, or the process exits
in `log.Fatalf`, or the call panics. -/
inductive Outcome where
  | returned (value : Json) (err : Option String)
  | fatal (msg : String)
  | panicked (msg : String)

/-- Function `ReadResource`: the collaborator calls made, in order, and how the
call ends. -/
def ReadResource (p : Provider) (resource_type : String) : List Call × Outcome :=
  if p.configureFails then
    ([.Configure], .fatal "provider failed to configure")
  else
    match getKey resource_type p.ResourcesMap with
    | none =>
      ([.Configure], .returned .null (some ("resource type " ++ resource_type ++ " unsupported")))
    | some resource =>
      if resource.dataIsNil then
        ([.Configure, .Data, .SetId], .panicked "nil pointer dereference")
      else if !p.metaIsClient then
        ([.Configure, .Data, .SetId, .Meta], .panicked "interface conversion")
      else if resource.dataIsNil && p.metaIsNil then
        ([.Configure, .Data, .SetId, .Meta],
          .returned .null (some "failed to read resource: data or meta is nil"))
      else
        match resource.readErr with
        | some e =>
          ([.Configure, .Data, .SetId, .Meta, .Read],
            .returned .null (some ("failed to read resource " ++ resource_type ++ ": " ++ e)))
        | none =>
          match resource.attrsAsObjectValue with
          | .error e =>
            ([.Configure, .Data, .SetId, .Meta, .Read, .AttrsAsObjectValue],
              .returned .null (some ("failed to get attributes as object value: " ++ e)))
          | .ok attr_value =>
            match resource.marshalErr with
            | some e =>
              ([.Configure, .Data, .SetId, .Meta, .Read, .AttrsAsObjectValue, .Marshal],
                .returned .null (some ("failed to marshal data: " ++ e)))
            | none =>
              ([.Configure, .Data, .SetId, .Meta, .Read, .AttrsAsObjectValue, .Marshal],
                match convertCtyValue attr_value with
                | .obj jsonValue =>
                  match normalizeTypesOfCtyJson jsonValue resource.impliedType with
                  | .ok attr => .returned (.obj attr) none
                  | .error e => .panicked e
                | .nilMap => .returned .null (some "failed to convert attributes to map")
                | _ => .panicked "interface conversion")

/-! ## Helper definitions of the proofs -/

/-- The value the loop of `convertCtyMap` stores for a value it converts
without error. -/
def entryJson (v : CtyValue) : Json :=
  match convertCtyMapEntry v with
  | .ok j => j
  | .error _ => .nilMap

/-- The loop of `convertCtyMap` when no entry fails, as a fold. -/
def storeEntries (kvs : List (String × CtyValue)) (result : Document) : Document :=
  kvs.foldl (fun acc kv => setKey kv.1 (entryJson kv.2) acc) result

/-- One step of the loop of `normalizeTypesOfCtyJson` when no lookup panics. -/
def normalizeStep (jsonType : CtyType) (acc : Document) (kv : String × Json) : Document :=
  match kv.2, jsonType.AttributeType kv.1 with
  | .null, some t => if t.IsListType then setKey kv.1 (.arr []) acc else acc
  | _, _ => acc

/-- What a key of the normalized map reads as, given its value `v` before the
loop and what it would read as without the rewrite. -/
def normalizedValue (jsonType : CtyType) (k : String) (v : Json) (old : Option Json) :
    Option Json :=
  match v, jsonType.AttributeType k with
  | .null, some t => if t.IsListType then some (.arr []) else old
  | _, _ => old

/-- The attributes of the value `{name: "foo", tags: null}` of the end-to-end
scenario. -/
def widgetValue : List (String × CtyValue) :=
  [("name", .str "foo"), ("tags", .null (.list .string))]

/-- The attributes of the schema `{name: String, tags: List(String)}`. -/
def widgetSchema : List (String × CtyType) :=
  [("name", .string), ("tags", .list .string)]

/-- The attributes of a value with the widget as an object-valued attribute
`o` and as the only element of a list-typed attribute `l`. -/
def nestedValue : List (String × CtyValue) :=
  [("o", .object widgetValue), ("l", .list (.object widgetSchema) [.object widgetValue])]

/-- The attribute types of `nestedValue`. -/
def nestedSchema : List (String × CtyType) :=
  [("o", .object widgetSchema), ("l", .list (.object widgetSchema))]

/-- The attributes of a value with a null list, a set, a string and a null
string. -/
def mixedValue : List (String × CtyValue) :=
  [("tags", .null (.list .string)), ("ids", .set .string [.str "a", .str "b"]),
    ("name", .str "foo"), ("note", .null .string)]

/-- The attribute types of `mixedValue`. -/
def mixedSchema : List (String × CtyType) :=
  [("tags", .list .string), ("ids", .set .string), ("name", .string), ("note", .string)]

/-- A handler whose read succeeds with the widget of the end-to-end scenario. -/
def widgetResource : Resource :=
  { dataIsNil := false, readErr := none, attrsAsObjectValue := .ok (.object widgetValue),
    impliedType := .object widgetSchema, marshalErr := none }

/-- A handler whose read fails. -/
def failingResource : Resource :=
  { dataIsNil := false, readErr := some "not found", attrsAsObjectValue := .ok (.object widgetValue),
    impliedType := .object widgetSchema, marshalErr := none }

/-- A configured provider with the two handlers. -/
def widgetProvider : Provider :=
  { configureFails := false,
    ResourcesMap := [("example_widget", widgetResource), ("example_broken", failingResource)],
    metaIsClient := true, metaIsNil := false }

/-- A provider with the two handlers whose `Configure` reports an error. -/
def unconfiguredProvider : Provider :=
  { configureFails := true,
    ResourcesMap := [("example_widget", widgetResource), ("example_broken", failingResource)],
    metaIsClient := true, metaIsNil := false }

end ResourceBinder

namespace Pipelines

open ResourceBinder

/-! ## The JSON encoder of the sink -/

/-- JSON text, by its abstract syntax; a number is the rational its decimal
literal denotes, the fields of an object are in the order of the text. -/
inductive JsonText where
  | null
  | bool (b : Bool)
  | number (x : ℚ)
  | string (s : String)
  | array (xs : List JsonText)
  | object (fields : List (String × JsonText))

/-- Type `AzureDataExplorerSink`; the field `Type` is `Type_`.  A nil pointer is
`none`; the value behind an
`*interface{}` is given by the JSON text `json.Marshal` encodes it to. -/
structure AzureDataExplorerSink where
  FlushImmediately : Option Bool
  IngestionMappingAsJson : Option JsonText
  IngestionMappingName : Option JsonText
  DisableMetricsCollection : Option Bool
  MaxConcurrentConnections : Option Int
  SinkRetryCount : Option Int
  SinkRetryWait : Option JsonText
  Type_ : String
  WriteBatchSize : Option Int
  WriteBatchTimeout : Option JsonText

/-- Type `BaseCopySinkImpl`, with the fields `CopySink` fills. -/
structure BaseCopySinkImpl where
  DisableMetricsCollection : Option Bool
  MaxConcurrentConnections : Option Int
  SinkRetryCount : Option Int
  SinkRetryWait : Option JsonText
  Type_ : String
  WriteBatchSize : Option Int
  WriteBatchTimeout : Option JsonText

/-- Method `AzureDataExplorerSink.CopySink`. -/
def AzureDataExplorerSink.CopySink (s : AzureDataExplorerSink) : BaseCopySinkImpl :=
  { DisableMetricsCollection := s.DisableMetricsCollection,
    MaxConcurrentConnections := s.MaxConcurrentConnections,
    SinkRetryCount := s.SinkRetryCount,
    SinkRetryWait := s.SinkRetryWait,
    Type_ := s.Type_,
    WriteBatchSize := s.WriteBatchSize,
    WriteBatchTimeout := s.WriteBatchTimeout }

/-- A struct field tagged `omitempty` behind a pointer: no field for a nil
pointer. -/
def omitempty (name : String) (v : Option JsonText) : List (String × JsonText) :=
  match v with
  | none => []
  | some j => [(name, j)]

/-- An `int64` written in decimal. -/
def intNumber (n : Int) : JsonText := .number (n : ℚ)

/-- The fields of `json.Marshal(wrapped)`, the plain field-by-field encoding of
the struct by its `json` tags, in the order of the declaration: a field tagged
`omitempty` is left out when its pointer is nil, and `type` is always there. -/
def plainFields (s : AzureDataExplorerSink) : List (String × JsonText) :=
  omitempty "flushImmediately" (s.FlushImmediately.map .bool) ++
  omitempty "ingestionMappingAsJson" s.IngestionMappingAsJson ++
  omitempty "ingestionMappingName" s.IngestionMappingName ++
  omitempty "disableMetricsCollection" (s.DisableMetricsCollection.map .bool) ++
  omitempty "maxConcurrentConnections" (s.MaxConcurrentConnections.map intNumber) ++
  omitempty "sinkRetryCount" (s.SinkRetryCount.map intNumber) ++
  omitempty "sinkRetryWait" s.SinkRetryWait ++
  [("type", .string s.Type_)] ++
  omitempty "writeBatchSize" (s.WriteBatchSize.map intNumber) ++
  omitempty "writeBatchTimeout" s.WriteBatchTimeout

/-- Modelled from the spec: a JSON number decoded by `json.Unmarshal` of the
Go standard library, which is not among the sources, into an `interface{}`:
the nearest `float64`, and an error out of the range of `float64`. -/
def unmarshalNumber (x : ℚ) : Except String Json :=
  match bigFloatFloat64 x with
  | .finite r => .ok (.num (.finite r))
  | .inf _ => .error "cannot unmarshal number into Go value of type float64"

mutual
/-- Modelled from the spec: function `json.Unmarshal` of the Go standard
library, which is not among the sources, into an `interface{}`: a number
becomes a `float64`, an object becomes a `map[string]interface{}` in which the last of
equal keys wins. -/
def unmarshalValue : JsonText → Except String Json
  | .null => .ok .null
  | .bool b => .ok (.bool b)
  | .number x => unmarshalNumber x
  | .string s => .ok (.str s)
  | .array xs =>
    match unmarshalArray xs with
    | .ok ys => .ok (.arr ys)
    | .error e => .error e
  | .object fields =>
    match unmarshalObject fields [] with
    | .ok m => .ok (.obj m)
    | .error e => .error e
/-- The elements of an array, decoded in order. -/
def unmarshalArray : List JsonText → Except String (List Json)
  | [] => .ok []
  | x :: xs =>
    match unmarshalValue x with
    | .ok y =>
      match unmarshalArray xs with
      | .ok ys => .ok (y :: ys)
      | .error e => .error e
    | .error e => .error e
/-- The fields of an object, decoded in order into the map built so far. -/
def unmarshalObject : List (String × JsonText) → Document → Except String Document
  | [], m => .ok m
  | (k, v) :: rest, m =>
    match unmarshalValue v with
    | .ok j => unmarshalObject rest (setKey k j m)
    | .error e => .error e
end

/-- Modelled from the spec: the order in which `json.Marshal` of the Go
standard library writes the keys of a map, which is sorted. -/
def sortFields (fields : List (String × JsonText)) : List (String × JsonText) :=
  fields.insertionSort (fun a b => a.1 ≤ b.1)

mutual
/-- Modelled from the spec: function `json.Marshal` of the Go standard
library, which is not among the sources, on an `interface{}` that
`json.Unmarshal` built: a `float64` is written as the shortest decimal that denotes it uniquely, which
`shortestDecimal` gives, the keys of a map are sorted, a nil map is `null`. -/
def marshalValue (shortestDecimal : ℚ → ℚ) : Json → Except String JsonText
  | .null => .ok .null
  | .str s => .ok (.string s)
  | .num (.finite r) => .ok (.number (shortestDecimal r))
  | .num (.inf _) => .error "unsupported value"
  | .bool b => .ok (.bool b)
  | .arr xs =>
    match marshalArray shortestDecimal xs with
    | .ok ys => .ok (.array ys)
    | .error e => .error e
  | .obj kvs =>
    match marshalFields shortestDecimal kvs with
    | .ok fields => .ok (.object (sortFields fields))
    | .error e => .error e
  | .nilMap => .ok .null
/-- The elements of a slice, encoded in order. -/
def marshalArray (shortestDecimal : ℚ → ℚ) : List Json → Except String (List JsonText)
  | [] => .ok []
  | x :: xs =>
    match marshalValue shortestDecimal x with
    | .ok y =>
      match marshalArray shortestDecimal xs with
      | .ok ys => .ok (y :: ys)
      | .error e => .error e
    | .error e => .error e
/-- The entries of a map, encoded. -/
def marshalFields (shortestDecimal : ℚ → ℚ) :
    List (String × Json) → Except String (List (String × JsonText))
  | [] => .ok []
  | (k, v) :: rest =>
    match marshalValue shortestDecimal v with
    | .ok j =>
      match marshalFields shortestDecimal rest with
      | .ok fields => .ok ((k, j) :: fields)
      | .error e => .error e
    | .error e => .error e
end

/-- Method `AzureDataExplorerSink.MarshalJSON`: the struct is encoded, the text
is decoded into a `map[string]interface{}`, the key `type` is assigned, and the
map is encoded.  The decimal `strconv` writes for a `float64` is the parameter
`shortestDecimal`. -/
def AzureDataExplorerSink.MarshalJSON (shortestDecimal : ℚ → ℚ) (s : AzureDataExplorerSink) :
    Except String JsonText :=
  match unmarshalObject (plainFields s) [] with
  | .error e => .error ("unmarshaling AzureDataExplorerSink: " ++ e)
  | .ok decoded =>
    match marshalValue shortestDecimal
        (.obj (setKey "type" (.str "AzureDataExplorerSink") decoded)) with
    | .error e => .error ("re-marshaling AzureDataExplorerSink: " ++ e)
    | .ok encoded => .ok encoded

/-- Encoding after decoding, what `MarshalJSON` does to the value of a field. -/
def reencode (shortestDecimal : ℚ → ℚ) (v : JsonText) : Except String JsonText :=
  match unmarshalValue v with
  | .ok j => marshalValue shortestDecimal j
  | .error e => .error e

/-- A sink with a type of its own and a connection count above `2 ^ 53`. -/
def largeSink : AzureDataExplorerSink :=
  { FlushImmediately := some true, IngestionMappingAsJson := none,
    IngestionMappingName := none, DisableMetricsCollection := none,
    MaxConcurrentConnections := some 9007199254740993, SinkRetryCount := none,
    SinkRetryWait := none, Type_ := "Custom", WriteBatchSize := none,
    WriteBatchTimeout := none }

/-- A sink with a type of its own and small numbers. -/
def smallSink : AzureDataExplorerSink :=
  { FlushImmediately := some true, IngestionMappingAsJson := none,
    IngestionMappingName := some (.string "m"), DisableMetricsCollection := none,
    MaxConcurrentConnections := some 4, SinkRetryCount := none,
    SinkRetryWait := none, Type_ := "Custom", WriteBatchSize := none,
    WriteBatchTimeout := none }

end Pipelines

namespace Parse

open ResourceBinder

/-! ## Strings and the legacy resource ID of go-azure-helpers -/

/-- Function `strings.TrimPrefix(s, "/")`, on the characters of `s`. -/
def trimPrefixSlash : List Char → List Char
  | '/' :: rest => rest
  | s => s

/-- Function `strings.TrimSuffix(s, "/")`, on the characters of `s`. -/
def trimSuffixSlash (s : List Char) : List Char :=
  if s.getLast? = some '/' then s.dropLast else s

/-- Function `strings.Split(s, "/")`, on the characters of `s`. -/
def splitSlash : List Char → List (List Char)
  | [] => [[]]
  | c :: cs =>
    if c = '/' then [] :: splitSlash cs
    else
      match splitSlash cs with
      | [] => [[c]]
      | w :: ws => (c :: w) :: ws

/-- The path components `ParseAzureResourceID` works on: the path without one
leading and one trailing `/`, split at every `/`. -/
def pathComponents (path : String) : List String :=
  (splitSlash (trimSuffixSlash (trimPrefixSlash path.data))).map String.mk

/-- The statement `delete(m, k)`. -/
def deleteKey (k : String) : List (String × String) → List (String × String)
  | [] => []
  | (k', v) :: rest => if k' = k then deleteKey k rest else (k', v) :: deleteKey k rest

/-- Modelled from the spec: type `resourceids.ResourceID` of the vendored
package go-azure-helpers, which is not among the sources, with the fields the
parsers of the Front Door custom domain ID read. -/
structure ResourceID where
  SubscriptionID : String
  ResourceGroup : String
  Provider : String
  SecondaryProvider : String
  Path : List (String × String)

/-- Modelled from the spec: the loop of `ParseAzureResourceID`, which is not
among the sources, over the key-value pairs of the path components, with the
subscription, the provider and the map as found so far:
the first `subscriptions` and the first `providers` pair are kept aside, every
other pair is stored in the map, and an empty key or value is an error. -/
def parseComponents : List String → String → String → List (String × String) →
    Except String (String × String × List (String × String))
  | key :: value :: rest, subscriptionID, provider, componentMap =>
    if key = "" ∨ value = "" then .error "Key/Value cannot be empty strings"
    else if key = "subscriptions" ∧ subscriptionID = "" then
      parseComponents rest value provider componentMap
    else if key = "providers" ∧ provider = "" then
      parseComponents rest subscriptionID value componentMap
    else parseComponents rest subscriptionID provider (setKey key value componentMap)
  | _, subscriptionID, provider, componentMap => .ok (subscriptionID, provider, componentMap)

/-- Modelled from the spec: the end of `ParseAzureResourceID`, which is not
among the sources: a missing subscription is an error, the resource group is
taken out of the map under `resourceGroups`, else under `resourcegroups`, and
a second provider under `providers`. -/
def buildResourceID (subscriptionID provider : String) (componentMap : List (String × String)) :
    Except String ResourceID :=
  if subscriptionID = "" then .error "No subscription ID found"
  else
    let rg : String × List (String × String) :=
      match getKey "resourceGroups" componentMap with
      | some resourceGroup => (resourceGroup, deleteKey "resourceGroups" componentMap)
      | none =>
        match getKey "resourcegroups" componentMap with
        | some resourceGroup => (resourceGroup, deleteKey "resourcegroups" componentMap)
        | none => ("", componentMap)
    let sp : String × List (String × String) :=
      match getKey "providers" rg.2 with
      | some secondaryProvider =>
        if secondaryProvider ≠ "" then (secondaryProvider, deleteKey "providers" rg.2)
        else ("", rg.2)
      | none => ("", rg.2)
    .ok { SubscriptionID := subscriptionID, ResourceGroup := rg.1, Provider := provider,
          SecondaryProvider := sp.1, Path := sp.2 }

/-- Modelled from the spec: the part of `ParseAzureResourceID`, which is not
among the sources, that follows `url.ParseRequestURI`: the path is split into components, which must come in pairs, and the pairs are
read into a `ResourceID`. -/
def parseAzureResourcePath (path : String) : Except String ResourceID :=
  if (pathComponents path).length % 2 ≠ 0 then
    .error "the number of path segments is not divisible by 2"
  else
    match parseComponents (pathComponents path) "" "" [] with
    | .error e => .error e
    | .ok (subscriptionID, provider, componentMap) =>
      buildResourceID subscriptionID provider componentMap

/-- Modelled from the spec: function `resourceids.ParseAzureResourceID` of the
vendored package go-azure-helpers, which is not among the sources; the spec
has it split the ID into segments and validate them.  `requestURIPath` is the path `url.ParseRequestURI`
finds in the ID, or `none` for its error. -/
def ParseAzureResourceID (requestURIPath : String → Option String) (id : String) :
    Except String ResourceID :=
  match requestURIPath id with
  | none => .error "parsing Azure ID"
  | some path => parseAzureResourcePath path

/-- Modelled from the spec: method `ResourceID.PopSegment` of go-azure-helpers,
which is not among the sources: the segment under the key and the ID without
it, an error when the key is missing.  The values `ParseAzureResourceID`
stores are never empty, and no check for an empty value is modelled. -/
def ResourceID.PopSegment (id : ResourceID) (name : String) : Except String (String × ResourceID) :=
  match getKey name id.Path with
  | none => .error ("ID was missing the `" ++ name ++ "` element")
  | some segment => .ok (segment, { id with Path := deleteKey name id.Path })

/-- Modelled from the spec: method `ResourceID.ValidateNoEmptySegments` of
go-azure-helpers, which is not among the sources: an error when a segment is
left in the path. -/
def ResourceID.ValidateNoEmptySegments (id : ResourceID) (sourceId : String) :
    Except String Unit :=
  if id.Path.length = 0 then .ok ()
  else .error ("ID contained more segments than required: " ++ sourceId)

/-! ## The Front Door custom domain ID -/

/-- Type `FrontDoorCustomDomainId`. -/
structure FrontDoorCustomDomainId where
  SubscriptionId : String
  ResourceGroup : String
  ProfileName : String
  CustomDomainName : String
  deriving DecidableEq

/-- Function `NewFrontDoorCustomDomainID`. -/
def NewFrontDoorCustomDomainID (subscriptionId resourceGroup profileName customDomainName : String) :
    FrontDoorCustomDomainId :=
  { SubscriptionId := subscriptionId, ResourceGroup := resourceGroup,
    ProfileName := profileName, CustomDomainName := customDomainName }

/-- Method `FrontDoorCustomDomainId.ID`. -/
def FrontDoorCustomDomainId.ID (id : FrontDoorCustomDomainId) : String :=
  "/subscriptions/" ++ id.SubscriptionId ++ "/resourceGroups/" ++ id.ResourceGroup ++
    "/providers/Microsoft.Cdn/profiles/" ++ id.ProfileName ++ "/customDomains/" ++
    id.CustomDomainName

/-- The statements both parsers share after the two segments are popped. -/
def finishFrontDoorCustomDomainID (input : String) (resourceId : FrontDoorCustomDomainId)
    (id : ResourceID) : Except String FrontDoorCustomDomainId :=
  match id.ValidateNoEmptySegments input with
  | .error e => .error e
  | .ok _ => .ok resourceId

/-- Function `FrontDoorCustomDomainID`. -/
def FrontDoorCustomDomainID (requestURIPath : String → Option String) (input : String) :
    Except String FrontDoorCustomDomainId :=
  match ParseAzureResourceID requestURIPath input with
  | .error e => .error ("parsing " ++ input ++ " as an FrontDoorCustomDomain ID: " ++ e)
  | .ok id =>
    if id.SubscriptionID = "" then .error "ID was missing the 'subscriptions' element"
    else if id.ResourceGroup = "" then .error "ID was missing the 'resourceGroups' element"
    else
      match id.PopSegment "profiles" with
      | .error e => .error e
      | .ok (profileName, id1) =>
        match id1.PopSegment "customDomains" with
        | .error e => .error e
        | .ok (customDomainName, id2) =>
          finishFrontDoorCustomDomainID input
            { SubscriptionId := id.SubscriptionID, ResourceGroup := id.ResourceGroup,
              ProfileName := profileName, CustomDomainName := customDomainName } id2

/-- The loop `for key := range id.Path` that looks for a key equal to `target`
under `strings.EqualFold`, on the keys in the order the loop visits them: the
first such key, else `target`. -/
def findFold (equalFold : String → String → Bool) (target : String) : List String → String
  | [] => target
  | key :: rest => if equalFold key target then key else findFold equalFold target rest

/-- Function `FrontDoorCustomDomainIDInsensitively`; `equalFold` is
`strings.EqualFold`, and `rangeOrder` is the order in which `range` visits the
keys of a map, which Go leaves open. -/
def FrontDoorCustomDomainIDInsensitively (requestURIPath : String → Option String)
    (equalFold : String → String → Bool) (rangeOrder : List String → List String)
    (input : String) : Except String FrontDoorCustomDomainId :=
  match ParseAzureResourceID requestURIPath input with
  | .error e => .error e
  | .ok id =>
    if id.SubscriptionID = "" then .error "ID was missing the 'subscriptions' element"
    else if id.ResourceGroup = "" then .error "ID was missing the 'resourceGroups' element"
    else
      match id.PopSegment (findFold equalFold "profiles" (rangeOrder (keys id.Path))) with
      | .error e => .error e
      | .ok (profileName, id1) =>
        match id1.PopSegment (findFold equalFold "customDomains" (rangeOrder (keys id1.Path))) with
        | .error e => .error e
        | .ok (customDomainName, id2) =>
          finishFrontDoorCustomDomainID input
            { SubscriptionId := id.SubscriptionID, ResourceGroup := id.ResourceGroup,
              ProfileName := profileName, CustomDomainName := customDomainName } id2

/-- A character `url.ParseRequestURI` leaves as it is in a path: not `%`, not
`?`, and no control character. -/
def urlPlainChar (c : Char) : Bool :=
  c ≠ '%' && c ≠ '?' && decide (32 ≤ c.toNat) && c.toNat ≠ 127

/-- The request URIs that are their own path: a leading `/` and only plain
characters. -/
def urlPlain (s : String) : Bool :=
  s.data.head? = some '/' && s.data.all urlPlainChar

/-- A stand-in for `url.ParseRequestURI` on the request URIs it leaves as they
are, an error on every other string. -/
def plainRequestURIPath (s : String) : Option String :=
  if urlPlain s then some s else none

/-- A value that can be a segment of an ID: not empty, no `/`, and only
characters `url.ParseRequestURI` leaves as they are. -/
def segmentOk (s : String) : Prop :=
  s.data ≠ [] ∧ '/' ∉ s.data ∧ ∀ c ∈ s.data, urlPlainChar c = true

/-- The lower-case form of an ASCII letter, any other character as it is. -/
def asciiLower (c : Char) : Char :=
  if 'A'.toNat ≤ c.toNat ∧ c.toNat ≤ 'Z'.toNat then Char.ofNat (c.toNat + 32) else c

/-- Equality of two strings up to the case of their ASCII letters. -/
def asciiEqualFold (s t : String) : Bool :=
  s.data.map asciiLower = t.data.map asciiLower

/-- The segment key that replaces `key` when `profiles` is written `k1` and
`customDomains` is written `k2`. -/
def renameKey (k1 k2 key : String) : String :=
  if key = "profiles" then k1 else if key = "customDomains" then k2 else key

/-- The path components with the segment keys `profiles` and `customDomains`
replaced by `k1` and `k2`; the keys are the components at even positions. -/
def replaceKeys (k1 k2 : String) : List String → List String
  | key :: value :: rest => renameKey k1 k2 key :: value :: replaceKeys k1 k2 rest
  | l => l

/-- The segment keys of a list of path components. -/
def segmentKeys : List String → List String
  | key :: _ :: rest => key :: segmentKeys rest
  | _ => []

/-- A map with its keys replaced. -/
def renameMap (k1 k2 : String) (m : List (String × String)) : List (String × String) :=
  m.map (fun kv => (renameKey k1 k2 kv.1, kv.2))

/-- The segment keys an ID that `FrontDoorCustomDomainID` accepts can have. -/
def knownKey (x : String) : Prop :=
  x = "subscriptions" ∨ x = "providers" ∨ x = "resourceGroups" ∨ x = "resourcegroups" ∨
    x = "profiles" ∨ x = "customDomains"

/-- A string of ASCII characters. -/
def isAscii (s : String) : Prop := ∀ c ∈ s.data, c.toNat < 128

/-- The facts on two letter-case variants `k1` of `profiles` and `k2` of
`customDomains` that the proofs use. -/
structure Variants (equalFold : String → String → Bool) (k1 k2 : String) : Prop where
  fold11 : equalFold k1 "profiles" = true
  fold21 : equalFold k2 "profiles" = false
  fold22 : equalFold k2 "customDomains" = true
  ne12 : k1 ≠ k2
  ne1 : k1 ≠ "" ∧ k1 ≠ "subscriptions" ∧ k1 ≠ "providers" ∧ k1 ≠ "resourceGroups" ∧
    k1 ≠ "resourcegroups" ∧ k1 ≠ "customDomains"
  ne2 : k2 ≠ "" ∧ k2 ≠ "subscriptions" ∧ k2 ≠ "providers" ∧ k2 ≠ "resourceGroups" ∧
    k2 ≠ "resourcegroups" ∧ k2 ≠ "profiles"

end Parse

namespace ResourceBinder

/-! ## Go maps: reading after writing -/

theorem getKey_setKey_same {α : Type} (k : String) (v : α) (m : List (String × α)) :
    getKey k (setKey k v m) = some v := by
  induction m with
  | nil => simp [setKey, getKey]
  | cons hd tl ih =>
    obtain ⟨k', v'⟩ := hd
    by_cases h : k' = k
    · simp [setKey, getKey, h]
    · simp [setKey, getKey, h, ih]

theorem getKey_setKey_other {α : Type} (k k2 : String) (v : α) (m : List (String × α))
    (hne : k2 ≠ k) : getKey k2 (setKey k v m) = getKey k2 m := by
  induction m with
  | nil => simp [setKey, getKey, Ne.symm hne]
  | cons hd tl ih =>
    obtain ⟨k', v'⟩ := hd
    by_cases h : k' = k
    · subst h
      simp [setKey, getKey, Ne.symm hne]
    · by_cases h2 : k' = k2
      · subst h2
        simp [setKey, getKey, h]
      · simp [setKey, getKey, h, h2, ih]

theorem mem_keys_iff_getKey {α : Type} (k : String) (m : List (String × α)) :
    k ∈ keys m ↔ ∃ v, getKey k m = some v := by
  induction m with
  | nil => simp [keys, getKey]
  | cons hd tl ih =>
    obtain ⟨k', v'⟩ := hd
    by_cases h : k' = k
    · simp [keys, getKey, h]
    · have ih2 : k ∈ List.map Prod.fst tl ↔ ∃ v, getKey k tl = some v := ih
      simp only [keys, List.map_cons, List.mem_cons, getKey, h, if_false]
      rw [ih2]
      constructor
      · rintro (h3 | h3)
        · exact absurd h3.symm h
        · exact h3
      · intro h3
        exact Or.inr h3

theorem getKey_eq_none_iff {α : Type} (k : String) (m : List (String × α)) :
    getKey k m = none ↔ k ∉ keys m := by
  rw [mem_keys_iff_getKey]
  cases h : getKey k m <;> simp

theorem keys_setKey_of_mem {α : Type} (k : String) (v : α) (m : List (String × α))
    (hk : k ∈ keys m) : keys (setKey k v m) = keys m := by
  induction m with
  | nil => simp [keys] at hk
  | cons hd tl ih =>
    obtain ⟨k', v'⟩ := hd
    by_cases h : k' = k
    · simp [setKey, keys, h]
    · have hk2 : k ∈ keys tl := by
        simp only [keys, List.map_cons, List.mem_cons] at hk
        rcases hk with hk | hk
        · exact absurd hk.symm h
        · exact hk
      have := ih hk2
      simp only [keys] at this
      simp [setKey, keys, h, this]

theorem mem_keys_setKey {α : Type} (k k2 : String) (v : α) (m : List (String × α)) :
    k2 ∈ keys (setKey k v m) ↔ k2 = k ∨ k2 ∈ keys m := by
  rw [mem_keys_iff_getKey, mem_keys_iff_getKey]
  by_cases h : k2 = k
  · subst h
    simp [getKey_setKey_same]
  · rw [getKey_setKey_other k k2 v m h]
    simp [h]

/-! ## The converter on the typed value model -/

mutual
theorem convertCtyMapEntry_ok : ∀ v : CtyValue, v.inModel = true →
    ∃ j, convertCtyMapEntry v = .ok j
  | .null ty, _ => by
    by_cases h : ty.IsListType = true
    · exact ⟨.arr [], by simp [convertCtyMapEntry, h]⟩
    · exact ⟨.null, by simp [convertCtyMapEntry, h]⟩
  | .str s, _ => ⟨.str s, by simp [convertCtyMapEntry]⟩
  | .num x, _ => ⟨.num (bigFloatFloat64 x), by simp [convertCtyMapEntry]⟩
  | .bool b, _ => ⟨.bool b, by simp [convertCtyMapEntry]⟩
  | .list _ vs, _ => ⟨.arr (convertSlice vs), by simp [convertCtyMapEntry]⟩
  | .tuple vs, _ => ⟨.arr (convertSlice vs), by simp [convertCtyMapEntry]⟩
  | .set _ vs, _ => ⟨.arr (convertSlice vs), by simp [convertCtyMapEntry]⟩
  | .map _ kvs, h => by
    obtain ⟨d, hd⟩ := convertCtyMapPtrFrom_ok kvs (by simpa [CtyValue.inModel] using h) []
    exact ⟨.obj d, by simp [convertCtyMapEntry, hd]⟩
  | .object kvs, h => by
    obtain ⟨d, hd⟩ := convertCtyMapPtrFrom_ok kvs (by simpa [CtyValue.inModel] using h) []
    exact ⟨.obj d, by simp [convertCtyMapEntry, hd]⟩
  | .capsule _, h => by simp [CtyValue.inModel] at h
theorem convertCtyMapPtrFrom_ok : ∀ kvs : List (String × CtyValue),
    CtyValue.entriesInModel kvs = true →
    ∀ result : Document, ∃ d, convertCtyMapPtrFrom kvs result = .ok d
  | [], _, result => ⟨result, by simp [convertCtyMapPtrFrom]⟩
  | (key, v) :: rest, h, result => by
    have h2 : v.inModel = true ∧ CtyValue.entriesInModel rest = true := by
      simpa [CtyValue.entriesInModel] using h
    obtain ⟨j, hj⟩ := convertCtyMapEntry_ok v h2.1
    obtain ⟨d, hd⟩ := convertCtyMapPtrFrom_ok rest h2.2 (setKey key j result)
    exact ⟨d, by simp [convertCtyMapPtrFrom, hj, hd]⟩
end

theorem convertCtyMapPtrFrom_eq_storeEntries (kvs : List (String × CtyValue))
    (h : CtyValue.entriesInModel kvs = true) (result : Document) :
    convertCtyMapPtrFrom kvs result = .ok (storeEntries kvs result) := by
  induction kvs generalizing result with
  | nil => simp [convertCtyMapPtrFrom, storeEntries]
  | cons hd tl ih =>
    obtain ⟨key, v⟩ := hd
    have h2 : v.inModel = true ∧ CtyValue.entriesInModel tl = true := by
      simpa [CtyValue.entriesInModel] using h
    obtain ⟨j, hj⟩ := convertCtyMapEntry_ok v h2.1
    have hs : storeEntries ((key, v) :: tl) result = storeEntries tl (setKey key j result) := by
      simp [storeEntries, entryJson, hj]
    rw [hs, ← ih h2.2]
    simp [convertCtyMapPtrFrom, hj]

theorem convertCtyMapFrom_ptrMap (kvs : List (String × CtyValue)) (result : Document) :
    convertCtyMapFrom (ptrMap kvs) result = convertCtyMapPtrFrom kvs result := by
  induction kvs generalizing result with
  | nil => simp [ptrMap, convertCtyMapFrom, convertCtyMapPtrFrom]
  | cons hd tl ih =>
    obtain ⟨key, v⟩ := hd
    have ih2 : ∀ r, convertCtyMapFrom (List.map (fun kv => (kv.1, some kv.2)) tl) r
        = convertCtyMapPtrFrom tl r := ih
    cases hj : convertCtyMapEntry v with
    | error e => simp [ptrMap, convertCtyMapFrom, convertCtyMapPtrFrom, hj]
    | ok j => simp [ptrMap, convertCtyMapFrom, convertCtyMapPtrFrom, hj, ih2]

theorem convertCtyValue_map_eq (elem : CtyType) (kvs : List (String × CtyValue))
    (h : CtyValue.entriesInModel kvs = true) :
    convertCtyValue (.map elem kvs) = .obj (storeEntries kvs []) := by
  simp [convertCtyValue, convertCtyMapPtrFrom_eq_storeEntries kvs h]

theorem convertCtyValue_object_eq (kvs : List (String × CtyValue))
    (h : CtyValue.entriesInModel kvs = true) :
    convertCtyValue (.object kvs) = .obj (storeEntries kvs []) := by
  simp [convertCtyValue, convertCtyMapPtrFrom_eq_storeEntries kvs h]

theorem mem_keys_storeEntries (k : String) (kvs : List (String × CtyValue)) (result : Document) :
    k ∈ keys (storeEntries kvs result) ↔ k ∈ keys result ∨ k ∈ keys kvs := by
  induction kvs generalizing result with
  | nil => simp [storeEntries, keys]
  | cons hd tl ih =>
    obtain ⟨key, v⟩ := hd
    have hs : storeEntries ((key, v) :: tl) result
        = storeEntries tl (setKey key (entryJson v) result) := by
      simp [storeEntries]
    rw [hs, ih, mem_keys_setKey]
    simp only [keys, List.map_cons, List.mem_cons]
    tauto

theorem getKey_storeEntries (k : String) (kvs : List (String × CtyValue)) (result : Document)
    (hd : distinctKeys kvs) :
    getKey k (storeEntries kvs result)
      = match getKey k kvs with
        | some c => some (entryJson c)
        | none => getKey k result := by
  induction kvs generalizing result with
  | nil => simp [storeEntries, getKey]
  | cons hd2 tl ih =>
    obtain ⟨key, v⟩ := hd2
    have hs : storeEntries ((key, v) :: tl) result
        = storeEntries tl (setKey key (entryJson v) result) := by
      simp [storeEntries]
    have hnd : key ∉ keys tl ∧ distinctKeys tl := by
      simpa [distinctKeys, keys] using hd
    rw [hs, ih _ hnd.2]
    by_cases h : key = k
    · subst h
      have hn : getKey key tl = none := (getKey_eq_none_iff key tl).2 hnd.1
      simp [getKey, hn, getKey_setKey_same]
    · have h2 : k ≠ key := fun e => h e.symm
      simp only [getKey, h, if_false]
      cases getKey k tl with
      | some c => rfl
      | none => simp [getKey_setKey_other key k _ result h2]

theorem entryJson_null (ty : CtyType) :
    entryJson (.null ty) = if ty.IsListType then .arr [] else .null := by
  by_cases h : ty.IsListType = true <;> simp [entryJson, convertCtyMapEntry, h]

theorem entryJson_eq_convertCtyValue (c : CtyValue) (hm : c.inModel = true)
    (h1 : ¬ (c.IsNull = true ∧ c.type.IsListType = true))
    (h2 : ¬ (c.IsNull = false ∧ c.type.IsSetType = true)) :
    entryJson c = convertCtyValue c := by
  cases c with
  | null ty =>
    have : ty.IsListType = false := by
      simpa [CtyValue.IsNull, CtyValue.type] using h1
    simp [entryJson, convertCtyMapEntry, convertCtyValue, this]
  | str s => simp [entryJson, convertCtyMapEntry, convertCtyValue]
  | num x => simp [entryJson, convertCtyMapEntry, convertCtyValue]
  | bool b => simp [entryJson, convertCtyMapEntry, convertCtyValue]
  | list e vs => simp [entryJson, convertCtyMapEntry, convertCtyValue]
  | tuple vs => simp [entryJson, convertCtyMapEntry, convertCtyValue]
  | set e vs => simp [CtyValue.IsNull, CtyValue.type, CtyType.IsSetType] at h2
  | map e kvs =>
    have h : CtyValue.entriesInModel kvs = true := by simpa [CtyValue.inModel] using hm
    simp [entryJson, convertCtyMapEntry, convertCtyValue,
      convertCtyMapPtrFrom_eq_storeEntries kvs h]
  | object kvs =>
    have h : CtyValue.entriesInModel kvs = true := by simpa [CtyValue.inModel] using hm
    simp [entryJson, convertCtyMapEntry, convertCtyValue,
      convertCtyMapPtrFrom_eq_storeEntries kvs h]
  | capsule n => simp [CtyValue.inModel] at hm

theorem inModel_of_getKey (k : String) (kvs : List (String × CtyValue)) (c : CtyValue)
    (hm : CtyValue.entriesInModel kvs = true) (hk : getKey k kvs = some c) :
    c.inModel = true := by
  induction kvs with
  | nil => simp [getKey] at hk
  | cons hd tl ih =>
    obtain ⟨key, v⟩ := hd
    have h2 : v.inModel = true ∧ CtyValue.entriesInModel tl = true := by
      simpa [CtyValue.entriesInModel] using hm
    by_cases h : key = k
    · simp [getKey, h] at hk
      rw [← hk]
      exact h2.1
    · simp [getKey, h] at hk
      exact ih h2.2 hk

/-! ## The normalizer -/

theorem mem_of_getKey {α : Type} (k : String) (v : α) (m : List (String × α))
    (h : getKey k m = some v) : (k, v) ∈ m := by
  induction m with
  | nil => simp [getKey] at h
  | cons hd tl ih =>
    obtain ⟨k', v'⟩ := hd
    by_cases hk : k' = k
    · simp [getKey, hk] at h
      simp [hk, h]
    · simp [getKey, hk] at h
      exact List.mem_cons_of_mem _ (ih h)

theorem getKey_of_mem {α : Type} (k : String) (v : α) (m : List (String × α))
    (hd : distinctKeys m) (h : (k, v) ∈ m) : getKey k m = some v := by
  induction m with
  | nil => simp at h
  | cons hd2 tl ih =>
    obtain ⟨k', v'⟩ := hd2
    have hnd : k' ∉ keys tl ∧ distinctKeys tl := by
      simpa [distinctKeys, keys] using hd
    rcases List.mem_cons.1 h with h1 | h1
    · simp only [Prod.mk.injEq] at h1
      simp [getKey, h1.1, h1.2]
    · have hk : k ∈ keys tl := List.mem_map.2 ⟨(k, v), h1, rfl⟩
      have hne : ¬ k' = k := fun e => hnd.1 (e ▸ hk)
      simp [getKey, hne, ih hnd.2 h1]

theorem normalizeFrom_eq_fold (jsonType : CtyType) (todo jsonValue : Document)
    (h : ∀ k, (k, Json.null) ∈ todo → ∃ t, jsonType.AttributeType k = some t) :
    normalizeFrom jsonType todo jsonValue
      = .ok (todo.foldl (normalizeStep jsonType) jsonValue) := by
  induction todo generalizing jsonValue with
  | nil => simp [normalizeFrom]
  | cons hd tl ih =>
    obtain ⟨key, v⟩ := hd
    have htl : ∀ k, (k, Json.null) ∈ tl → ∃ t, jsonType.AttributeType k = some t :=
      fun k hk => h k (List.mem_cons_of_mem _ hk)
    cases v with
    | null =>
      obtain ⟨t, ht⟩ := h key (List.mem_cons_self _ _)
      by_cases hl : t.IsListType = true
      · simp [normalizeFrom, normalizeStep, ht, hl, ih _ htl]
      · simp [normalizeFrom, normalizeStep, ht, hl, ih _ htl]
    | str s => simp [normalizeFrom, normalizeStep, ih _ htl]
    | num x => simp [normalizeFrom, normalizeStep, ih _ htl]
    | bool b => simp [normalizeFrom, normalizeStep, ih _ htl]
    | arr xs => simp [normalizeFrom, normalizeStep, ih _ htl]
    | obj kvs => simp [normalizeFrom, normalizeStep, ih _ htl]
    | nilMap => simp [normalizeFrom, normalizeStep, ih _ htl]

theorem normalizeFrom_panics (jsonType : CtyType) (todo jsonValue : Document) (k : String)
    (hk : (k, Json.null) ∈ todo) (hn : jsonType.AttributeType k = none) :
    ∃ e, normalizeFrom jsonType todo jsonValue = .error e := by
  induction todo generalizing jsonValue with
  | nil => simp at hk
  | cons hd tl ih =>
    obtain ⟨key, v⟩ := hd
    rcases List.mem_cons.1 hk with h1 | h1
    · simp only [Prod.mk.injEq] at h1
      obtain ⟨h1, h2⟩ := h1
      subst h1
      subst h2
      exact ⟨"panic: AttributeType", by simp [normalizeFrom, hn]⟩
    · cases v with
      | null =>
        cases ht : jsonType.AttributeType key with
        | none => exact ⟨"panic: AttributeType", by simp [normalizeFrom, ht]⟩
        | some t =>
          by_cases hl : t.IsListType = true
          · obtain ⟨e, he⟩ := ih (setKey key (.arr []) jsonValue) h1
            exact ⟨e, by simp [normalizeFrom, ht, hl, he]⟩
          · obtain ⟨e, he⟩ := ih jsonValue h1
            exact ⟨e, by simp [normalizeFrom, ht, hl, he]⟩
      | str s => simpa [normalizeFrom] using ih jsonValue h1
      | num x => simpa [normalizeFrom] using ih jsonValue h1
      | bool b => simpa [normalizeFrom] using ih jsonValue h1
      | arr xs => simpa [normalizeFrom] using ih jsonValue h1
      | obj kvs => simpa [normalizeFrom] using ih jsonValue h1
      | nilMap => simpa [normalizeFrom] using ih jsonValue h1

theorem keys_normalizeStep (jsonType : CtyType) (acc : Document) (kv : String × Json)
    (hk : kv.1 ∈ keys acc) : keys (normalizeStep jsonType acc kv) = keys acc := by
  obtain ⟨key, v⟩ := kv
  cases v <;> try rfl
  cases ht : jsonType.AttributeType key with
  | none => simp [normalizeStep, ht]
  | some t =>
    by_cases hl : t.IsListType = true
    · simp [normalizeStep, ht, hl, keys_setKey_of_mem key _ acc hk]
    · simp [normalizeStep, ht, hl]

theorem keys_foldl_normalizeStep (jsonType : CtyType) (todo acc : Document)
    (hk : ∀ k ∈ keys todo, k ∈ keys acc) :
    keys (todo.foldl (normalizeStep jsonType) acc) = keys acc := by
  induction todo generalizing acc with
  | nil => rfl
  | cons hd tl ih =>
    have h1 : keys (normalizeStep jsonType acc hd) = keys acc :=
      keys_normalizeStep jsonType acc hd (hk _ (by simp [keys]))
    rw [List.foldl_cons, ih, h1]
    intro k hk2
    rw [h1]
    exact hk k (by simp only [keys, List.map_cons, List.mem_cons]; exact Or.inr hk2)

theorem getKey_normalizeStep_other (jsonType : CtyType) (acc : Document) (kv : String × Json)
    (k : String) (hne : k ≠ kv.1) :
    getKey k (normalizeStep jsonType acc kv) = getKey k acc := by
  obtain ⟨key, v⟩ := kv
  cases v <;> try rfl
  cases ht : jsonType.AttributeType key with
  | none => simp [normalizeStep, ht]
  | some t =>
    by_cases hl : t.IsListType = true
    · simp [normalizeStep, ht, hl, getKey_setKey_other key k _ acc hne]
    · simp [normalizeStep, ht, hl]

theorem getKey_foldl_normalizeStep_of_not_mem (jsonType : CtyType) (todo acc : Document)
    (k : String) (hk : k ∉ keys todo) :
    getKey k (todo.foldl (normalizeStep jsonType) acc) = getKey k acc := by
  induction todo generalizing acc with
  | nil => rfl
  | cons hd tl ih =>
    have h1 : k ≠ hd.1 ∧ k ∉ keys tl := by
      simpa [keys] using hk
    rw [List.foldl_cons, ih _ h1.2, getKey_normalizeStep_other jsonType acc hd k h1.1]

theorem getKey_normalizeStep_same (jsonType : CtyType) (acc : Document) (k : String)
    (v : Json) :
    getKey k (normalizeStep jsonType acc (k, v)) = normalizedValue jsonType k v (getKey k acc) := by
  cases v <;> try rfl
  cases ht : jsonType.AttributeType k with
  | none => simp [normalizeStep, normalizedValue, ht]
  | some t =>
    by_cases hl : t.IsListType = true
    · simp [normalizeStep, normalizedValue, ht, hl, getKey_setKey_same]
    · simp [normalizeStep, normalizedValue, ht, hl]

theorem getKey_foldl_normalizeStep (jsonType : CtyType) (todo acc : Document) (k : String)
    (v : Json) (hd : distinctKeys todo) (hk : getKey k todo = some v) :
    getKey k (todo.foldl (normalizeStep jsonType) acc)
      = normalizedValue jsonType k v (getKey k acc) := by
  induction todo generalizing acc with
  | nil => simp [getKey] at hk
  | cons hd2 tl ih =>
    obtain ⟨key, v'⟩ := hd2
    have hnd : key ∉ keys tl ∧ distinctKeys tl := by
      simpa [distinctKeys, keys] using hd
    by_cases h : key = k
    · subst h
      simp [getKey] at hk
      subst hk
      rw [List.foldl_cons, getKey_foldl_normalizeStep_of_not_mem _ _ _ _ hnd.1,
        getKey_normalizeStep_same]
    · simp [getKey, h] at hk
      have hne : k ≠ key := fun e => h e.symm
      rw [List.foldl_cons, ih _ hnd.2 hk,
        getKey_normalizeStep_other jsonType acc (key, v') k hne]

/-- The normalizer on a well-formed map none of whose nil-valued keys is
missing from the schema: it returns a map with the same keys, in which a key
reads as `normalizedValue` of what it read before. -/
theorem normalizeTypesOfCtyJson_spec (d : Document) (jsonType : CtyType)
    (hd : distinctKeys d)
    (h : ∀ k, getKey k d = some Json.null → ∃ t, jsonType.AttributeType k = some t) :
    ∃ r, normalizeTypesOfCtyJson d jsonType = .ok r ∧ keys r = keys d ∧
      ∀ k v, getKey k d = some v → getKey k r = normalizedValue jsonType k v (some v) := by
  refine ⟨d.foldl (normalizeStep jsonType) d, ?_, ?_, ?_⟩
  · exact normalizeFrom_eq_fold jsonType d d
      (fun k hk => h k (getKey_of_mem k _ d hd hk))
  · exact keys_foldl_normalizeStep jsonType d d (fun k hk => hk)
  · intro k v hk
    rw [getKey_foldl_normalizeStep jsonType d d k v hd hk, hk]

/-! ## Further facts on the converter -/

theorem convertSlice_eq_map (vs : List CtyValue) :
    convertSlice vs = vs.map convertCtyValue := by
  induction vs with
  | nil => simp [convertSlice]
  | cons v tl ih => simp [convertSlice, ih]

theorem keys_setKey_of_not_mem {α : Type} (k : String) (v : α) (m : List (String × α))
    (hk : k ∉ keys m) : keys (setKey k v m) = keys m ++ [k] := by
  induction m with
  | nil => simp [setKey, keys]
  | cons hd tl ih =>
    obtain ⟨k', v'⟩ := hd
    have h2 : ¬ k = k' ∧ k ∉ keys tl := by
      simpa [keys] using hk
    have h3 : ¬ k' = k := fun e => h2.1 e.symm
    have := ih h2.2
    simp only [keys] at this
    simp [setKey, keys, h3, this]

theorem keys_storeEntries (kvs : List (String × CtyValue)) (result : Document)
    (hd : distinctKeys kvs) (hdis : ∀ k ∈ keys kvs, k ∉ keys result) :
    keys (storeEntries kvs result) = keys result ++ keys kvs := by
  induction kvs generalizing result with
  | nil => simp [storeEntries, keys]
  | cons hd2 tl ih =>
    obtain ⟨key, v⟩ := hd2
    have hs : storeEntries ((key, v) :: tl) result
        = storeEntries tl (setKey key (entryJson v) result) := by
      simp [storeEntries]
    have hnd : key ∉ keys tl ∧ distinctKeys tl := by
      simpa [distinctKeys, keys] using hd
    have hkey : key ∉ keys result := hdis key (by simp [keys])
    rw [hs, ih _ hnd.2, keys_setKey_of_not_mem key _ result hkey]
    · simp [keys]
    · intro k hk
      rw [keys_setKey_of_not_mem key _ result hkey]
      have h1 : k ∉ keys result :=
        hdis k (by simp only [keys, List.map_cons, List.mem_cons]; exact Or.inr hk)
      have h2 : k ≠ key := fun e => hnd.1 (e ▸ hk)
      simp [h1, h2]

theorem distinctKeys_storeEntries (kvs : List (String × CtyValue)) (hd : distinctKeys kvs) :
    keys (storeEntries kvs []) = keys kvs ∧ distinctKeys (storeEntries kvs []) := by
  have h : keys (storeEntries kvs []) = keys kvs := by
    rw [keys_storeEntries kvs [] hd (by simp [keys])]
    simp [keys]
  exact ⟨h, by unfold distinctKeys; rw [h]; exact hd⟩

theorem getKey_attrTypes_of_getKey (kvs : List (String × CtyValue))
    (attrs : List (String × CtyType))
    (hS : ∀ k, getKey k attrs = (getKey k kvs).map CtyValue.type)
    (hd : distinctKeys kvs) (k : String) (j : Json)
    (hk : getKey k (storeEntries kvs []) = some j) :
    ∃ c, getKey k kvs = some c ∧ j = entryJson c ∧ getKey k attrs = some c.type := by
  rw [getKey_storeEntries k kvs [] hd] at hk
  cases hc : getKey k kvs with
  | none => simp [hc, getKey] at hk
  | some c =>
    simp only [hc, Option.some.injEq] at hk
    exact ⟨c, rfl, hk.symm, by simp [hS k, hc]⟩

/-- The conversion pipeline of `ReadResource` on an object value of the typed
value model whose attribute types are those of the schema: the converter
returns a document, the normalizer does not panic on it, the keys are those of
the value, and a key reads as `normalizedValue` of what the converter stored. -/
theorem pipeline_spec (kvs : List (String × CtyValue)) (attrs : List (String × CtyType))
    (hd : distinctKeys kvs) (hm : CtyValue.entriesInModel kvs = true)
    (hS : ∀ k, getKey k attrs = (getKey k kvs).map CtyValue.type) :
    ∃ d r, convertCtyValue (.object kvs) = .obj d ∧
      normalizeTypesOfCtyJson d (.object attrs) = .ok r ∧
      keys r = keys kvs ∧
      ∀ k c, getKey k kvs = some c →
        getKey k r = normalizedValue (.object attrs) k (entryJson c) (some (entryJson c)) := by
  obtain ⟨hkeys, hdd⟩ := distinctKeys_storeEntries kvs hd
  obtain ⟨r, hr, hrk, hrv⟩ := normalizeTypesOfCtyJson_spec (storeEntries kvs []) (.object attrs)
    hdd (by
      intro k hk
      obtain ⟨c, _, _, h3⟩ := getKey_attrTypes_of_getKey kvs attrs hS hd k _ hk
      exact ⟨c.type, by simpa [CtyType.AttributeType] using h3⟩)
  refine ⟨storeEntries kvs [], r, convertCtyValue_object_eq kvs hm, hr, by rw [hrk, hkeys], ?_⟩
  intro k c hc
  have h1 : getKey k (storeEntries kvs []) = some (entryJson c) := by
    rw [getKey_storeEntries k kvs [] hd, hc]
  exact hrv k _ h1

theorem getKey_attrTypesOf (k : String) (kvs : List (String × CtyValue)) :
    getKey k (CtyValue.attrTypesOf kvs) = (getKey k kvs).map CtyValue.type := by
  induction kvs with
  | nil => simp [CtyValue.attrTypesOf, getKey]
  | cons hd tl ih =>
    obtain ⟨key, v⟩ := hd
    by_cases h : key = k
    · simp [CtyValue.attrTypesOf, getKey, h]
    · simp [CtyValue.attrTypesOf, getKey, h, ih]

theorem inModel_of_getElem (vs : List CtyValue) (i : Nat) (v : CtyValue)
    (hm : CtyValue.allInModel vs = true) (hi : vs[i]? = some v) : v.inModel = true := by
  induction vs generalizing i with
  | nil => simp at hi
  | cons hd tl ih =>
    have h2 : hd.inModel = true ∧ CtyValue.allInModel tl = true := by
      simpa [CtyValue.allInModel] using hm
    cases i with
    | zero =>
      simp at hi
      rw [← hi]
      exact h2.1
    | succ n =>
      simp at hi
      exact ih n h2.2 hi

/-! ## Rounding to the nearest double -/

theorem roundHalfEven_cases (t : ℚ) :
    (roundHalfEven t = ⌊t⌋ ∧ t - ⌊t⌋ < 1 / 2) ∨
    (roundHalfEven t = ⌊t⌋ + 1 ∧ 1 / 2 < t - ⌊t⌋) ∨
    (t - ⌊t⌋ = 1 / 2 ∧ roundHalfEven t % 2 = 0 ∧
      (roundHalfEven t = ⌊t⌋ ∨ roundHalfEven t = ⌊t⌋ + 1)) := by
  unfold roundHalfEven
  by_cases h1 : t - ⌊t⌋ < 1 / 2
  · left
    rw [if_pos h1]
    exact ⟨rfl, h1⟩
  · by_cases h2 : 1 / 2 < t - ⌊t⌋
    · right; left
      rw [if_neg h1, if_pos h2]
      exact ⟨rfl, h2⟩
    · right; right
      have h3 : t - ⌊t⌋ = 1 / 2 := le_antisymm (not_lt.1 h2) (not_lt.1 h1)
      refine ⟨h3, ?_⟩
      by_cases h4 : ⌊t⌋ % 2 = 0
      · simp only [h1, h2, h4, if_true, if_false]
        exact ⟨trivial, Or.inl trivial⟩
      · simp only [h1, h2, h4, if_false]
        refine ⟨by omega, Or.inr trivial⟩

theorem roundHalfEven_abs_sub_le (t : ℚ) : |(roundHalfEven t : ℚ) - t| ≤ 1 / 2 := by
  have hf1 : (⌊t⌋ : ℚ) ≤ t := Int.floor_le t
  have hf2 : t < (⌊t⌋ : ℚ) + 1 := Int.lt_floor_add_one t
  rw [abs_le]
  rcases roundHalfEven_cases t with ⟨h, h1⟩ | ⟨h, h1⟩ | ⟨h1, _, h | h⟩ <;>
    rw [h] <;> push_cast <;> constructor <;> linarith

theorem roundHalfEven_nearest (t : ℚ) (k : ℤ) :
    |(roundHalfEven t : ℚ) - t| ≤ |(k : ℚ) - t| := by
  by_cases hk : k = roundHalfEven t
  · rw [hk]
  · have h1 := roundHalfEven_abs_sub_le t
    have h2 : (1 : ℚ) ≤ |(k : ℚ) - (roundHalfEven t : ℚ)| := by
      have : (1 : ℤ) ≤ |k - roundHalfEven t| := Int.one_le_abs (sub_ne_zero.2 hk)
      exact_mod_cast this
    have h3 : |(k : ℚ) - (roundHalfEven t : ℚ)|
        ≤ |(k : ℚ) - t| + |(roundHalfEven t : ℚ) - t| := by
      have := abs_sub_le (k : ℚ) t (roundHalfEven t : ℚ)
      rwa [abs_sub_comm t (roundHalfEven t : ℚ)] at this
    linarith

theorem roundHalfEven_tie_even (t : ℚ) (k : ℤ) (hk : k ≠ roundHalfEven t)
    (htie : |(k : ℚ) - t| = |(roundHalfEven t : ℚ) - t|) : roundHalfEven t % 2 = 0 := by
  have h1 := roundHalfEven_abs_sub_le t
  have h2 : (1 : ℚ) ≤ |(k : ℚ) - (roundHalfEven t : ℚ)| := by
    have : (1 : ℤ) ≤ |k - roundHalfEven t| := Int.one_le_abs (sub_ne_zero.2 hk)
    exact_mod_cast this
  have h3 : |(k : ℚ) - (roundHalfEven t : ℚ)|
      ≤ |(k : ℚ) - t| + |(roundHalfEven t : ℚ) - t| := by
    have := abs_sub_le (k : ℚ) t (roundHalfEven t : ℚ)
    rwa [abs_sub_comm t (roundHalfEven t : ℚ)] at this
  have h4 : |(roundHalfEven t : ℚ) - t| = 1 / 2 := by linarith
  have hf1 : (⌊t⌋ : ℚ) ≤ t := Int.floor_le t
  have hf2 : t < (⌊t⌋ : ℚ) + 1 := Int.lt_floor_add_one t
  rcases roundHalfEven_cases t with ⟨h, h5⟩ | ⟨h, h5⟩ | ⟨_, h, _⟩
  · rw [h, abs_sub_comm, abs_of_nonneg (by linarith)] at h4
    linarith
  · rw [h, abs_of_nonneg (by push_cast; linarith)] at h4
    push_cast at h4
    linarith
  · exact h

theorem roundHalfEven_sub_le_of_le_abs (t : ℚ) (K : ℤ) (hK : (K : ℚ) ≤ |t|) :
    |(roundHalfEven t : ℚ) - t| ≤ |t| - K := by
  rcases le_total 0 t with h | h
  · rw [abs_of_nonneg h] at hK ⊢
    have := roundHalfEven_nearest t K
    rwa [abs_sub_comm (K : ℚ) t, abs_of_nonneg (by linarith : (0 : ℚ) ≤ t - K)] at this
  · rw [abs_of_nonpos h] at hK ⊢
    have := roundHalfEven_nearest t (-K)
    rw [abs_of_nonneg (by push_cast; linarith : (0 : ℚ) ≤ ((-K : ℤ) : ℚ) - t)] at this
    push_cast at this
    linarith

theorem le_abs_roundHalfEven (t : ℚ) (K : ℤ) (hK : (K : ℚ) ≤ |t|) :
    K ≤ |roundHalfEven t| := by
  have h1 := roundHalfEven_sub_le_of_le_abs t K hK
  have h2 : (K : ℚ) ≤ |(roundHalfEven t : ℚ)| := by
    have := abs_sub_abs_le_abs_sub t (roundHalfEven t : ℚ)
    rw [abs_sub_comm] at this
    linarith
  exact_mod_cast h2

theorem abs_roundHalfEven_le (t : ℚ) (K : ℤ) (hK : |t| ≤ (K : ℚ)) :
    |roundHalfEven t| ≤ K := by
  obtain ⟨hl, hu⟩ := abs_le.1 hK
  have h1 := roundHalfEven_nearest t K
  rw [abs_of_nonneg (by linarith : (0 : ℚ) ≤ K - t)] at h1
  have h2 := roundHalfEven_nearest t (-K)
  rw [abs_sub_comm (((-K : ℤ) : ℚ)) t,
    abs_of_nonneg (by push_cast; linarith : (0 : ℚ) ≤ t - ((-K : ℤ) : ℚ))] at h2
  push_cast at h2
  have h3 := le_abs_self ((roundHalfEven t : ℚ) - t)
  have h4 := neg_abs_le ((roundHalfEven t : ℚ) - t)
  have h5 : |(roundHalfEven t : ℚ)| ≤ (K : ℚ) := abs_le.2 ⟨by linarith, by linarith⟩
  exact_mod_cast h5

theorem roundHalfEven_zero : roundHalfEven 0 = 0 := by
  have := abs_roundHalfEven_le 0 0 (by simp)
  exact abs_nonpos_iff.1 this

/-! ### The unit in the last place -/

theorem ulp_pos (x : ℚ) : (0 : ℚ) < 2 ^ ulpExponent x := zpow_pos (by norm_num) _

theorem ulpExponent_ge (x : ℚ) : -1074 ≤ ulpExponent x := le_max_right _ _

theorem two_zpow_log_le (x : ℚ) (hx : x ≠ 0) : (2 : ℚ) ^ Int.log 2 |x| ≤ |x| := by
  have := Int.zpow_log_le_self (b := 2) (r := |x|) (by norm_num) (abs_pos.2 hx)
  simpa using this

theorem lt_two_zpow_log_succ (x : ℚ) : |x| < (2 : ℚ) ^ (Int.log 2 |x| + 1) := by
  have := Int.lt_zpow_succ_log_self (b := 2) (by norm_num) |x|
  simpa using this

theorem abs_lt_ulp_mul (x : ℚ) : |x| < 2 ^ ulpExponent x * 2 ^ (53 : ℕ) := by
  have h1 := lt_two_zpow_log_succ x
  have h2 : (2 : ℚ) ^ (Int.log 2 |x| + 1) ≤ 2 ^ (ulpExponent x + 53) :=
    zpow_le_zpow_right₀ (by norm_num) (by
      have : Int.log 2 |x| - 52 ≤ ulpExponent x := le_max_left _ _
      linarith)
  have h3 : (2 : ℚ) ^ (ulpExponent x + 53) = 2 ^ ulpExponent x * 2 ^ (53 : ℕ) := by
    rw [zpow_add₀ (by norm_num)]
    norm_cast
  linarith

theorem ulp_mul_le_abs (x : ℚ) (hx : x ≠ 0) (hq : -1074 < ulpExponent x) :
    2 ^ ulpExponent x * 2 ^ (52 : ℕ) ≤ |x| := by
  have hq2 : ulpExponent x = Int.log 2 |x| - 52 := by
    unfold ulpExponent at hq ⊢
    rcases max_cases (Int.log 2 |x| - 52) (-1074) with ⟨h, _⟩ | ⟨h, _⟩
    · exact h
    · rw [h] at hq
      exact absurd hq (lt_irrefl _)
  have h1 := two_zpow_log_le x hx
  have h3 : (2 : ℚ) ^ Int.log 2 |x| = 2 ^ ulpExponent x * 2 ^ (52 : ℕ) := by
    have : Int.log 2 |x| = ulpExponent x + 52 := by linarith
    rw [this, zpow_add₀ (by norm_num)]
    norm_cast
  linarith

theorem roundToUlp_sub (x : ℚ) :
    |roundToUlp x - x|
      = |(roundHalfEven (x / 2 ^ ulpExponent x) : ℚ) - x / 2 ^ ulpExponent x|
        * 2 ^ ulpExponent x := by
  have hu := ulp_pos x
  have h : roundToUlp x - x
      = ((roundHalfEven (x / 2 ^ ulpExponent x) : ℚ) - x / 2 ^ ulpExponent x)
        * 2 ^ ulpExponent x := by
    unfold roundToUlp
    rw [sub_mul, div_mul_cancel₀ _ (ne_of_gt hu)]
  rw [h, abs_mul, abs_of_pos hu]

theorem mul_ulp_sub (x : ℚ) (k : ℤ) :
    |(k : ℚ) * 2 ^ ulpExponent x - x|
      = |(k : ℚ) - x / 2 ^ ulpExponent x| * 2 ^ ulpExponent x := by
  have hu := ulp_pos x
  have h : (k : ℚ) * 2 ^ ulpExponent x - x
      = ((k : ℚ) - x / 2 ^ ulpExponent x) * 2 ^ ulpExponent x := by
    rw [sub_mul, div_mul_cancel₀ _ (ne_of_gt hu)]
  rw [h, abs_mul, abs_of_pos hu]

theorem abs_div_ulp (x : ℚ) : |x / 2 ^ ulpExponent x| = |x| / 2 ^ ulpExponent x := by
  rw [abs_div, abs_of_pos (ulp_pos x)]

theorem roundToUlp_zero : roundToUlp 0 = 0 := by
  simp [roundToUlp, roundHalfEven_zero]

/-- A finite double is a multiple of the unit in the last place at `x`, or it
is farther from `x` than the rounded value is. -/
theorem isFloat64_multiple_or_far (x y : ℚ) (hy : isFloat64 y) :
    (∃ k : ℤ, y = (k : ℚ) * 2 ^ ulpExponent x) ∨ |roundToUlp x - x| < |y - x| := by
  obtain ⟨m, a, hm, ha1, _, rfl⟩ := hy
  have hu := ulp_pos x
  by_cases hx : x = 0
  · subst hx
    by_cases hm0 : m = 0
    · left
      exact ⟨0, by simp [hm0]⟩
    · right
      rw [roundToUlp_zero]
      simp only [sub_zero, abs_zero]
      exact abs_pos.2 (mul_ne_zero (by exact_mod_cast hm0) (ne_of_gt (zpow_pos (by norm_num) _)))
  · by_cases hqa : ulpExponent x ≤ a
    · left
      refine ⟨m * 2 ^ (a - ulpExponent x).toNat, ?_⟩
      have h1 : a = ((a - ulpExponent x).toNat : ℤ) + ulpExponent x := by
        rw [Int.toNat_of_nonneg (by linarith)]
        ring
      have h2 : (2 : ℚ) ^ a = 2 ^ (a - ulpExponent x).toNat * 2 ^ ulpExponent x := by
        conv_lhs => rw [h1]
        rw [zpow_add₀ (by norm_num), zpow_natCast]
      rw [h2]
      push_cast
      ring
    · right
      have hq : -1074 < ulpExponent x := by linarith
      have h1 := ulp_mul_le_abs x hx hq
      have h2 : |(m : ℚ) * 2 ^ a| < 2 ^ ulpExponent x * 2 ^ (52 : ℕ) := by
        have hm2 : |(m : ℚ)| < 2 ^ (53 : ℕ) := by exact_mod_cast hm
        have ha : (0 : ℚ) < 2 ^ a := zpow_pos (by norm_num) _
        rw [abs_mul, abs_of_pos ha]
        have h3 : (2 : ℚ) ^ (53 : ℕ) * 2 ^ a ≤ 2 ^ ulpExponent x * 2 ^ (52 : ℕ) := by
          have e1 : (2 : ℚ) ^ (53 : ℕ) * 2 ^ a = 2 ^ (a + 53) := by
            rw [zpow_add₀ (by norm_num)]
            norm_cast
            ring
          have e2 : (2 : ℚ) ^ ulpExponent x * 2 ^ (52 : ℕ) = 2 ^ (ulpExponent x + 52) := by
            rw [zpow_add₀ (by norm_num)]
            norm_cast
          rw [e1, e2]
          exact zpow_le_zpow_right₀ (by norm_num) (by omega)
        have h4 : |(m : ℚ)| * 2 ^ a < 2 ^ (53 : ℕ) * 2 ^ a := mul_lt_mul_of_pos_right hm2 ha
        linarith
      have h5 : ((2 ^ 52 : ℤ) : ℚ) ≤ |x / 2 ^ ulpExponent x| := by
        rw [abs_div_ulp, le_div_iff₀ hu]
        push_cast
        linarith
      have h6 := roundHalfEven_sub_le_of_le_abs _ _ h5
      have h7 : |roundToUlp x - x| ≤ |x| - 2 ^ ulpExponent x * 2 ^ (52 : ℕ) := by
        rw [roundToUlp_sub]
        have := mul_le_mul_of_nonneg_right h6 (le_of_lt hu)
        rw [abs_div_ulp, sub_mul, div_mul_cancel₀ _ (ne_of_gt hu)] at this
        push_cast at this
        linarith
      have h8 := abs_sub_abs_le_abs_sub x ((m : ℚ) * 2 ^ a)
      rw [abs_sub_comm x] at h8
      linarith

/-- The rounded value is at least as close to `x` as every finite double. -/
theorem roundToUlp_nearest (x y : ℚ) (hy : isFloat64 y) :
    |roundToUlp x - x| ≤ |y - x| := by
  rcases isFloat64_multiple_or_far x y hy with ⟨k, rfl⟩ | h
  · rw [roundToUlp_sub, mul_ulp_sub]
    exact mul_le_mul_of_nonneg_right (roundHalfEven_nearest _ k) (le_of_lt (ulp_pos x))
  · exact le_of_lt h

/-- When another finite double is as close to `x` as the rounded value, the
rounded value is an even multiple of the unit in the last place. -/
theorem roundToUlp_tie (x y : ℚ) (hy : isFloat64 y) (hne : y ≠ roundToUlp x)
    (htie : |y - x| = |roundToUlp x - x|) :
    roundHalfEven (x / 2 ^ ulpExponent x) % 2 = 0 := by
  have hu := ulp_pos x
  rcases isFloat64_multiple_or_far x y hy with ⟨k, rfl⟩ | h
  · refine roundHalfEven_tie_even _ k ?_ ?_
    · intro hk
      apply hne
      rw [hk, roundToUlp]
    · rw [roundToUlp_sub, mul_ulp_sub] at htie
      exact mul_right_cancel₀ (ne_of_gt hu) htie
  · rw [htie] at h
    exact absurd h (lt_irrefl _)

theorem abs_div_ulp_lt (x : ℚ) : |x / 2 ^ ulpExponent x| < 2 ^ (53 : ℕ) := by
  rw [abs_div_ulp, div_lt_iff₀ (ulp_pos x)]
  have := abs_lt_ulp_mul x
  linarith

theorem abs_roundHalfEven_div_ulp_le (x : ℚ) :
    |roundHalfEven (x / 2 ^ ulpExponent x)| ≤ 2 ^ 53 := by
  apply abs_roundHalfEven_le
  have := abs_div_ulp_lt x
  push_cast
  linarith

theorem le_abs_roundHalfEven_div_ulp (x : ℚ) (hx : x ≠ 0) (hq : -1074 < ulpExponent x) :
    2 ^ 52 ≤ |roundHalfEven (x / 2 ^ ulpExponent x)| := by
  apply le_abs_roundHalfEven
  rw [abs_div_ulp, le_div_iff₀ (ulp_pos x)]
  have := ulp_mul_le_abs x hx hq
  push_cast
  linarith

theorem abs_roundToUlp (x : ℚ) :
    |roundToUlp x| = (|roundHalfEven (x / 2 ^ ulpExponent x)| : ℤ) * 2 ^ ulpExponent x := by
  unfold roundToUlp
  rw [abs_mul, abs_of_pos (ulp_pos x)]
  push_cast
  rfl

theorem ulpExponent_lt_of_le_abs (x : ℚ) (j : ℕ) (c : ℤ)
    (hr : |roundToUlp x| < 2 ^ (1024 : ℕ))
    (hn : 2 ^ j ≤ |roundHalfEven (x / 2 ^ ulpExponent x)|) (hc : c + j = 1024) :
    ulpExponent x < c := by
  have hu := ulp_pos x
  rw [abs_roundToUlp] at hr
  have h1 : ((2 ^ j : ℤ) : ℚ) * 2 ^ ulpExponent x
      ≤ (|roundHalfEven (x / 2 ^ ulpExponent x)| : ℤ) * 2 ^ ulpExponent x :=
    mul_le_mul_of_nonneg_right (by exact_mod_cast hn) (le_of_lt hu)
  have h2 : ((2 ^ j : ℤ) : ℚ) * 2 ^ ulpExponent x = 2 ^ (ulpExponent x + j) := by
    rw [zpow_add₀ (by norm_num), zpow_natCast]
    push_cast
    ring
  have h3 : (2 : ℚ) ^ (ulpExponent x + j) < 2 ^ ((1024 : ℕ) : ℤ) := by
    rw [zpow_natCast]
    linarith
  have h4 := (zpow_lt_zpow_iff_right₀ (by norm_num : (1 : ℚ) < 2)).1 h3
  push_cast at h4
  linarith

/-- A rounded value below `2 ^ 1024` is a finite double, written with the
significand and the exponent of its IEEE encoding. -/
theorem roundToUlp_encoding (x : ℚ) (hr : |roundToUlp x| < 2 ^ (1024 : ℕ)) :
    ∃ m e : ℤ, roundToUlp x = (m : ℚ) * 2 ^ e ∧ -1074 ≤ e ∧ e ≤ 971 ∧
      ((2 ^ 52 ≤ |m| ∧ |m| < 2 ^ 53) ∨ (e = -1074 ∧ |m| < 2 ^ 52)) ∧
      (roundHalfEven (x / 2 ^ ulpExponent x) % 2 = 0 → m % 2 = 0) := by
  have hq := ulpExponent_ge x
  have hle := abs_roundHalfEven_div_ulp_le x
  by_cases h52 : |roundHalfEven (x / 2 ^ ulpExponent x)| < 2 ^ 52
  · by_cases h0 : roundHalfEven (x / 2 ^ ulpExponent x) = 0
    · exact ⟨0, -1074, by simp [roundToUlp, h0], le_refl _, by norm_num,
        Or.inr ⟨rfl, by norm_num⟩, fun _ => rfl⟩
    · have hx : x ≠ 0 := by
        intro hx
        apply h0
        rw [hx, zero_div, roundHalfEven_zero]
      have hq2 : ulpExponent x = -1074 := by
        by_contra hne
        have := le_abs_roundHalfEven_div_ulp x hx (lt_of_le_of_ne hq (Ne.symm hne))
        linarith
      exact ⟨roundHalfEven (x / 2 ^ ulpExponent x), ulpExponent x, rfl, hq,
        by rw [hq2]; norm_num, Or.inr ⟨hq2, h52⟩, fun h => h⟩
  · have h52b : 2 ^ 52 ≤ |roundHalfEven (x / 2 ^ ulpExponent x)| := not_lt.1 h52
    by_cases h53 : |roundHalfEven (x / 2 ^ ulpExponent x)| < 2 ^ 53
    · have := ulpExponent_lt_of_le_abs x 52 972 hr h52b (by norm_num)
      exact ⟨roundHalfEven (x / 2 ^ ulpExponent x), ulpExponent x, rfl, hq, by omega,
        Or.inl ⟨h52b, h53⟩, fun h => h⟩
    · have h53b : 2 ^ 53 ≤ |roundHalfEven (x / 2 ^ ulpExponent x)| := not_lt.1 h53
      have hlt := ulpExponent_lt_of_le_abs x 53 971 hr h53b (by norm_num)
      have heq : |roundHalfEven (x / 2 ^ ulpExponent x)| = 2 ^ 53 := le_antisymm hle h53b
      have hu1 : (2 : ℚ) ^ (ulpExponent x + 1) = 2 * 2 ^ ulpExponent x := by
        rw [zpow_add₀ (by norm_num), zpow_one]
        ring
      rcases (abs_eq (by norm_num : (0 : ℤ) ≤ 2 ^ 53)).1 heq with hn | hn
      · refine ⟨2 ^ 52, ulpExponent x + 1, ?_, by omega, by omega,
          Or.inl ⟨by norm_num, by norm_num⟩, fun _ => by norm_num⟩
        rw [roundToUlp, hn, hu1]
        push_cast
        ring
      · refine ⟨-2 ^ 52, ulpExponent x + 1, ?_, by omega, by omega,
          Or.inl ⟨by norm_num, by norm_num⟩, fun _ => by norm_num⟩
        rw [roundToUlp, hn, hu1]
        push_cast
        ring

theorem two_pow_1024 : (2 : ℚ) ^ (1024 : ℕ) = 2 ^ (54 : ℕ) * 2 ^ (970 : ℕ) := by
  rw [← pow_add]

theorem two_pow_1023 : (2 : ℚ) ^ (1023 : ℕ) = 2 ^ (53 : ℕ) * 2 ^ (970 : ℕ) := by
  rw [← pow_add]

theorem two_pow_971 : (2 : ℚ) ^ (971 : ℕ) = 2 ^ (1 : ℕ) * 2 ^ (970 : ℕ) := by
  rw [← pow_add]

theorem two_pow_970_pos : (0 : ℚ) < 2 ^ (970 : ℕ) := pow_pos (by norm_num) _

theorem ulpExponent_le_of_abs_lt (x : ℚ) (hx : |x| < 2 ^ (1024 : ℕ)) : ulpExponent x ≤ 971 := by
  unfold ulpExponent
  apply max_le _ (by norm_num)
  by_cases h0 : x = 0
  · simp [h0]
  · have h2 : ((2 : ℕ) : ℚ) = 2 := by norm_num
    have h1 : |x| < ((2 : ℕ) : ℚ) ^ ((1024 : ℕ) : ℤ) := by
      rw [zpow_natCast, h2]
      exact hx
    have h3 := (Int.lt_zpow_iff_log_lt (b := 2) (by norm_num) (abs_pos.2 h0)).1 h1
    have h4 : ((1024 : ℕ) : ℤ) = 1024 := rfl
    rw [h4] at h3
    linarith

theorem roundToUlp_lt_of_abs_lt (x : ℚ) (hx : |x| < 2 ^ (1024 : ℕ) - 2 ^ (970 : ℕ)) :
    |roundToUlp x| < 2 ^ (1024 : ℕ) := by
  have hu := ulp_pos x
  have hP := two_pow_970_pos
  have hq := ulpExponent_le_of_abs_lt x (lt_of_lt_of_le hx (sub_le_self _ (le_of_lt hP)))
  have h1 : |roundToUlp x - x| ≤ 2 ^ (970 : ℕ) := by
    rw [roundToUlp_sub]
    have h2 := mul_le_mul_of_nonneg_right (roundHalfEven_abs_sub_le (x / 2 ^ ulpExponent x))
      (le_of_lt hu)
    have h3 : (2 : ℚ) ^ ulpExponent x ≤ 2 ^ ((971 : ℕ) : ℤ) :=
      zpow_le_zpow_right₀ (by norm_num) (by rw [Nat.cast_ofNat]; exact hq)
    rw [zpow_natCast, two_pow_971] at h3
    linarith
  have h5 := abs_sub_abs_le_abs_sub (roundToUlp x) x
  linarith

theorem abs_lt_of_roundToUlp_lt (x : ℚ) (hr : |roundToUlp x| < 2 ^ (1024 : ℕ)) :
    |x| < 2 ^ (1024 : ℕ) - 2 ^ (970 : ℕ) := by
  by_contra hcon
  have hT : (2 : ℚ) ^ (1024 : ℕ) - 2 ^ (970 : ℕ) ≤ |x| := not_lt.1 hcon
  have hu := ulp_pos x
  have hP := two_pow_970_pos
  have hx : x ≠ 0 := by
    intro h0
    rw [h0, abs_zero, two_pow_1024] at hT
    have : (1 : ℚ) * 2 ^ (970 : ℕ) < 2 ^ (54 : ℕ) * 2 ^ (970 : ℕ) :=
      mul_lt_mul_of_pos_right (by norm_num) hP
    linarith
  have he : (1023 : ℤ) ≤ Int.log 2 |x| := by
    have h1 : (((2 : ℕ) : ℚ)) ^ ((1023 : ℕ) : ℤ) ≤ |x| := by
      rw [zpow_natCast, Nat.cast_ofNat, two_pow_1023]
      rw [two_pow_1024] at hT
      norm_num at hT ⊢
      linarith
    have := (Int.zpow_le_iff_le_log (b := 2) (by norm_num) (abs_pos.2 hx)).1 h1
    rw [Nat.cast_ofNat] at this
    exact this
  have hq1 : 971 ≤ ulpExponent x := by
    have : Int.log 2 |x| - 52 ≤ ulpExponent x := le_max_left _ _
    linarith
  have h52 := le_abs_roundHalfEven_div_ulp x hx (by linarith)
  have hq2 := ulpExponent_lt_of_le_abs x 52 972 hr h52 (by norm_num)
  have hq : ulpExponent x = 971 := by omega
  have h53 : |roundHalfEven (x / 2 ^ ulpExponent x)| < 2 ^ 53 := by
    by_contra h
    have := ulpExponent_lt_of_le_abs x 53 971 hr (not_lt.1 h) (by norm_num)
    omega
  have hu2 : (2 : ℚ) ^ ulpExponent x = 2 ^ (971 : ℕ) := by
    rw [hq, ← zpow_natCast, Nat.cast_ofNat]
  have ht : (2 : ℚ) ^ (53 : ℕ) - 1 / 2 ≤ |x / 2 ^ ulpExponent x| := by
    rw [abs_div_ulp, le_div_iff₀ hu, hu2, two_pow_971]
    rw [two_pow_1024] at hT
    norm_num at hT ⊢
    linarith
  have hhalf := roundHalfEven_abs_sub_le (x / 2 ^ ulpExponent x)
  have hnq : |(roundHalfEven (x / 2 ^ ulpExponent x) : ℚ)| ≤ 2 ^ (53 : ℕ) - 1 := by
    have : |roundHalfEven (x / 2 ^ ulpExponent x)| ≤ 2 ^ 53 - 1 := by omega
    exact_mod_cast this
  have heven : roundHalfEven (x / 2 ^ ulpExponent x) % 2 = 0 := by
    rcases le_total 0 (x / 2 ^ ulpExponent x) with hs | hs
    · rw [abs_of_nonneg hs] at ht
      obtain ⟨ha, hb⟩ := abs_le.1 hhalf
      have hn1 := (abs_le.1 hnq).2
      refine roundHalfEven_tie_even _ (2 ^ 53) ?_ ?_
      · intro hk
        rw [← hk] at hn1
        norm_num at hn1
      · have e1 : x / 2 ^ ulpExponent x = 2 ^ (53 : ℕ) - 1 / 2 := by linarith
        have e2 : (roundHalfEven (x / 2 ^ ulpExponent x) : ℚ) = 2 ^ (53 : ℕ) - 1 := by linarith
        rw [e2, e1]
        norm_num
    · rw [abs_of_nonpos hs] at ht
      obtain ⟨ha, hb⟩ := abs_le.1 hhalf
      have hn1 := (abs_le.1 hnq).1
      refine roundHalfEven_tie_even _ (-2 ^ 53) ?_ ?_
      · intro hk
        rw [← hk] at hn1
        norm_num at hn1
      · have e1 : x / 2 ^ ulpExponent x = -(2 ^ (53 : ℕ) - 1 / 2) := by linarith
        have e2 : (roundHalfEven (x / 2 ^ ulpExponent x) : ℚ) = -(2 ^ (53 : ℕ) - 1) := by
          linarith
        rw [e2, e1]
        norm_num
  have hodd : |roundHalfEven (x / 2 ^ ulpExponent x)| = 2 ^ 53 - 1 := by
    have h1 : (2 : ℚ) ^ (53 : ℕ) - 1 ≤ |(roundHalfEven (x / 2 ^ ulpExponent x) : ℚ)| := by
      have := abs_sub_abs_le_abs_sub (x / 2 ^ ulpExponent x)
        (roundHalfEven (x / 2 ^ ulpExponent x) : ℚ)
      rw [abs_sub_comm] at this
      linarith
    have h2 : (2 : ℤ) ^ 53 - 1 ≤ |roundHalfEven (x / 2 ^ ulpExponent x)| := by
      exact_mod_cast h1
    omega
  rcases (abs_eq (by norm_num : (0 : ℤ) ≤ 2 ^ 53 - 1)).1 hodd with hn | hn
  · rw [hn] at heven
    norm_num at heven
  · rw [hn] at heven
    norm_num at heven

theorem roundToUlp_example : roundToUlp 9007199254740993 = 9007199254740992 := by
  have hlog : Int.log 2 |(9007199254740993 : ℚ)| = 53 := by
    rw [abs_of_pos (by norm_num)]
    have h : (9007199254740993 : ℚ) = ((9007199254740993 : ℕ) : ℚ) := by norm_num
    rw [h, Int.log_natCast]
    have : Nat.log 2 9007199254740993 = 53 :=
      Nat.log_eq_of_pow_le_of_lt_pow (by norm_num) (by norm_num)
    rw [this]
    rfl
  have hq : ulpExponent 9007199254740993 = 1 := by
    rw [ulpExponent, hlog]
    norm_num
  have hfloor : ⌊(9007199254740993 : ℚ) / 2⌋ = 4503599627370496 := by
    rw [Int.floor_eq_iff]
    constructor <;> norm_num
  have hn : roundHalfEven ((9007199254740993 : ℚ) / 2) = 4503599627370496 := by
    unfold roundHalfEven
    rw [hfloor]
    norm_num
  rw [roundToUlp, hq, zpow_one, hn]
  norm_num

/-! ## The normalizer on the output of the converter -/

theorem normalizeFrom_unchanged (jsonType : CtyType) (todo jsonValue : Document)
    (h : ∀ k, (k, Json.null) ∈ todo →
      ∃ t, jsonType.AttributeType k = some t ∧ t.IsListType = false) :
    normalizeFrom jsonType todo jsonValue = .ok jsonValue := by
  induction todo with
  | nil => simp [normalizeFrom]
  | cons hd tl ih =>
    obtain ⟨key, v⟩ := hd
    have htl := ih (fun k hk => h k (List.mem_cons_of_mem _ hk))
    cases v with
    | null =>
      obtain ⟨t, ht, hl⟩ := h key (List.mem_cons_self _ _)
      simp [normalizeFrom, ht, hl, htl]
    | str s => simpa [normalizeFrom] using htl
    | num x => simpa [normalizeFrom] using htl
    | bool b => simpa [normalizeFrom] using htl
    | arr xs => simpa [normalizeFrom] using htl
    | obj kvs => simpa [normalizeFrom] using htl
    | nilMap => simpa [normalizeFrom] using htl

theorem entryJson_eq_null (c : CtyValue) (hm : c.inModel = true)
    (h : entryJson c = Json.null) : c.IsNull = true ∧ c.type.IsListType = false := by
  cases c with
  | null ty =>
    rw [entryJson_null] at h
    by_cases hl : ty.IsListType = true
    · simp [hl] at h
    · simpa [CtyValue.IsNull, CtyValue.type] using hl
  | str s => simp [entryJson, convertCtyMapEntry] at h
  | num x => simp [entryJson, convertCtyMapEntry] at h
  | bool b => simp [entryJson, convertCtyMapEntry] at h
  | list e vs => simp [entryJson, convertCtyMapEntry] at h
  | tuple vs => simp [entryJson, convertCtyMapEntry] at h
  | set e vs => simp [entryJson, convertCtyMapEntry] at h
  | map e kvs =>
    have h2 : CtyValue.entriesInModel kvs = true := by simpa [CtyValue.inModel] using hm
    simp [entryJson, convertCtyMapEntry, convertCtyMapPtrFrom_eq_storeEntries kvs h2] at h
  | object kvs =>
    have h2 : CtyValue.entriesInModel kvs = true := by simpa [CtyValue.inModel] using hm
    simp [entryJson, convertCtyMapEntry, convertCtyMapPtrFrom_eq_storeEntries kvs h2] at h
  | capsule n => simp [CtyValue.inModel] at hm

/-! ## Integers and the nearest double -/

theorem bigFloatFloat64_example :
    bigFloatFloat64 9007199254740993 = .finite 9007199254740992 := by
  unfold bigFloatFloat64
  rw [roundToUlp_example, if_neg]
  rw [two_pow_1024, abs_of_pos (by norm_num)]
  have hP : (1 : ℚ) ≤ 2 ^ (970 : ℕ) := one_le_pow₀ (by norm_num)
  have : (2 : ℚ) ^ (54 : ℕ) * 1 ≤ 2 ^ (54 : ℕ) * 2 ^ (970 : ℕ) :=
    mul_le_mul_of_nonneg_left hP (by norm_num)
  have h54 : (9007199254740992 : ℚ) < 2 ^ (54 : ℕ) * 1 := by norm_num
  exact not_le.2 (lt_of_lt_of_le h54 this)

theorem isFloat64_abs_lt (x : ℚ) (h : isFloat64 x) :
    |x| < 2 ^ (1024 : ℕ) - 2 ^ (970 : ℕ) := by
  obtain ⟨m, e, hm, _, he, rfl⟩ := h
  have hP := two_pow_970_pos
  have he2 : (2 : ℚ) ^ e ≤ 2 ^ ((971 : ℕ) : ℤ) :=
    zpow_le_zpow_right₀ (by norm_num) (by
      have h4 : ((971 : ℕ) : ℤ) = 971 := rfl
      rw [h4]
      exact he)
  rw [zpow_natCast, two_pow_971] at he2
  have hpos : (0 : ℚ) < 2 ^ e := zpow_pos (by norm_num) _
  have hm2 : |(m : ℚ)| ≤ 2 ^ (53 : ℕ) - 1 := by
    have : |m| ≤ 2 ^ 53 - 1 := by omega
    exact_mod_cast this
  rw [abs_mul, abs_of_pos hpos, two_pow_1024]
  have h1 : |(m : ℚ)| * 2 ^ e ≤ (2 ^ (53 : ℕ) - 1) * 2 ^ e :=
    mul_le_mul_of_nonneg_right hm2 (le_of_lt hpos)
  have h2 : ((2 : ℚ) ^ (53 : ℕ) - 1) * 2 ^ e ≤ (2 ^ (53 : ℕ) - 1) * (2 ^ (1 : ℕ) * 2 ^ (970 : ℕ)) :=
    mul_le_mul_of_nonneg_left he2 (by norm_num)
  have h3 : ((2 : ℚ) ^ (53 : ℕ) - 1) * (2 ^ (1 : ℕ) * 2 ^ (970 : ℕ))
      < 2 ^ (54 : ℕ) * 2 ^ (970 : ℕ) - 2 ^ (970 : ℕ) := by
    have e1 : ((2 : ℚ) ^ (53 : ℕ) - 1) * (2 ^ (1 : ℕ) * 2 ^ (970 : ℕ))
        = (2 ^ (54 : ℕ) - 2) * 2 ^ (970 : ℕ) := by
      have : (2 : ℚ) ^ (54 : ℕ) = 2 ^ (53 : ℕ) * 2 := by norm_num
      rw [this, pow_one]
      ring
    rw [e1]
    have e2 : (2 : ℚ) ^ (54 : ℕ) * 2 ^ (970 : ℕ) - 2 ^ (970 : ℕ)
        = (2 ^ (54 : ℕ) - 2) * 2 ^ (970 : ℕ) + 2 ^ (970 : ℕ) := by ring
    rw [e2]
    linarith
  linarith

/-- A finite double is converted to itself. -/
theorem bigFloatFloat64_of_isFloat64 (x : ℚ) (h : isFloat64 x) :
    bigFloatFloat64 x = .finite x := by
  have h1 := roundToUlp_lt_of_abs_lt x (isFloat64_abs_lt x h)
  have h2 := roundToUlp_nearest x x h
  rw [sub_self, abs_zero] at h2
  have h3 : roundToUlp x = x := sub_eq_zero.1 (abs_nonpos_iff.1 h2)
  unfold bigFloatFloat64
  rw [if_neg (not_le.2 h1), h3]

theorem isFloat64_intCast (n : ℤ) (h : |n| ≤ 2 ^ 53) : isFloat64 (n : ℚ) := by
  by_cases h1 : |n| < 2 ^ 53
  · exact ⟨n, 0, h1, by norm_num, by norm_num, by simp⟩
  · have h2 : |n| = 2 ^ 53 := le_antisymm h (not_lt.1 h1)
    rcases (abs_eq (by norm_num : (0 : ℤ) ≤ 2 ^ 53)).1 h2 with hn | hn
    · exact ⟨2 ^ 52, 1, by norm_num, by norm_num, by norm_num, by rw [hn]; norm_num⟩
    · exact ⟨-2 ^ 52, 1, by norm_num, by norm_num, by norm_num, by rw [hn]; norm_num⟩

/-- An integer of magnitude up to `2 ^ 53` is converted to itself. -/
theorem bigFloatFloat64_intCast (n : ℤ) (h : |n| ≤ 2 ^ 53) :
    bigFloatFloat64 (n : ℚ) = .finite n :=
  bigFloatFloat64_of_isFloat64 _ (isFloat64_intCast n h)

/-- An integer in the range of `int64` is converted to a finite double. -/
theorem bigFloatFloat64_int64 (n : ℤ) (h : |n| ≤ 2 ^ 63) :
    ∃ r, bigFloatFloat64 (n : ℚ) = .finite r := by
  have hP : (2 : ℚ) ^ (63 : ℕ) ≤ 2 ^ (970 : ℕ) :=
    pow_le_pow_right₀ (by norm_num) (by norm_num)
  have hn : |(n : ℚ)| ≤ 2 ^ (63 : ℕ) := by exact_mod_cast h
  have hT : |(n : ℚ)| < 2 ^ (1024 : ℕ) - 2 ^ (970 : ℕ) := by
    rw [two_pow_1024]
    have hpos := two_pow_970_pos
    have : (2 : ℚ) * 2 ^ (970 : ℕ) ≤ 2 ^ (54 : ℕ) * 2 ^ (970 : ℕ) :=
      mul_le_mul_of_nonneg_right (by norm_num) (le_of_lt hpos)
    linarith
  refine ⟨roundToUlp n, ?_⟩
  unfold bigFloatFloat64
  rw [if_neg (not_le.2 (roundToUlp_lt_of_abs_lt _ hT))]

/-! ## The claims -/

/-- C1: for a non-null object value of the typed value model whose attribute
types are those of the object schema, the normalized conversion has the keys of
the value, maps every attribute declared as a list to an array, and maps a null
list-typed attribute to the empty array; for the schema
`{name: String, tags: List(String)}` and the value `{name: "foo", tags: null}`
the result is `{"name": "foo", "tags": []}`. -/
theorem normalize_convert_list_attributes :
    (∀ (kvs : List (String × CtyValue)) (attrs : List (String × CtyType)),
      distinctKeys kvs → CtyValue.entriesInModel kvs = true →
      (∀ k, getKey k attrs = (getKey k kvs).map CtyValue.type) →
      ∃ d r, convertCtyValue (.object kvs) = .obj d ∧
        normalizeTypesOfCtyJson d (.object attrs) = .ok r ∧
        (∀ k, k ∈ keys r ↔ k ∈ keys kvs) ∧
        (∀ k elem, getKey k attrs = some (.list elem) → ∃ xs, getKey k r = some (.arr xs)) ∧
        (∀ k ty, getKey k kvs = some (.null ty) → ty.IsListType = true →
          getKey k r = some (.arr []))) ∧
    (∃ d, convertCtyValue (.object [("name", .str "foo"), ("tags", .null (.list .string))])
          = .obj d ∧
      normalizeTypesOfCtyJson d (.object [("name", .string), ("tags", .list .string)])
          = .ok [("name", .str "foo"), ("tags", .arr [])]) := by
  refine ⟨?_, ⟨[("name", .str "foo"), ("tags", .arr [])], rfl, rfl⟩⟩
  intro kvs attrs hd hm hS
  obtain ⟨d, r, hconv, hnorm, hkeys, hval⟩ := pipeline_spec kvs attrs hd hm hS
  refine ⟨d, r, hconv, hnorm, fun k => by rw [hkeys], ?_, ?_⟩
  · intro k elem hk
    rw [hS k] at hk
    cases hc : getKey k kvs with
    | none => simp [hc] at hk
    | some c =>
      simp only [hc, Option.map_some', Option.some.injEq] at hk
      rw [hval k c hc]
      cases c with
      | null ty =>
        simp only [CtyValue.type] at hk
        subst hk
        exact ⟨[], by simp [entryJson, convertCtyMapEntry, CtyType.IsListType, normalizedValue]⟩
      | list e vs =>
        exact ⟨convertSlice vs, by simp [entryJson, convertCtyMapEntry, normalizedValue]⟩
      | str s => simp [CtyValue.type] at hk
      | num x => simp [CtyValue.type] at hk
      | bool b => simp [CtyValue.type] at hk
      | tuple vs => simp [CtyValue.type] at hk
      | set e vs => simp [CtyValue.type] at hk
      | map e kvs2 => simp [CtyValue.type] at hk
      | object kvs2 => simp [CtyValue.type] at hk
      | capsule n => simp [CtyValue.type] at hk
  · intro k ty hk hl
    rw [hval k _ hk]
    simp [entryJson, convertCtyMapEntry, hl, normalizedValue]

/-- Witness of C1 at the value `{name: "foo", tags: null}`. -/
theorem normalize_convert_list_attributes_witness :
    distinctKeys widgetValue ∧ CtyValue.entriesInModel widgetValue = true ∧
    (∀ k, getKey k widgetSchema = (getKey k widgetValue).map CtyValue.type) ∧
    ∃ d r, convertCtyValue (.object widgetValue) = .obj d ∧
      normalizeTypesOfCtyJson d (.object widgetSchema) = .ok r ∧
      (∀ k, k ∈ keys r ↔ k ∈ keys widgetValue) ∧
      (∀ k elem, getKey k widgetSchema = some (.list elem) →
        ∃ xs, getKey k r = some (.arr xs)) ∧
      (∀ k ty, getKey k widgetValue = some (.null ty) → ty.IsListType = true →
        getKey k r = some (.arr [])) :=
  have h1 : distinctKeys widgetValue := by simp [distinctKeys, keys, widgetValue]
  have h3 : ∀ k, getKey k widgetSchema = (getKey k widgetValue).map CtyValue.type :=
    fun k => getKey_attrTypesOf k widgetValue
  ⟨h1, rfl, h3, normalize_convert_list_attributes.1 widgetValue widgetSchema h1 rfl h3⟩

/-- C2, evaluated on the code: `convertCtyValue` returns the slice of the
converted elements, in the stored order, for a list and for a tuple, but nil
for every set, while the loop of `convertCtyMap` converts the same set to the
slice of its converted elements. -/
theorem convertCtyValue_collections :
    (∀ elem vs, convertCtyValue (.list elem vs) = .arr (vs.map convertCtyValue)) ∧
    (∀ vs, convertCtyValue (.tuple vs) = .arr (vs.map convertCtyValue)) ∧
    (∀ elem vs, convertCtyValue (.set elem vs) = .null) ∧
    convertCtyValue (.set .string [.str "a", .str "b"]) = .null ∧
    convertCtyMapEntry (.set .string [.str "a", .str "b"]) = .ok (.arr [.str "a", .str "b"]) := by
  refine ⟨?_, ?_, ?_, rfl, rfl⟩
  · intro elem vs
    simp [convertCtyValue, convertSlice_eq_map]
  · intro vs
    simp [convertCtyValue, convertSlice_eq_map]
  · intro elem vs
    simp [convertCtyValue]

/-- C3 as stated fails: for the object `{tags: null}` with `tags` of type
`List(String)` the document maps `tags` to the empty array, which is not the
conversion of the child. -/
theorem convertCtyValue_entry_counterexample :
    ¬ (∃ d, convertCtyValue (.object [("tags", .null (.list .string))]) = .obj d ∧
        getKey "tags" d = some (convertCtyValue (.null (.list .string)))) := by
  rintro ⟨d, hd, hk⟩
  have h : convertCtyValue (.object [("tags", .null (.list .string))])
      = .obj [("tags", .arr [])] := rfl
  rw [h] at hd
  injection hd with hd
  subst hd
  simp [getKey, convertCtyValue] at hk

/-- C3, amended: for a non-null map or object value of the typed value model
and every key with child `c`, the document of `convertCtyValue` maps the key to
the empty array when `c` is a null of list type, and to `convertCtyValue c`
when `c` is neither a null of list type nor a non-null set. -/
theorem convertCtyValue_entry (kvs : List (String × CtyValue)) (k : String) (c : CtyValue)
    (hd : distinctKeys kvs) (hm : CtyValue.entriesInModel kvs = true)
    (hk : getKey k kvs = some c) :
    ∃ d, (∀ elem, convertCtyValue (.map elem kvs) = .obj d) ∧
      convertCtyValue (.object kvs) = .obj d ∧
      ((c.IsNull = true ∧ c.type.IsListType = true) → getKey k d = some (.arr [])) ∧
      (¬ (c.IsNull = true ∧ c.type.IsListType = true) →
        ¬ (c.IsNull = false ∧ c.type.IsSetType = true) →
        getKey k d = some (convertCtyValue c)) := by
  have h1 : getKey k (storeEntries kvs []) = some (entryJson c) := by
    rw [getKey_storeEntries k kvs [] hd, hk]
  refine ⟨storeEntries kvs [], fun elem => convertCtyValue_map_eq elem kvs hm,
    convertCtyValue_object_eq kvs hm, ?_, ?_⟩
  · rintro ⟨hn, hl⟩
    cases c with
    | null ty =>
      rw [h1, entryJson_null]
      simp only [CtyValue.type] at hl
      simp [hl]
    | _ => simp [CtyValue.IsNull] at hn
  · intro hn hs
    rw [h1, entryJson_eq_convertCtyValue c (inModel_of_getKey k kvs c hm hk) hn hs]

/-- Witness of the amended C3 at `{name: "foo", tags: null}`, key `name`. -/
theorem convertCtyValue_entry_witness :
    distinctKeys widgetValue ∧ CtyValue.entriesInModel widgetValue = true ∧
    getKey "name" widgetValue = some (.str "foo") ∧
    ∃ d, (∀ elem, convertCtyValue (.map elem widgetValue) = .obj d) ∧
      convertCtyValue (.object widgetValue) = .obj d ∧
      (((CtyValue.str "foo").IsNull = true ∧ (CtyValue.str "foo").type.IsListType = true) →
        getKey "name" d = some (.arr [])) ∧
      (¬ ((CtyValue.str "foo").IsNull = true ∧ (CtyValue.str "foo").type.IsListType = true) →
        ¬ ((CtyValue.str "foo").IsNull = false ∧ (CtyValue.str "foo").type.IsSetType = true) →
        getKey "name" d = some (convertCtyValue (.str "foo"))) :=
  have h1 : distinctKeys widgetValue := by simp [distinctKeys, keys, widgetValue]
  ⟨h1, rfl, rfl, convertCtyValue_entry widgetValue "name" (.str "foo") h1 rfl rfl⟩

/-- C4 as stated fails: a null value whose declared type is a set, or a tuple,
stays null, and the call panics when another null-valued key is missing from
the schema. -/
theorem normalize_collection_counterexample :
    ¬ (∃ r, normalizeTypesOfCtyJson [("x", .null)] (.object [("x", .set .string)]) = .ok r ∧
        getKey "x" r = some (.arr [])) ∧
    ¬ (∃ r, normalizeTypesOfCtyJson [("x", .null)] (.object [("x", .tuple [.string])]) = .ok r ∧
        getKey "x" r = some (.arr [])) ∧
    ¬ (∃ r, normalizeTypesOfCtyJson [("x", .null), ("z", .null)]
          (.object [("x", .list .string)]) = .ok r ∧
        getKey "x" r = some (.arr [])) := by
  refine ⟨?_, ?_, ?_⟩
  · rintro ⟨r, hr, hk⟩
    have h : normalizeTypesOfCtyJson [("x", .null)] (.object [("x", .set .string)])
        = .ok [("x", .null)] := rfl
    rw [h] at hr
    injection hr with hr
    subst hr
    simp [getKey] at hk
  · rintro ⟨r, hr, hk⟩
    have h : normalizeTypesOfCtyJson [("x", .null)] (.object [("x", .tuple [.string])])
        = .ok [("x", .null)] := rfl
    rw [h] at hr
    injection hr with hr
    subst hr
    simp [getKey] at hk
  · rintro ⟨r, hr, _⟩
    have h : normalizeTypesOfCtyJson [("x", .null), ("z", .null)]
        (.object [("x", .list .string)]) = .error "panic: AttributeType" := rfl
    rw [h] at hr
    cases hr

/-- C4, amended: for a document, an object schema that declares every
null-valued key of the document, and a key whose value is null, the normalizer
maps the key to the empty array when the declared type is a list type, and
leaves it null when the declared type is any other type, a set or a tuple
included. -/
theorem normalize_null_by_type (d : Document) (attrs : List (String × CtyType)) (k : String)
    (t : CtyType) (hd : distinctKeys d)
    (hdecl : ∀ k2, getKey k2 d = some Json.null → ∃ t2, getKey k2 attrs = some t2)
    (hk : getKey k d = some Json.null) (ht : getKey k attrs = some t) :
    ∃ r, normalizeTypesOfCtyJson d (.object attrs) = .ok r ∧
      (t.IsListType = true → getKey k r = some (.arr [])) ∧
      (t.IsListType = false → getKey k r = some .null) := by
  obtain ⟨r, hr, _, hrv⟩ := normalizeTypesOfCtyJson_spec d (.object attrs) hd
    (by simpa [CtyType.AttributeType] using hdecl)
  refine ⟨r, hr, ?_, ?_⟩
  · intro hl
    rw [hrv k _ hk]
    simp [normalizedValue, CtyType.AttributeType, ht, hl]
  · intro hl
    rw [hrv k _ hk]
    simp [normalizedValue, CtyType.AttributeType, ht, hl]

/-- Witness of the amended C4 at `{x: null}` with `x` declared `List(String)`. -/
theorem normalize_null_by_type_witness :
    distinctKeys [("x", Json.null)] ∧
    (∀ k2, getKey k2 [("x", Json.null)] = some Json.null →
      ∃ t2, getKey k2 [("x", CtyType.list .string)] = some t2) ∧
    getKey "x" [("x", Json.null)] = some Json.null ∧
    getKey "x" [("x", CtyType.list .string)] = some (.list .string) ∧
    ∃ r, normalizeTypesOfCtyJson [("x", .null)] (.object [("x", .list .string)]) = .ok r ∧
      ((CtyType.list .string).IsListType = true → getKey "x" r = some (.arr [])) ∧
      ((CtyType.list .string).IsListType = false → getKey "x" r = some .null) :=
  have h1 : distinctKeys [("x", Json.null)] := by simp [distinctKeys, keys]
  have h2 : ∀ k2, getKey k2 [("x", Json.null)] = some Json.null →
      ∃ t2, getKey k2 [("x", CtyType.list .string)] = some t2 := by
    intro k2 h
    by_cases h1 : "x" = k2
    · subst h1
      exact ⟨.list .string, by simp [getKey]⟩
    · simp [getKey, h1] at h
  ⟨h1, h2, rfl, rfl,
    normalize_null_by_type [("x", .null)] [("x", .list .string)] "x" (.list .string)
      h1 h2 rfl rfl⟩

/-- C5 as stated fails: for the document `{x: null}` and the empty object
schema the normalizer does not return, it panics in `AttributeType`. -/
theorem normalize_undeclared_counterexample :
    ¬ (∃ r, normalizeTypesOfCtyJson [("x", .null)] (.object []) = .ok r) := by
  rintro ⟨r, hr⟩
  have h : normalizeTypesOfCtyJson [("x", .null)] (.object [])
      = .error "panic: AttributeType" := rfl
  rw [h] at hr
  cases hr

/-- C5, amended: when every null-valued key of the document is an attribute of
the object schema, the normalizer does not fail and every key of the document
that is absent from the schema keeps its value; when some null-valued key of
the document is absent from the schema, the call panics. -/
theorem normalize_undeclared_keys (d : Document) (attrs : List (String × CtyType))
    (hd : distinctKeys d) :
    ((∀ k, getKey k d = some Json.null → ∃ t, getKey k attrs = some t) →
      ∃ r, normalizeTypesOfCtyJson d (.object attrs) = .ok r ∧
        ∀ k v, getKey k d = some v → getKey k attrs = none → getKey k r = some v) ∧
    ((∃ k, getKey k d = some Json.null ∧ getKey k attrs = none) →
      ∃ e, normalizeTypesOfCtyJson d (.object attrs) = .error e) := by
  constructor
  · intro hdecl
    obtain ⟨r, hr, _, hrv⟩ := normalizeTypesOfCtyJson_spec d (.object attrs) hd
      (by simpa [CtyType.AttributeType] using hdecl)
    refine ⟨r, hr, ?_⟩
    intro k v hk hn
    rw [hrv k v hk]
    cases v <;> simp [normalizedValue, CtyType.AttributeType, hn]
  · rintro ⟨k, hk, hn⟩
    exact normalizeFrom_panics (.object attrs) d d k (mem_of_getKey k _ d hk)
      (by simpa [CtyType.AttributeType] using hn)

/-- Witness of the amended C5 at `{x: "a", y: null}` with only `y` declared:
the call returns and `x` keeps its value. -/
theorem normalize_undeclared_keys_witness :
    distinctKeys [("x", Json.str "a"), ("y", Json.null)] ∧
    (∀ k, getKey k [("x", Json.str "a"), ("y", Json.null)] = some Json.null →
      ∃ t, getKey k [("y", CtyType.string)] = some t) ∧
    ∃ r, normalizeTypesOfCtyJson [("x", .str "a"), ("y", .null)] (.object [("y", .string)])
        = .ok r ∧
      ∀ k v, getKey k [("x", Json.str "a"), ("y", Json.null)] = some v →
        getKey k [("y", CtyType.string)] = none → getKey k r = some v :=
  have h1 : distinctKeys [("x", Json.str "a"), ("y", Json.null)] := by
    simp [distinctKeys, keys]
  have h2 : ∀ k, getKey k [("x", Json.str "a"), ("y", Json.null)] = some Json.null →
      ∃ t, getKey k [("y", CtyType.string)] = some t := by
    intro k h
    by_cases hx : "x" = k
    · subst hx
      simp [getKey] at h
    · by_cases hy : "y" = k
      · subst hy
        exact ⟨.string, by simp [getKey]⟩
      · simp [getKey, hx, hy] at h
  ⟨h1, h2, (normalize_undeclared_keys [("x", .str "a"), ("y", .null)] [("y", .string)] h1).1 h2⟩

/-- C6 as stated fails: a null list-typed attribute of an object-valued
attribute, and of an object that is an element of a list, is not null in the
result of the pipeline. -/
theorem nested_null_list_counterexample :
    ¬ (∃ d r d2,
        convertCtyValue (.object [("o", .object [("tags", .null (.list .string))])]) = .obj d ∧
        normalizeTypesOfCtyJson d (.object [("o", .object [("tags", .list .string)])]) = .ok r ∧
        getKey "o" r = some (.obj d2) ∧ getKey "tags" d2 = some .null) ∧
    ¬ (∃ d r d2,
        convertCtyValue (.object [("l", .list (.object [("tags", .list .string)])
          [.object [("tags", .null (.list .string))]])]) = .obj d ∧
        normalizeTypesOfCtyJson d
          (.object [("l", .list (.object [("tags", .list .string)]))]) = .ok r ∧
        getKey "l" r = some (.arr [.obj d2]) ∧ getKey "tags" d2 = some .null) := by
  constructor
  · rintro ⟨d, r, d2, hd, hr, ho, hk⟩
    have h : convertCtyValue (.object [("o", .object [("tags", .null (.list .string))])])
        = .obj [("o", .obj [("tags", .arr [])])] := rfl
    rw [h] at hd
    injection hd with hd
    subst hd
    have h2 : normalizeTypesOfCtyJson [("o", .obj [("tags", .arr [])])]
        (.object [("o", .object [("tags", .list .string)])])
        = .ok [("o", .obj [("tags", .arr [])])] := rfl
    rw [h2] at hr
    injection hr with hr
    subst hr
    simp only [getKey, if_true, Option.some.injEq, Json.obj.injEq] at ho
    subst ho
    simp [getKey] at hk
  · rintro ⟨d, r, d2, hd, hr, ho, hk⟩
    have h : convertCtyValue (.object [("l", .list (.object [("tags", .list .string)])
          [.object [("tags", .null (.list .string))]])])
        = .obj [("l", .arr [.obj [("tags", .arr [])]])] := rfl
    rw [h] at hd
    injection hd with hd
    subst hd
    have h2 : normalizeTypesOfCtyJson [("l", .arr [.obj [("tags", .arr [])]])]
        (.object [("l", .list (.object [("tags", .list .string)]))])
        = .ok [("l", .arr [.obj [("tags", .arr [])]])] := rfl
    rw [h2] at hr
    injection hr with hr
    subst hr
    simp only [getKey, if_true, Option.some.injEq, Json.arr.injEq, List.cons.injEq,
      Json.obj.injEq, and_true] at ho
    subst ho
    simp [getKey] at hk

/-- C6, amended: in the document the pipeline produces for an object value of
the typed value model, a null list-typed attribute nested inside a composite
attribute is the empty array, not null, because the converter rewrites it in
every map or object it converts: this holds inside an object-valued or
map-valued attribute and inside an object that is an element of a list-typed or
tuple-typed attribute. -/
theorem nested_null_list_is_empty_array (kvs : List (String × CtyValue))
    (attrs : List (String × CtyType)) (kvs2 : List (String × CtyValue)) (k : String)
    (ty : CtyType)
    (hd : distinctKeys kvs) (hm : CtyValue.entriesInModel kvs = true)
    (hS : ∀ k, getKey k attrs = (getKey k kvs).map CtyValue.type)
    (hd2 : distinctKeys kvs2) (hk : getKey k kvs2 = some (.null ty))
    (hl : ty.IsListType = true) :
    ∃ d r d2, convertCtyValue (.object kvs) = .obj d ∧
      normalizeTypesOfCtyJson d (.object attrs) = .ok r ∧
      getKey k d2 = some (.arr []) ∧
      (∀ o, getKey o kvs = some (.object kvs2) → getKey o r = some (.obj d2)) ∧
      (∀ o elem, getKey o kvs = some (.map elem kvs2) → getKey o r = some (.obj d2)) ∧
      (∀ l elem vs, ∀ i : Nat, getKey l kvs = some (.list elem vs) →
        vs[i]? = some (CtyValue.object kvs2) →
        ∃ xs, getKey l r = some (.arr xs) ∧ xs[i]? = some (Json.obj d2)) ∧
      (∀ l vs, ∀ i : Nat, getKey l kvs = some (.tuple vs) →
        vs[i]? = some (CtyValue.object kvs2) →
        ∃ xs, getKey l r = some (.arr xs) ∧ xs[i]? = some (Json.obj d2)) := by
  obtain ⟨d, r, hconv, hnorm, _, hval⟩ := pipeline_spec kvs attrs hd hm hS
  have hk2 : getKey k (storeEntries kvs2 []) = some (.arr []) := by
    rw [getKey_storeEntries k kvs2 [] hd2, hk]
    simp [entryJson_null, hl]
  refine ⟨d, r, storeEntries kvs2 [], hconv, hnorm, hk2, ?_, ?_, ?_, ?_⟩
  · intro o ho
    have h2 : CtyValue.entriesInModel kvs2 = true := by
      simpa [CtyValue.inModel] using inModel_of_getKey o kvs _ hm ho
    rw [hval o _ ho]
    simp [entryJson, convertCtyMapEntry, convertCtyMapPtrFrom_eq_storeEntries kvs2 h2,
      normalizedValue]
  · intro o elem ho
    have h2 : CtyValue.entriesInModel kvs2 = true := by
      simpa [CtyValue.inModel] using inModel_of_getKey o kvs _ hm ho
    rw [hval o _ ho]
    simp [entryJson, convertCtyMapEntry, convertCtyMapPtrFrom_eq_storeEntries kvs2 h2,
      normalizedValue]
  · intro l elem vs i hlk hi
    have h1 : CtyValue.allInModel vs = true := by
      simpa [CtyValue.inModel] using inModel_of_getKey l kvs _ hm hlk
    have h2 : CtyValue.entriesInModel kvs2 = true := by
      simpa [CtyValue.inModel] using inModel_of_getElem vs i _ h1 hi
    refine ⟨convertSlice vs, ?_, ?_⟩
    · rw [hval l _ hlk]
      simp [entryJson, convertCtyMapEntry, normalizedValue]
    · rw [convertSlice_eq_map, List.getElem?_map, hi]
      simp [convertCtyValue_object_eq kvs2 h2]
  · intro l vs i hlk hi
    have h1 : CtyValue.allInModel vs = true := by
      simpa [CtyValue.inModel] using inModel_of_getKey l kvs _ hm hlk
    have h2 : CtyValue.entriesInModel kvs2 = true := by
      simpa [CtyValue.inModel] using inModel_of_getElem vs i _ h1 hi
    refine ⟨convertSlice vs, ?_, ?_⟩
    · rw [hval l _ hlk]
      simp [entryJson, convertCtyMapEntry, normalizedValue]
    · rw [convertSlice_eq_map, List.getElem?_map, hi]
      simp [convertCtyValue_object_eq kvs2 h2]

/-- Witness of the amended C6 at `nestedValue`, for the attribute `tags` of the
nested widget. -/
theorem nested_null_list_is_empty_array_witness :
    distinctKeys nestedValue ∧ CtyValue.entriesInModel nestedValue = true ∧
    (∀ k, getKey k nestedSchema = (getKey k nestedValue).map CtyValue.type) ∧
    distinctKeys widgetValue ∧
    getKey "tags" widgetValue = some (.null (.list .string)) ∧
    (CtyType.list .string).IsListType = true ∧
    ∃ d r d2, convertCtyValue (.object nestedValue) = .obj d ∧
      normalizeTypesOfCtyJson d (.object nestedSchema) = .ok r ∧
      getKey "tags" d2 = some (.arr []) ∧
      (∀ o, getKey o nestedValue = some (.object widgetValue) → getKey o r = some (.obj d2)) ∧
      (∀ o elem, getKey o nestedValue = some (.map elem widgetValue) →
        getKey o r = some (.obj d2)) ∧
      (∀ l elem vs, ∀ i : Nat, getKey l nestedValue = some (.list elem vs) →
        vs[i]? = some (CtyValue.object widgetValue) →
        ∃ xs, getKey l r = some (.arr xs) ∧ xs[i]? = some (Json.obj d2)) ∧
      (∀ l vs, ∀ i : Nat, getKey l nestedValue = some (.tuple vs) →
        vs[i]? = some (CtyValue.object widgetValue) →
        ∃ xs, getKey l r = some (.arr xs) ∧ xs[i]? = some (Json.obj d2)) :=
  have h1 : distinctKeys nestedValue := by simp [distinctKeys, keys, nestedValue]
  have h2 : CtyValue.entriesInModel nestedValue = true := rfl
  have h3 : ∀ k, getKey k nestedSchema = (getKey k nestedValue).map CtyValue.type :=
    fun k => getKey_attrTypesOf k nestedValue
  have h4 : distinctKeys widgetValue := by simp [distinctKeys, keys, widgetValue]
  ⟨h1, h2, h3, h4, rfl, rfl,
    nested_null_list_is_empty_array nestedValue nestedSchema widgetValue "tags"
      (.list .string) h1 h2 h3 h4 rfl rfl⟩

/-- C7: for a document and an object schema whose attributes include every key
of the document, the normalizer returns a document with exactly the keys of the
input, in which every non-null value is unchanged and every null value whose
declared type is not a collection is still null; for the schema
`{x: List(String), y: String}` and the document `{x: null, y: null}` the result
is `{x: [], y: null}`. -/
theorem normalize_frame :
    (∀ (d : Document) (attrs : List (String × CtyType)),
      distinctKeys d → (∀ k ∈ keys d, ∃ t, getKey k attrs = some t) →
      ∃ r, normalizeTypesOfCtyJson d (.object attrs) = .ok r ∧ keys r = keys d ∧
        (∀ k v, getKey k d = some v → v ≠ Json.null → getKey k r = some v) ∧
        (∀ k t, getKey k d = some Json.null → getKey k attrs = some t →
          t.isCollection = false → getKey k r = some Json.null)) ∧
    normalizeTypesOfCtyJson [("x", .null), ("y", .null)]
        (.object [("x", .list .string), ("y", .string)])
      = .ok [("x", .arr []), ("y", .null)] := by
  refine ⟨?_, rfl⟩
  intro d attrs hd hin
  obtain ⟨r, hr, hkeys, hrv⟩ := normalizeTypesOfCtyJson_spec d (.object attrs) hd
    (by
      intro k hk
      have := hin k ((mem_keys_iff_getKey k d).2 ⟨_, hk⟩)
      simpa [CtyType.AttributeType] using this)
  refine ⟨r, hr, hkeys, ?_, ?_⟩
  · intro k v hk hv
    rw [hrv k v hk]
    cases v <;> first | exact absurd rfl hv | rfl
  · intro k t hk ht hc
    rw [hrv k _ hk]
    have hl : t.IsListType = false := by
      simp only [CtyType.isCollection, Bool.or_eq_false_iff] at hc
      exact hc.1.1
    simp [normalizedValue, CtyType.AttributeType, ht, hl]

/-- Witness of C7 at the document `{x: null, y: "a"}` and the schema
`{x: List(String), y: String}`. -/
theorem normalize_frame_witness :
    distinctKeys [("x", Json.null), ("y", Json.str "a")] ∧
    (∀ k ∈ keys [("x", Json.null), ("y", Json.str "a")],
      ∃ t, getKey k [("x", CtyType.list .string), ("y", CtyType.string)] = some t) ∧
    ∃ r, normalizeTypesOfCtyJson [("x", .null), ("y", .str "a")]
        (.object [("x", .list .string), ("y", .string)]) = .ok r ∧
      keys r = keys [("x", Json.null), ("y", Json.str "a")] ∧
      (∀ k v, getKey k [("x", Json.null), ("y", Json.str "a")] = some v → v ≠ Json.null →
        getKey k r = some v) ∧
      (∀ k t, getKey k [("x", Json.null), ("y", Json.str "a")] = some Json.null →
        getKey k [("x", CtyType.list .string), ("y", CtyType.string)] = some t →
        t.isCollection = false → getKey k r = some Json.null) :=
  have h1 : distinctKeys [("x", Json.null), ("y", Json.str "a")] := by
    simp [distinctKeys, keys]
  have h2 : ∀ k ∈ keys [("x", Json.null), ("y", Json.str "a")],
      ∃ t, getKey k [("x", CtyType.list .string), ("y", CtyType.string)] = some t := by
    intro k hk
    simp only [keys, List.map_cons, List.map_nil, List.mem_cons, List.mem_singleton,
      List.not_mem_nil, or_false] at hk
    rcases hk with hk | hk
    · subst hk
      exact ⟨.list .string, rfl⟩
    · subst hk
      exact ⟨.string, rfl⟩
  ⟨h1, h2, normalize_frame.1 _ _ h1 h2⟩

/-- C8: on the typed value model the converter is total: `convertCtyMap`,
called through `convertCtyMapPtr`, returns a document and no error, so its
unsupported-type branch is not reached, and `convertCtyValue` of a non-null map
or object value is that non-nil document. -/
theorem convertCtyMap_total (kvs : List (String × CtyValue))
    (hm : CtyValue.entriesInModel kvs = true) :
    ∃ d, convertCtyMapPtr kvs = .ok d ∧ convertCtyMap (ptrMap kvs) = .ok d ∧
      (∀ elem, convertCtyValue (.map elem kvs) = .obj d) ∧
      convertCtyValue (.object kvs) = .obj d := by
  refine ⟨storeEntries kvs [], ?_, ?_, fun elem => convertCtyValue_map_eq elem kvs hm,
    convertCtyValue_object_eq kvs hm⟩
  · exact convertCtyMapPtrFrom_eq_storeEntries kvs hm []
  · unfold convertCtyMap
    rw [convertCtyMapFrom_ptrMap]
    exact convertCtyMapPtrFrom_eq_storeEntries kvs hm []

/-- Witness of C8 at `nestedValue`. -/
theorem convertCtyMap_total_witness :
    CtyValue.entriesInModel nestedValue = true ∧
    ∃ d, convertCtyMapPtr nestedValue = .ok d ∧ convertCtyMap (ptrMap nestedValue) = .ok d ∧
      (∀ elem, convertCtyValue (.map elem nestedValue) = .obj d) ∧
      convertCtyValue (.object nestedValue) = .obj d :=
  ⟨rfl, convertCtyMap_total nestedValue rfl⟩

/-- C9: `convertCtyValue` of a number primitive returns the double nearest to
it, ties to even: a finite result is a finite double, no finite double is
closer to the number, and when another finite double is as close the result
has an even significand; the result is finite exactly below the overflow
threshold `2 ^ 1024 - 2 ^ 970` of round-to-nearest, and an infinity of the sign
of the number from there on.  The integer `9007199254740993` is converted to
`9007199254740992`. -/
theorem convertCtyValue_number_nearest :
    (∀ x : ℚ, convertCtyValue (.num x) = .num (bigFloatFloat64 x)) ∧
    (∀ x r : ℚ, bigFloatFloat64 x = .finite r →
      isFloat64 r ∧ (∀ y, isFloat64 y → |r - x| ≤ |y - x|) ∧
      (∀ y, isFloat64 y → y ≠ r → |y - x| = |r - x| → hasEvenSignificand r)) ∧
    (∀ x : ℚ, (∃ r, bigFloatFloat64 x = .finite r)
      ↔ |x| < 2 ^ (1024 : ℕ) - 2 ^ (970 : ℕ)) ∧
    (∀ (x : ℚ) (s : Bool), bigFloatFloat64 x = .inf s → s = decide (x < 0)) ∧
    convertCtyValue (.num 9007199254740993) = .num (.finite 9007199254740992) := by
  refine ⟨fun x => by simp [convertCtyValue], ?_, ?_, ?_, ?_⟩
  · intro x r h
    unfold bigFloatFloat64 at h
    by_cases hov : (2 : ℚ) ^ (1024 : ℕ) ≤ |roundToUlp x|
    · rw [if_pos hov] at h
      cases h
    · rw [if_neg hov] at h
      injection h with h
      subst h
      obtain ⟨m, e, hme, he1, he2, hcanon, heven⟩ := roundToUlp_encoding x (not_le.1 hov)
      refine ⟨⟨m, e, ?_, he1, he2, hme⟩, fun y hy => roundToUlp_nearest x y hy, ?_⟩
      · rcases hcanon with ⟨_, h2⟩ | ⟨_, h2⟩
        · exact h2
        · exact lt_trans h2 (by norm_num)
      · intro y hy hne htie
        exact ⟨m, e, heven (roundToUlp_tie x y hy hne htie), he1, he2, hme, hcanon⟩
  · intro x
    unfold bigFloatFloat64
    constructor
    · rintro ⟨r, h⟩
      by_cases hov : (2 : ℚ) ^ (1024 : ℕ) ≤ |roundToUlp x|
      · rw [if_pos hov] at h
        cases h
      · exact abs_lt_of_roundToUlp_lt x (not_le.1 hov)
    · intro hx
      exact ⟨roundToUlp x, by rw [if_neg (not_le.2 (roundToUlp_lt_of_abs_lt x hx))]⟩
  · intro x s h
    unfold bigFloatFloat64 at h
    by_cases hov : (2 : ℚ) ^ (1024 : ℕ) ≤ |roundToUlp x|
    · rw [if_pos hov] at h
      injection h with h
      exact h.symm
    · rw [if_neg hov] at h
      cases h
  · have h : bigFloatFloat64 9007199254740993 = .finite 9007199254740992 := by
      unfold bigFloatFloat64
      rw [roundToUlp_example, if_neg]
      rw [two_pow_1024, abs_of_pos (by norm_num)]
      have hP : (1 : ℚ) ≤ 2 ^ (970 : ℕ) := one_le_pow₀ (by norm_num)
      have : (2 : ℚ) ^ (54 : ℕ) * 1 ≤ 2 ^ (54 : ℕ) * 2 ^ (970 : ℕ) :=
        mul_le_mul_of_nonneg_left hP (by norm_num)
      have h54 : (9007199254740992 : ℚ) < 2 ^ (54 : ℕ) * 1 := by norm_num
      exact not_le.2 (lt_of_lt_of_le h54 this)
    simp [convertCtyValue, h]

/-- Witness of C9 at the integer `2 ^ 53 + 1`. -/
theorem convertCtyValue_number_nearest_witness :
    bigFloatFloat64 9007199254740993 = .finite 9007199254740992 ∧
    isFloat64 9007199254740992 ∧
    (∀ y, isFloat64 y →
      |(9007199254740992 : ℚ) - 9007199254740993| ≤ |y - 9007199254740993|) ∧
    (∀ y, isFloat64 y → y ≠ 9007199254740992 →
      |y - 9007199254740993| = |(9007199254740992 : ℚ) - 9007199254740993| →
      hasEvenSignificand 9007199254740992) :=
  have h : bigFloatFloat64 9007199254740993 = .finite 9007199254740992 := by
    have := convertCtyValue_number_nearest.2.2.2.2
    simpa [convertCtyValue] using this
  ⟨h, convertCtyValue_number_nearest.2.1 9007199254740993 9007199254740992 h⟩

/-- C10: for a non-null map or object value of the typed value model, the
document of `convertCtyValue` has exactly the keys of the value, whatever the
types and the nullness of the children. -/
theorem convertCtyValue_keys (kvs : List (String × CtyValue))
    (hm : CtyValue.entriesInModel kvs = true) :
    ∃ d, (∀ elem, convertCtyValue (.map elem kvs) = .obj d) ∧
      convertCtyValue (.object kvs) = .obj d ∧
      (∀ k, k ∈ keys d ↔ k ∈ keys kvs) ∧
      (distinctKeys kvs → keys d = keys kvs) := by
  refine ⟨storeEntries kvs [], fun elem => convertCtyValue_map_eq elem kvs hm,
    convertCtyValue_object_eq kvs hm, ?_, fun hd => (distinctKeys_storeEntries kvs hd).1⟩
  intro k
  rw [mem_keys_storeEntries]
  simp [keys]

/-- Witness of C10 at `nestedValue`. -/
theorem convertCtyValue_keys_witness :
    CtyValue.entriesInModel nestedValue = true ∧
    ∃ d, (∀ elem, convertCtyValue (.map elem nestedValue) = .obj d) ∧
      convertCtyValue (.object nestedValue) = .obj d ∧
      (∀ k, k ∈ keys d ↔ k ∈ keys nestedValue) ∧
      (distinctKeys nestedValue → keys d = keys nestedValue) :=
  ⟨rfl, convertCtyValue_keys nestedValue rfl⟩

/-- C11: for every null typed value, of whatever schema type, `convertCtyValue`
returns nil. -/
theorem convertCtyValue_null (v : CtyValue) (h : v.IsNull = true) :
    convertCtyValue v = .null := by
  cases v with
  | null ty => simp [convertCtyValue]
  | _ => simp [CtyValue.IsNull] at h

/-- Witness of C11 at the null values of a primitive, a list, a tuple, a set, a
map and an object type. -/
theorem convertCtyValue_null_witness :
    (CtyValue.null .string).IsNull = true ∧
    convertCtyValue (.null .string) = .null ∧
    convertCtyValue (.null (.list .string)) = .null ∧
    convertCtyValue (.null (.tuple [.string, .number])) = .null ∧
    convertCtyValue (.null (.set .bool)) = .null ∧
    convertCtyValue (.null (.map .string)) = .null ∧
    convertCtyValue (.null (.object widgetSchema)) = .null :=
  ⟨rfl, convertCtyValue_null _ rfl, convertCtyValue_null _ rfl, convertCtyValue_null _ rfl,
    convertCtyValue_null _ rfl, convertCtyValue_null _ rfl, convertCtyValue_null _ rfl⟩

/-- C12: every return of `ReadResource` is either a non-nil document with a
nil error, or nil with an error; when the read of the handler is invoked and
returns an error, the call returns nil with an error. -/
theorem ReadResource_all_or_nothing :
    (∀ (p : Provider) (resource_type : String) (value : Json) (err : Option String),
      (ReadResource p resource_type).2 = .returned value err →
      ((∃ d, value = .obj d) ∧ err = none) ∨ (value = .null ∧ ∃ e, err = some e)) ∧
    (∀ (p : Provider) (resource_type : String) (resource : Resource) (e : String),
      getKey resource_type p.ResourcesMap = some resource →
      Call.Read ∈ (ReadResource p resource_type).1 → resource.readErr = some e →
      ∃ msg, (ReadResource p resource_type).2 = .returned .null (some msg)) := by
  constructor
  · intro p rt value err h
    unfold ReadResource at h
    split at h
    · cases h
    · split at h
      · injection h with h1 h2
        exact Or.inr ⟨h1.symm, _, h2.symm⟩
      · split at h
        · cases h
        · split at h
          · cases h
          · split at h
            · injection h with h1 h2
              exact Or.inr ⟨h1.symm, _, h2.symm⟩
            · split at h
              · injection h with h1 h2
                exact Or.inr ⟨h1.symm, _, h2.symm⟩
              · split at h
                · injection h with h1 h2
                  exact Or.inr ⟨h1.symm, _, h2.symm⟩
                · split at h
                  · injection h with h1 h2
                    exact Or.inr ⟨h1.symm, _, h2.symm⟩
                  · dsimp only at h
                    split at h
                    · split at h
                      · injection h with h1 h2
                        exact Or.inl ⟨⟨_, h1.symm⟩, h2.symm⟩
                      · cases h
                    · injection h with h1 h2
                      exact Or.inr ⟨h1.symm, _, h2.symm⟩
                    · cases h
  · intro p rt resource e hk hcall hread
    unfold ReadResource at hcall ⊢
    rw [hk] at hcall ⊢
    simp only [hread] at hcall ⊢
    split at hcall
    · simp at hcall
    · split at hcall
      · simp at hcall
      · split at hcall
        · simp at hcall
        · split at hcall
          · simp at hcall
          · rename_i h1 h2 h3 h4
            simp only [h1, h2, h3, h4, if_false]
            exact ⟨_, rfl⟩

/-- Witness of C12: the widget handler returns its document with a nil error,
the failing handler returns nil with an error. -/
theorem ReadResource_all_or_nothing_witness :
    (ReadResource widgetProvider "example_widget").2
      = .returned (.obj [("name", .str "foo"), ("tags", .arr [])]) none ∧
    (((∃ d, Json.obj [("name", .str "foo"), ("tags", .arr [])] = .obj d) ∧
        (none : Option String) = none) ∨
      (Json.obj [("name", .str "foo"), ("tags", .arr [])] = .null ∧
        ∃ e, (none : Option String) = some e)) ∧
    getKey "example_broken" widgetProvider.ResourcesMap = some failingResource ∧
    Call.Read ∈ (ReadResource widgetProvider "example_broken").1 ∧
    failingResource.readErr = some "not found" ∧
    ∃ msg, (ReadResource widgetProvider "example_broken").2 = .returned .null (some msg) :=
  have h1 : Call.Read ∈ (ReadResource widgetProvider "example_broken").1 := by decide
  ⟨rfl, ReadResource_all_or_nothing.1 widgetProvider "example_widget" _ _ rfl, rfl, h1, rfl,
    ReadResource_all_or_nothing.2 widgetProvider "example_broken" failingResource "not found"
      rfl h1 rfl⟩

/-- C13 as stated fails: for the provider whose `Configure` reports an error
and the type `example_gadget`, which is not a key of its `ResourcesMap`,
`ReadResource` returns nothing: the process exits in `log.Fatalf` before the
lookup, after the one call of `Configure`. -/
theorem ReadResource_unconfigured_counterexample :
    getKey "example_gadget" unconfiguredProvider.ResourcesMap = none ∧
    ReadResource unconfiguredProvider "example_gadget"
      = ([.Configure], .fatal "provider failed to configure") ∧
    ¬ ∃ value err,
      (ReadResource unconfiguredProvider "example_gadget").2 = .returned value err := by
  refine ⟨rfl, rfl, ?_⟩
  rintro ⟨value, err, h⟩
  have h2 : (ReadResource unconfiguredProvider "example_gadget").2
      = .fatal "provider failed to configure" := rfl
  rw [h2] at h
  exact Outcome.noConfusion h

/-- C13, amended: for a resource type that is not a key of the `ResourcesMap`
of the provider, the read of the handler is never invoked; `ReadResource`
returns nil with the error that the type is unsupported when `Configure`
reports no error, and the process exits in `log.Fatalf`, with nothing
returned, when `Configure` reports one. -/
theorem ReadResource_unsupported (p : Provider) (resource_type : String)
    (hk : getKey resource_type p.ResourcesMap = none) :
    Call.Read ∉ (ReadResource p resource_type).1 ∧
    (p.configureFails = false →
      (ReadResource p resource_type).2
        = .returned .null (some ("resource type " ++ resource_type ++ " unsupported"))) ∧
    (p.configureFails = true →
      (ReadResource p resource_type).2 = .fatal "provider failed to configure") := by
  unfold ReadResource
  rw [hk]
  refine ⟨?_, ?_, ?_⟩
  · split <;> simp
  · intro hc
    simp [hc]
  · intro hc
    simp [hc]

/-- Witness of the amended C13 at the configured provider and an unregistered
type. -/
theorem ReadResource_unsupported_witness :
    getKey "example_gadget" widgetProvider.ResourcesMap = none ∧
    widgetProvider.configureFails = false ∧
    Call.Read ∉ (ReadResource widgetProvider "example_gadget").1 ∧
    (ReadResource widgetProvider "example_gadget").2
      = .returned .null (some "resource type example_gadget unsupported") :=
  have h := ReadResource_unsupported widgetProvider "example_gadget" rfl
  ⟨rfl, rfl, h.1, h.2.1 rfl⟩

/-- C16: the entry that `convertCtyMap` stores for a key with child `c`,
compared with `convertCtyValue c`: the empty array for a null list-typed child
and the array of the converted elements for a non-null set, where
`convertCtyValue c` is nil in both cases, and `convertCtyValue c` for every
other child; `convertCtyValue` is nil on a set that is the top-level value or
an element of a list or a tuple. -/
theorem convertCtyMap_entry_characterisation (kvs : List (String × CtyValue)) (k : String)
    (c : CtyValue) (hd : distinctKeys kvs) (hm : CtyValue.entriesInModel kvs = true)
    (hk : getKey k kvs = some c) :
    (∃ d, convertCtyMapPtr kvs = .ok d ∧ convertCtyMap (ptrMap kvs) = .ok d ∧
      (∀ ty, c = .null ty → ty.IsListType = true →
        getKey k d = some (.arr []) ∧ convertCtyValue c = .null) ∧
      (∀ elem vs, c = .set elem vs →
        getKey k d = some (.arr (vs.map convertCtyValue)) ∧ convertCtyValue c = .null) ∧
      (¬ (c.IsNull = true ∧ c.type.IsListType = true) →
        ¬ (c.IsNull = false ∧ c.type.IsSetType = true) →
        getKey k d = some (convertCtyValue c))) ∧
    (∀ elem vs, convertCtyValue (.set elem vs) = .null) ∧
    (∀ elem vs elem2 ws, ∀ i : Nat, vs[i]? = some (CtyValue.set elem2 ws) →
      ∃ xs, convertCtyValue (.list elem vs) = .arr xs ∧ xs[i]? = some Json.null) ∧
    (∀ vs elem2 ws, ∀ i : Nat, vs[i]? = some (CtyValue.set elem2 ws) →
      ∃ xs, convertCtyValue (.tuple vs) = .arr xs ∧ xs[i]? = some Json.null) := by
  have h1 : getKey k (storeEntries kvs []) = some (entryJson c) := by
    rw [getKey_storeEntries k kvs [] hd, hk]
  refine ⟨⟨storeEntries kvs [], convertCtyMapPtrFrom_eq_storeEntries kvs hm [], ?_, ?_, ?_, ?_⟩,
    fun elem vs => by simp [convertCtyValue], ?_, ?_⟩
  · unfold convertCtyMap
    rw [convertCtyMapFrom_ptrMap]
    exact convertCtyMapPtrFrom_eq_storeEntries kvs hm []
  · intro ty hc hl
    subst hc
    rw [h1, entryJson_null]
    simp [hl, convertCtyValue]
  · intro elem vs hc
    subst hc
    rw [h1]
    simp [entryJson, convertCtyMapEntry, convertSlice_eq_map, convertCtyValue]
  · intro hn hs
    rw [h1, entryJson_eq_convertCtyValue c (inModel_of_getKey k kvs c hm hk) hn hs]
  · intro elem vs elem2 ws i hi
    refine ⟨vs.map convertCtyValue, by simp [convertCtyValue, convertSlice_eq_map], ?_⟩
    rw [List.getElem?_map, hi]
    simp [convertCtyValue]
  · intro vs elem2 ws i hi
    refine ⟨vs.map convertCtyValue, by simp [convertCtyValue, convertSlice_eq_map], ?_⟩
    rw [List.getElem?_map, hi]
    simp [convertCtyValue]

/-- Witness of C16 at `mixedValue`, for the set-typed attribute `ids`. -/
theorem convertCtyMap_entry_characterisation_witness :
    distinctKeys mixedValue ∧ CtyValue.entriesInModel mixedValue = true ∧
    getKey "ids" mixedValue = some (.set .string [.str "a", .str "b"]) ∧
    ∃ d, convertCtyMapPtr mixedValue = .ok d ∧
      getKey "ids" d = some (.arr [.str "a", .str "b"]) ∧
      convertCtyValue (.set .string [.str "a", .str "b"]) = .null :=
  have h1 : distinctKeys mixedValue := by simp [distinctKeys, keys, mixedValue]
  have h := convertCtyMap_entry_characterisation mixedValue "ids"
    (.set .string [.str "a", .str "b"]) h1 rfl rfl
  ⟨h1, rfl, rfl,
    match h.1 with
    | ⟨d, hd, _, _, hset, _⟩ => ⟨d, hd, by simpa [convertCtyValue] using (hset _ _ rfl).1,
        (hset _ _ rfl).2⟩⟩

/-- C17: for a non-null object value of the typed value model whose attribute
types are those of the object type, the normalizer returns the document of the
converter unchanged: the converter stores nil only for a null attribute whose
type is not a list type. -/
theorem normalize_convert_noop (kvs : List (String × CtyValue))
    (attrs : List (String × CtyType))
    (hd : distinctKeys kvs) (hm : CtyValue.entriesInModel kvs = true)
    (hS : ∀ k, getKey k attrs = (getKey k kvs).map CtyValue.type) :
    ∃ d, convertCtyValue (.object kvs) = .obj d ∧
      normalizeTypesOfCtyJson d (.object attrs) = .ok d ∧
      (∀ k, getKey k d = some Json.null →
        ∃ ty, getKey k kvs = some (.null ty) ∧ ty.IsListType = false) ∧
      (∀ k ty, getKey k kvs = some (.null ty) → ty.IsListType = true →
        getKey k d = some (.arr [])) := by
  obtain ⟨_, hdd⟩ := distinctKeys_storeEntries kvs hd
  have hnull : ∀ k, getKey k (storeEntries kvs []) = some Json.null →
      ∃ ty, getKey k kvs = some (.null ty) ∧ ty.IsListType = false ∧
        getKey k attrs = some ty := by
    intro k hk
    obtain ⟨c, hc, hj, ht⟩ := getKey_attrTypes_of_getKey kvs attrs hS hd k _ hk
    obtain ⟨h1, h2⟩ := entryJson_eq_null c (inModel_of_getKey k kvs c hm hc) hj.symm
    cases c with
    | null ty => exact ⟨ty, hc, by simpa [CtyValue.type] using h2, by simpa [CtyValue.type] using ht⟩
    | _ => simp [CtyValue.IsNull] at h1
  refine ⟨storeEntries kvs [], convertCtyValue_object_eq kvs hm, ?_, ?_, ?_⟩
  · apply normalizeFrom_unchanged
    intro k hk
    obtain ⟨ty, _, hl, ht⟩ := hnull k (getKey_of_mem k _ _ hdd hk)
    exact ⟨ty, by simpa [CtyType.AttributeType] using ht, hl⟩
  · intro k hk
    obtain ⟨ty, h1, h2, _⟩ := hnull k hk
    exact ⟨ty, h1, h2⟩
  · intro k ty hk hl
    rw [getKey_storeEntries k kvs [] hd, hk]
    simp [entryJson_null, hl]

/-- Witness of C17 at `mixedValue`. -/
theorem normalize_convert_noop_witness :
    distinctKeys mixedValue ∧ CtyValue.entriesInModel mixedValue = true ∧
    (∀ k, getKey k mixedSchema = (getKey k mixedValue).map CtyValue.type) ∧
    ∃ d, convertCtyValue (.object mixedValue) = .obj d ∧
      normalizeTypesOfCtyJson d (.object mixedSchema) = .ok d ∧
      (∀ k, getKey k d = some Json.null →
        ∃ ty, getKey k mixedValue = some (.null ty) ∧ ty.IsListType = false) ∧
      (∀ k ty, getKey k mixedValue = some (.null ty) → ty.IsListType = true →
        getKey k d = some (.arr [])) :=
  have h1 : distinctKeys mixedValue := by simp [distinctKeys, keys, mixedValue]
  have h3 : ∀ k, getKey k mixedSchema = (getKey k mixedValue).map CtyValue.type :=
    fun k => getKey_attrTypesOf k mixedValue
  ⟨h1, rfl, h3, normalize_convert_noop mixedValue mixedSchema h1 rfl h3⟩

end ResourceBinder

namespace Parse

open ResourceBinder

/-! ## The ID string and its path components -/

theorem splitSlash_of_not_mem (a : List Char) (h : '/' ∉ a) : splitSlash a = [a] := by
  induction a with
  | nil => rfl
  | cons c cs ih =>
    have h2 : ¬ c = '/' ∧ '/' ∉ cs := by
      simp only [List.mem_cons, not_or] at h
      exact ⟨fun e => h.1 e.symm, h.2⟩
    simp [splitSlash, h2.1, ih h2.2]

theorem splitSlash_append (a rest : List Char) (h : '/' ∉ a) :
    splitSlash (a ++ '/' :: rest) = a :: splitSlash rest := by
  induction a with
  | nil => simp [splitSlash]
  | cons c cs ih =>
    have h2 : ¬ c = '/' ∧ '/' ∉ cs := by
      simp only [List.mem_cons, not_or] at h
      exact ⟨fun e => h.1 e.symm, h.2⟩
    simp [splitSlash, h2.1, ih h2.2]

theorem trimSuffixSlash_of_getLast (s : List Char) (h : s.getLast? ≠ some '/') :
    trimSuffixSlash s = s := by
  simp [trimSuffixSlash, h]

theorem getLast?_skip (a b : List Char) (hb : b ≠ []) :
    (a ++ '/' :: b).getLast? = b.getLast? := by
  rw [List.getLast?_append_of_ne_nil _ (List.cons_ne_nil _ _)]
  cases b with
  | nil => exact absurd rfl hb
  | cons c cs => simp [List.getLast?_cons_cons]

theorem ID_data (id : FrontDoorCustomDomainId) :
    id.ID.data = '/' :: ("subscriptions".data ++ '/' :: (id.SubscriptionId.data ++ '/' ::
      ("resourceGroups".data ++ '/' :: (id.ResourceGroup.data ++ '/' ::
      ("providers".data ++ '/' :: ("Microsoft.Cdn".data ++ '/' ::
      ("profiles".data ++ '/' :: (id.ProfileName.data ++ '/' ::
      ("customDomains".data ++ '/' :: id.CustomDomainName.data))))))))) := by
  simp [FrontDoorCustomDomainId.ID, String.data_append]

theorem pathComponents_ID (id : FrontDoorCustomDomainId)
    (h1 : segmentOk id.SubscriptionId) (h2 : segmentOk id.ResourceGroup)
    (h3 : segmentOk id.ProfileName) (h4 : segmentOk id.CustomDomainName) :
    pathComponents id.ID = ["subscriptions", id.SubscriptionId, "resourceGroups",
      id.ResourceGroup, "providers", "Microsoft.Cdn", "profiles", id.ProfileName,
      "customDomains", id.CustomDomainName] := by
  unfold pathComponents
  rw [ID_data]
  have hlast : ("subscriptions".data ++ '/' :: (id.SubscriptionId.data ++ '/' ::
      ("resourceGroups".data ++ '/' :: (id.ResourceGroup.data ++ '/' ::
      ("providers".data ++ '/' :: ("Microsoft.Cdn".data ++ '/' ::
      ("profiles".data ++ '/' :: (id.ProfileName.data ++ '/' ::
      ("customDomains".data ++ '/' :: id.CustomDomainName.data))))))))).getLast?
      ≠ some '/' := by
    rw [getLast?_skip _ _ (by simp), getLast?_skip _ _ (by simp), getLast?_skip _ _ (by simp),
      getLast?_skip _ _ (by simp), getLast?_skip _ _ (by simp), getLast?_skip _ _ (by simp),
      getLast?_skip _ _ (by simp), getLast?_skip _ _ (by simp),
      getLast?_skip _ _ h4.1]
    intro h
    exact h4.2.1 (List.mem_of_getLast?_eq_some h)
  simp only [trimPrefixSlash]
  rw [trimSuffixSlash_of_getLast _ hlast]
  rw [splitSlash_append _ _ (by decide), splitSlash_append _ _ h1.2.1,
    splitSlash_append _ _ (by decide), splitSlash_append _ _ h2.2.1,
    splitSlash_append _ _ (by decide), splitSlash_append _ _ (by decide),
    splitSlash_append _ _ (by decide), splitSlash_append _ _ h3.2.1,
    splitSlash_append _ _ (by decide), splitSlash_of_not_mem _ h4.2.1]
  rfl

theorem urlPlain_ID (id : FrontDoorCustomDomainId)
    (h1 : segmentOk id.SubscriptionId) (h2 : segmentOk id.ResourceGroup)
    (h3 : segmentOk id.ProfileName) (h4 : segmentOk id.CustomDomainName) :
    urlPlain id.ID = true := by
  unfold urlPlain
  rw [ID_data]
  simp only [List.head?_cons, List.all_cons, List.all_append, Bool.and_eq_true,
    List.all_eq_true]
  exact ⟨by decide, by decide, by decide, by decide, h1.2.2, by decide, by decide, by decide,
    h2.2.2, by decide, by decide, by decide, by decide, by decide, by decide, by decide,
    h3.2.2, by decide, by decide, by decide, h4.2.2⟩

theorem ne_empty_of_segmentOk (s : String) (h : segmentOk s) : s ≠ "" := by
  intro e
  rw [e] at h
  exact h.1 rfl

theorem plainRequestURIPath_of_urlPlain (s : String) (h : urlPlain s = true) :
    plainRequestURIPath s = some s := by
  simp [plainRequestURIPath, h]

/-! ## Letter-case variants of the segment keys -/

theorem asciiLower_val_lt (c : Char) (h : (asciiLower c).toNat < 128) : c.toNat < 128 := by
  unfold asciiLower at h
  split_ifs at h with hc
  · have h2 : 'Z'.toNat < 128 := by decide
    exact lt_of_le_of_lt hc.2 h2
  · exact h

theorem isAscii_of_map_asciiLower (s : List Char) (t : List Char)
    (h : s.map asciiLower = t.map asciiLower) (ht : ∀ c ∈ t, (asciiLower c).toNat < 128) :
    ∀ c ∈ s, c.toNat < 128 := by
  intro c hc
  apply asciiLower_val_lt
  have h1 : asciiLower c ∈ s.map asciiLower := List.mem_map_of_mem _ hc
  rw [h] at h1
  obtain ⟨d, hd, hdc⟩ := List.mem_map.1 h1
  rw [← hdc]
  exact ht d hd

theorem isAscii_of_asciiEqualFold (k target : String) (h : asciiEqualFold k target = true)
    (ht : ∀ c ∈ target.data, (asciiLower c).toNat < 128) : isAscii k := by
  unfold asciiEqualFold at h
  exact isAscii_of_map_asciiLower k.data target.data (of_decide_eq_true h) ht

theorem ne_of_asciiEqualFold (k target x : String) (h : asciiEqualFold k target = true)
    (hx : asciiEqualFold x target = false) : k ≠ x := by
  intro e
  rw [e, hx] at h
  cases h

theorem variants_of_asciiEqualFold (equalFold : String → String → Bool)
    (hfold : ∀ s t, isAscii s → isAscii t → equalFold s t = asciiEqualFold s t)
    (k1 k2 : String) (hk1 : asciiEqualFold k1 "profiles" = true)
    (hk2 : asciiEqualFold k2 "customDomains" = true) : Variants equalFold k1 k2 := by
  have a1 : isAscii k1 := isAscii_of_asciiEqualFold k1 _ hk1 (by decide)
  have a2 : isAscii k2 := isAscii_of_asciiEqualFold k2 _ hk2 (by decide)
  have ap : isAscii "profiles" := by unfold isAscii; decide
  have ac : isAscii "customDomains" := by unfold isAscii; decide
  have h21 : asciiEqualFold k2 "profiles" = false := by
    unfold asciiEqualFold at hk2 ⊢
    rw [of_decide_eq_true hk2]
    decide
  refine ⟨by rw [hfold _ _ a1 ap, hk1], by rw [hfold _ _ a2 ap, h21],
    by rw [hfold _ _ a2 ac, hk2], ?_, ⟨?_, ?_, ?_, ?_, ?_, ?_⟩, ⟨?_, ?_, ?_, ?_, ?_, ?_⟩⟩
  · intro e
    rw [e, h21] at hk1
    cases hk1
  all_goals first
    | exact ne_of_asciiEqualFold _ _ _ hk1 (by decide)
    | exact ne_of_asciiEqualFold _ _ _ hk2 (by decide)

/-! ## Renaming the segment keys -/

theorem knownKey_ne_empty (x : String) (h : knownKey x) : x ≠ "" := by
  rcases h with rfl | rfl | rfl | rfl | rfl | rfl <;> decide

theorem renameKey_injOn (equalFold : String → String → Bool) (k1 k2 : String)
    (V : Variants equalFold k1 k2) (x y : String) (hx : knownKey x) (hy : knownKey y)
    (h : renameKey k1 k2 x = renameKey k1 k2 y) : x = y := by
  obtain ⟨_, _, _, n12, ⟨a0, a1, a2, a3, a4, a5⟩, ⟨b0, b1, b2, b3, b4, b5⟩⟩ := V
  have n21 := Ne.symm n12
  have a1s := Ne.symm a1
  have a2s := Ne.symm a2
  have a3s := Ne.symm a3
  have a4s := Ne.symm a4
  have b1s := Ne.symm b1
  have b2s := Ne.symm b2
  have b3s := Ne.symm b3
  have b4s := Ne.symm b4
  rcases hx with rfl | rfl | rfl | rfl | rfl | rfl <;>
    rcases hy with rfl | rfl | rfl | rfl | rfl | rfl <;>
    simp [renameKey] at h ⊢ <;> simp_all

theorem renameKey_ne_empty (equalFold : String → String → Bool) (k1 k2 : String)
    (V : Variants equalFold k1 k2) (x : String) (hx : knownKey x) :
    renameKey k1 k2 x ≠ "" := by
  obtain ⟨_, _, _, _, ⟨a0, _⟩, ⟨b0, _⟩⟩ := V
  rcases hx with rfl | rfl | rfl | rfl | rfl | rfl <;> simp [renameKey, a0, b0]

theorem renameKey_fixed (k1 k2 x : String) (h1 : x ≠ "profiles") (h2 : x ≠ "customDomains") :
    renameKey k1 k2 x = x := by
  simp [renameKey, h1, h2]

theorem renameKey_eq_fixed_iff (equalFold : String → String → Bool) (k1 k2 : String)
    (V : Variants equalFold k1 k2) (x y : String) (hx : knownKey x) (hy : knownKey y)
    (h1 : y ≠ "profiles") (h2 : y ≠ "customDomains") :
    renameKey k1 k2 x = y ↔ x = y := by
  constructor
  · intro h
    apply renameKey_injOn equalFold k1 k2 V x y hx hy
    rw [h, renameKey_fixed k1 k2 y h1 h2]
  · intro h
    rw [h, renameKey_fixed k1 k2 y h1 h2]

theorem known_subscriptions : knownKey "subscriptions" := Or.inl rfl
theorem known_providers : knownKey "providers" := Or.inr (Or.inl rfl)
theorem known_resourceGroups : knownKey "resourceGroups" := Or.inr (Or.inr (Or.inl rfl))
theorem known_resourcegroups : knownKey "resourcegroups" :=
  Or.inr (Or.inr (Or.inr (Or.inl rfl)))
theorem known_profiles : knownKey "profiles" := Or.inr (Or.inr (Or.inr (Or.inr (Or.inl rfl))))
theorem known_customDomains : knownKey "customDomains" :=
  Or.inr (Or.inr (Or.inr (Or.inr (Or.inr rfl))))

/-! ## Maps with renamed keys -/

theorem keys_renameMap (k1 k2 : String) (m : List (String × String)) :
    keys (renameMap k1 k2 m) = (keys m).map (renameKey k1 k2) := by
  simp [keys, renameMap, List.map_map, Function.comp_def]

theorem setKey_renameMap (equalFold : String → String → Bool) (k1 k2 : String)
    (V : Variants equalFold k1 k2) (key value : String) (m : List (String × String))
    (hkey : knownKey key) (hm : ∀ k ∈ keys m, knownKey k) :
    setKey (renameKey k1 k2 key) value (renameMap k1 k2 m)
      = renameMap k1 k2 (setKey key value m) := by
  induction m with
  | nil => simp [setKey, renameMap]
  | cons hd tl ih =>
    obtain ⟨k, v⟩ := hd
    have hk : knownKey k := hm k (by simp [keys])
    have htl : ∀ k ∈ keys tl, knownKey k := fun x hx => hm x (by
      simp only [keys, List.map_cons, List.mem_cons]
      exact Or.inr hx)
    have ih2 := ih htl
    simp only [renameMap] at ih2 ⊢
    by_cases h : k = key
    · subst h
      simp [setKey]
    · have h2 : ¬ renameKey k1 k2 k = renameKey k1 k2 key :=
        fun e => h (renameKey_injOn equalFold k1 k2 V k key hk hkey e)
      simp [setKey, h, h2, ih2]

theorem getKey_renameMap (equalFold : String → String → Bool) (k1 k2 : String)
    (V : Variants equalFold k1 k2) (key : String) (m : List (String × String))
    (hkey : knownKey key) (hm : ∀ k ∈ keys m, knownKey k) :
    getKey (renameKey k1 k2 key) (renameMap k1 k2 m) = getKey key m := by
  induction m with
  | nil => simp [getKey, renameMap]
  | cons hd tl ih =>
    obtain ⟨k, v⟩ := hd
    have hk : knownKey k := hm k (by simp [keys])
    have htl : ∀ k ∈ keys tl, knownKey k := fun x hx => hm x (by
      simp only [keys, List.map_cons, List.mem_cons]
      exact Or.inr hx)
    have ih2 := ih htl
    simp only [renameMap] at ih2 ⊢
    by_cases h : k = key
    · subst h
      simp [getKey]
    · have h2 : ¬ renameKey k1 k2 k = renameKey k1 k2 key :=
        fun e => h (renameKey_injOn equalFold k1 k2 V k key hk hkey e)
      simp [getKey, h, h2, ih2]

theorem deleteKey_renameMap (equalFold : String → String → Bool) (k1 k2 : String)
    (V : Variants equalFold k1 k2) (key : String) (m : List (String × String))
    (hkey : knownKey key) (hm : ∀ k ∈ keys m, knownKey k) :
    deleteKey (renameKey k1 k2 key) (renameMap k1 k2 m)
      = renameMap k1 k2 (deleteKey key m) := by
  induction m with
  | nil => simp [deleteKey, renameMap]
  | cons hd tl ih =>
    obtain ⟨k, v⟩ := hd
    have hk : knownKey k := hm k (by simp [keys])
    have htl : ∀ k ∈ keys tl, knownKey k := fun x hx => hm x (by
      simp only [keys, List.map_cons, List.mem_cons]
      exact Or.inr hx)
    have ih2 := ih htl
    simp only [renameMap] at ih2 ⊢
    by_cases h : k = key
    · subst h
      simp [deleteKey, ih2]
    · have h2 : ¬ renameKey k1 k2 k = renameKey k1 k2 key :=
        fun e => h (renameKey_injOn equalFold k1 k2 V k key hk hkey e)
      simp [deleteKey, h, h2, ih2]

theorem mem_keys_deleteKey_iff (key k : String) (m : List (String × String)) :
    k ∈ keys (deleteKey key m) ↔ k ∈ keys m ∧ k ≠ key := by
  induction m with
  | nil => simp [deleteKey, keys]
  | cons hd tl ih =>
    obtain ⟨k3, v⟩ := hd
    have ih2 : k ∈ List.map Prod.fst (deleteKey key tl) ↔ k ∈ List.map Prod.fst tl ∧ k ≠ key :=
      ih
    by_cases h : k3 = key
    · subst h
      simp only [deleteKey, if_true, keys, List.map_cons, List.mem_cons]
      rw [ih2]
      constructor
      · rintro ⟨h1, h2⟩
        exact ⟨Or.inr h1, h2⟩
      · rintro ⟨h1 | h1, h2⟩
        · exact absurd h1 h2
        · exact ⟨h1, h2⟩
    · simp only [deleteKey, h, if_false, keys, List.map_cons, List.mem_cons]
      rw [ih2]
      constructor
      · rintro (h1 | ⟨h1, h2⟩)
        · exact ⟨Or.inl h1, fun e => h (h1 ▸ e)⟩
        · exact ⟨Or.inr h1, h2⟩
      · rintro ⟨h1 | h1, h2⟩
        · exact Or.inl h1
        · exact Or.inr ⟨h1, h2⟩

/-! ## The loop over the path components -/

theorem pairs_induction {P : List String → Prop} (h0 : P []) (h1 : ∀ x, P [x])
    (h2 : ∀ k v rest, P rest → P (k :: v :: rest)) : ∀ l, P l
  | [] => h0
  | [x] => h1 x
  | k :: v :: rest => h2 k v rest (pairs_induction h0 h1 h2 rest)

/-- Every segment key the loop reads is `subscriptions`, `providers`, or a key
of the map it returns, and the map keeps the keys it had. -/
theorem parseComponents_keys (cs : List String) :
    ∀ (s p : String) (m : List (String × String)) (s2 p2 : String)
      (m2 : List (String × String)),
      parseComponents cs s p m = .ok (s2, p2, m2) →
      (∀ k ∈ segmentKeys cs, k = "subscriptions" ∨ k = "providers" ∨ k ∈ keys m2) ∧
      (∀ k ∈ keys m, k ∈ keys m2) := by
  induction cs using pairs_induction with
  | h0 =>
    intro s p m s2 p2 m2 h
    simp only [parseComponents, Except.ok.injEq, Prod.mk.injEq] at h
    obtain ⟨_, _, rfl⟩ := h
    exact ⟨by simp [segmentKeys], fun k hk => hk⟩
  | h1 x =>
    intro s p m s2 p2 m2 h
    simp only [parseComponents, Except.ok.injEq, Prod.mk.injEq] at h
    obtain ⟨_, _, rfl⟩ := h
    exact ⟨by simp [segmentKeys], fun k hk => hk⟩
  | h2 key value rest ih =>
    intro s p m s2 p2 m2 h
    rw [parseComponents] at h
    split_ifs at h with c1 c2 c3
    · obtain ⟨ih1, ih2⟩ := ih _ _ _ _ _ _ h
      refine ⟨fun k hk => ?_, ih2⟩
      simp only [segmentKeys, List.mem_cons] at hk
      rcases hk with rfl | hk
      · exact Or.inl c2.1
      · exact ih1 k hk
    · obtain ⟨ih1, ih2⟩ := ih _ _ _ _ _ _ h
      refine ⟨fun k hk => ?_, ih2⟩
      simp only [segmentKeys, List.mem_cons] at hk
      rcases hk with rfl | hk
      · exact Or.inr (Or.inl c3.1)
      · exact ih1 k hk
    · obtain ⟨ih1, ih2⟩ := ih _ _ _ _ _ _ h
      refine ⟨fun k hk => ?_, fun k hk => ih2 k ((mem_keys_setKey key k value m).2 (Or.inr hk))⟩
      simp only [segmentKeys, List.mem_cons] at hk
      rcases hk with rfl | hk
      · exact Or.inr (Or.inr (ih2 k ((mem_keys_setKey k k value m).2 (Or.inl rfl))))
      · exact ih1 k hk

/-- The loop on the components with replaced keys: the same subscription and
provider, and the same map with replaced keys. -/
theorem parseComponents_replaceKeys (equalFold : String → String → Bool) (k1 k2 : String)
    (V : Variants equalFold k1 k2) (cs : List String) :
    ∀ (s p : String) (m : List (String × String)),
      (∀ k ∈ segmentKeys cs, knownKey k) → (∀ k ∈ keys m, knownKey k) →
      parseComponents (replaceKeys k1 k2 cs) s p (renameMap k1 k2 m)
        = match parseComponents cs s p m with
          | .ok (s2, p2, m2) => .ok (s2, p2, renameMap k1 k2 m2)
          | .error e => .error e := by
  induction cs using pairs_induction with
  | h0 =>
    intro s p m _ _
    simp [parseComponents, replaceKeys]
  | h1 x =>
    intro s p m _ _
    simp [parseComponents, replaceKeys]
  | h2 key value rest ih =>
    intro s p m hcs hm
    have hkey : knownKey key := hcs key (by simp [segmentKeys])
    have hrest : ∀ k ∈ segmentKeys rest, knownKey k := fun k hk => hcs k (by
      simp only [segmentKeys, List.mem_cons]
      exact Or.inr hk)
    have e0 : ¬ renameKey k1 k2 key = "" := renameKey_ne_empty equalFold k1 k2 V key hkey
    have e0b : ¬ key = "" := knownKey_ne_empty key hkey
    have e1 : renameKey k1 k2 key = "subscriptions" ↔ key = "subscriptions" :=
      renameKey_eq_fixed_iff equalFold k1 k2 V key _ hkey known_subscriptions
        (by decide) (by decide)
    have e2 : renameKey k1 k2 key = "providers" ↔ key = "providers" :=
      renameKey_eq_fixed_iff equalFold k1 k2 V key _ hkey known_providers
        (by decide) (by decide)
    rw [replaceKeys, parseComponents, parseComponents]
    simp only [e0, e0b, e1, e2, false_or]
    split_ifs with c1 c2 c3
    · rfl
    · exact ih _ _ _ hrest hm
    · exact ih _ _ _ hrest hm
    · rw [setKey_renameMap equalFold k1 k2 V key value m hkey hm]
      apply ih _ _ _ hrest
      intro k hk
      rcases (mem_keys_setKey key k value m).1 hk with rfl | hk2
      · exact hkey
      · exact hm k hk2

theorem length_replaceKeys (k1 k2 : String) (cs : List String) :
    (replaceKeys k1 k2 cs).length = cs.length := by
  induction cs using pairs_induction with
  | h0 => rfl
  | h1 x => rfl
  | h2 key value rest ih => simp [replaceKeys, ih]

theorem replaceKeys_self (cs : List String) :
    replaceKeys "profiles" "customDomains" cs = cs := by
  induction cs using pairs_induction with
  | h0 => rfl
  | h1 x => rfl
  | h2 key value rest ih =>
    have h : renameKey "profiles" "customDomains" key = key := by
      unfold renameKey
      split_ifs with c1 c2
      · exact c1.symm
      · exact c2.symm
      · rfl
    simp [replaceKeys, ih, h]

/-! ## The end of `ParseAzureResourceID` -/

theorem getKey_renameMap_fixed (equalFold : String → String → Bool) (k1 k2 : String)
    (V : Variants equalFold k1 k2) (x : String) (m : List (String × String))
    (hx : knownKey x) (h1 : x ≠ "profiles") (h2 : x ≠ "customDomains")
    (hm : ∀ k ∈ keys m, knownKey k) :
    getKey x (renameMap k1 k2 m) = getKey x m := by
  have h := getKey_renameMap equalFold k1 k2 V x m hx hm
  rwa [renameKey_fixed k1 k2 x h1 h2] at h

theorem deleteKey_renameMap_fixed (equalFold : String → String → Bool) (k1 k2 : String)
    (V : Variants equalFold k1 k2) (x : String) (m : List (String × String))
    (hx : knownKey x) (h1 : x ≠ "profiles") (h2 : x ≠ "customDomains")
    (hm : ∀ k ∈ keys m, knownKey k) :
    deleteKey x (renameMap k1 k2 m) = renameMap k1 k2 (deleteKey x m) := by
  have h := deleteKey_renameMap equalFold k1 k2 V x m hx hm
  rwa [renameKey_fixed k1 k2 x h1 h2] at h

theorem known_deleteKey (x : String) (m : List (String × String))
    (hm : ∀ k ∈ keys m, knownKey k) : ∀ k ∈ keys (deleteKey x m), knownKey k :=
  fun k hk => hm k ((mem_keys_deleteKey_iff x k m).1 hk).1

/-- The end of `ParseAzureResourceID` on a map with replaced keys: the same
`ResourceID` with the keys of its path replaced. -/
theorem buildResourceID_renameMap (equalFold : String → String → Bool) (k1 k2 : String)
    (V : Variants equalFold k1 k2) (s p : String) (m : List (String × String))
    (hm : ∀ k ∈ keys m, knownKey k) :
    buildResourceID s p (renameMap k1 k2 m)
      = match buildResourceID s p m with
        | .ok id => .ok { id with Path := renameMap k1 k2 id.Path }
        | .error e => .error e := by
  have g1 := getKey_renameMap_fixed equalFold k1 k2 V "resourceGroups" m known_resourceGroups
    (by decide) (by decide) hm
  have g2 := getKey_renameMap_fixed equalFold k1 k2 V "resourcegroups" m known_resourcegroups
    (by decide) (by decide) hm
  have d1 := deleteKey_renameMap_fixed equalFold k1 k2 V "resourceGroups" m
    known_resourceGroups (by decide) (by decide) hm
  have d2 := deleteKey_renameMap_fixed equalFold k1 k2 V "resourcegroups" m
    known_resourcegroups (by decide) (by decide) hm
  have gp (m2 : List (String × String)) (hm2 : ∀ k ∈ keys m2, knownKey k) :=
    getKey_renameMap_fixed equalFold k1 k2 V "providers" m2 known_providers
      (by decide) (by decide) hm2
  have dp (m2 : List (String × String)) (hm2 : ∀ k ∈ keys m2, knownKey k) :=
    deleteKey_renameMap_fixed equalFold k1 k2 V "providers" m2 known_providers
      (by decide) (by decide) hm2
  unfold buildResourceID
  by_cases hs : s = ""
  · simp [hs]
  · simp only [hs, if_false, g1, g2]
    cases h1 : getKey "resourceGroups" m with
    | some rg =>
      have hk := known_deleteKey "resourceGroups" m hm
      simp only [d1, gp _ hk]
      cases h3 : getKey "providers" (deleteKey "resourceGroups" m) with
      | none => rfl
      | some sp =>
        by_cases h4 : sp = ""
        · simp [h4]
        · simp [h4, dp _ hk]
    | none =>
      cases h2 : getKey "resourcegroups" m with
      | some rg =>
        have hk := known_deleteKey "resourcegroups" m hm
        simp only [d2, gp _ hk]
        cases h3 : getKey "providers" (deleteKey "resourcegroups" m) with
        | none => rfl
        | some sp =>
          by_cases h4 : sp = ""
          · simp [h4]
          · simp [h4, dp _ hk]
      | none =>
        simp only [gp _ hm]
        cases h3 : getKey "providers" m with
        | none => rfl
        | some sp =>
          by_cases h4 : sp = ""
          · simp [h4]
          · simp [h4, dp _ hm]

/-- A key of the map is a key of the path of the `ResourceID`, or one of the
keys the end of `ParseAzureResourceID` deletes. -/
theorem buildResourceID_keys (s p : String) (m : List (String × String)) (id : ResourceID)
    (h : buildResourceID s p m = .ok id) :
    ∀ k ∈ keys m, k ∈ keys id.Path ∨ k = "resourceGroups" ∨ k = "resourcegroups" ∨
      k = "providers" := by
  intro k hk
  by_contra hcon
  simp only [not_or] at hcon
  obtain ⟨c0, c1, c2, c3⟩ := hcon
  apply c0
  have step (x : String) (m2 : List (String × String)) (hx : k ≠ x) (hk2 : k ∈ keys m2) :
      k ∈ keys (deleteKey x m2) := (mem_keys_deleteKey_iff x k m2).2 ⟨hk2, hx⟩
  have fin (rg : String) (m2 : List (String × String)) (hk2 : k ∈ keys m2)
      (h2 : (let sp := match getKey "providers" m2 with
          | some secondaryProvider =>
            if secondaryProvider ≠ "" then (secondaryProvider, deleteKey "providers" m2)
            else ("", m2)
          | none => ("", m2)
        (Except.ok { SubscriptionID := s, ResourceGroup := rg, Provider := p,
                     SecondaryProvider := sp.1, Path := sp.2 } : Except String ResourceID))
        = .ok id) : k ∈ keys id.Path := by
    cases h3 : getKey "providers" m2 with
    | none =>
      simp only [h3, Except.ok.injEq] at h2
      subst h2
      exact hk2
    | some sp =>
      by_cases h4 : sp = ""
      · simp only [h3, h4, ne_eq, not_true_eq_false, if_false, Except.ok.injEq] at h2
        subst h2
        exact hk2
      · simp only [h3, h4, ne_eq, not_false_eq_true, if_true, Except.ok.injEq] at h2
        subst h2
        exact step _ _ c3 hk2
  unfold buildResourceID at h
  by_cases hs : s = ""
  · simp [hs] at h
  · simp only [hs, if_false] at h
    cases h1 : getKey "resourceGroups" m with
    | some rg =>
      simp only [h1] at h
      exact fin rg _ (step _ _ c1 hk) h
    | none =>
      cases h2 : getKey "resourcegroups" m with
      | some rg =>
        simp only [h1, h2] at h
        exact fin rg _ (step _ _ c2 hk) h
      | none =>
        simp only [h1, h2] at h
        exact fin "" _ hk h

/-! ## The two parsers -/

theorem findFold_eq (equalFold : String → String → Bool) (target k1 : String)
    (h1 : equalFold k1 target = true) (l : List String)
    (hl : ∀ k ∈ l, k = k1 ∨ equalFold k target = false) (hmem : k1 ∈ l) :
    findFold equalFold target l = k1 := by
  induction l with
  | nil => simp at hmem
  | cons key rest ih =>
    rcases hl key (by simp) with e | e
    · simp [findFold, e, h1]
    · have hne : k1 ≠ key := by
        intro c
        rw [c, e] at h1
        exact Bool.noConfusion h1
      have hmem2 : k1 ∈ rest := by
        rcases List.mem_cons.1 hmem with c | c
        · exact absurd c hne
        · exact c
      simp only [findFold, e, Bool.false_eq_true, if_false]
      exact ih (fun k hk => hl k (List.mem_cons_of_mem _ hk)) hmem2

/-- What a successful run of the strict parser says about the ID. -/
theorem FrontDoorCustomDomainID_inv (requestURIPath : String → Option String)
    (input path : String) (r : FrontDoorCustomDomainId)
    (hpath : requestURIPath input = some path)
    (h : FrontDoorCustomDomainID requestURIPath input = .ok r) :
    ∃ id pn cn, parseAzureResourcePath path = .ok id ∧ id.SubscriptionID ≠ "" ∧
      id.ResourceGroup ≠ "" ∧ getKey "profiles" id.Path = some pn ∧
      getKey "customDomains" (deleteKey "profiles" id.Path) = some cn ∧
      deleteKey "customDomains" (deleteKey "profiles" id.Path) = [] ∧
      r = { SubscriptionId := id.SubscriptionID, ResourceGroup := id.ResourceGroup,
            ProfileName := pn, CustomDomainName := cn } := by
  unfold FrontDoorCustomDomainID ParseAzureResourceID at h
  simp only [hpath] at h
  cases hp : parseAzureResourcePath path with
  | error e => simp [hp] at h
  | ok id =>
    simp only [hp] at h
    by_cases hs : id.SubscriptionID = ""
    · simp [hs] at h
    by_cases hr : id.ResourceGroup = ""
    · simp [hs, hr] at h
    simp only [hs, hr, if_false, ResourceID.PopSegment] at h
    cases g1 : getKey "profiles" id.Path with
    | none => simp [g1] at h
    | some pn =>
      simp only [g1] at h
      cases g2 : getKey "customDomains" (deleteKey "profiles" id.Path) with
      | none => simp [g2] at h
      | some cn =>
        simp only [g2, finishFrontDoorCustomDomainID, ResourceID.ValidateNoEmptySegments] at h
        by_cases he : (deleteKey "customDomains" (deleteKey "profiles" id.Path)).length = 0
        · simp only [he, if_true, Except.ok.injEq] at h
          exact ⟨id, pn, cn, rfl, hs, hr, g1, g2, List.length_eq_zero.1 he, h.symm⟩
        · simp [he] at h

/-- What makes a run of the case-insensitive parser successful. -/
theorem FrontDoorCustomDomainIDInsensitively_intro (requestURIPath : String → Option String)
    (equalFold : String → String → Bool) (rangeOrder : List String → List String)
    (input path : String) (id : ResourceID) (pn cn kA kB : String)
    (hpath : requestURIPath input = some path)
    (hp : parseAzureResourcePath path = .ok id) (hs : id.SubscriptionID ≠ "")
    (hr : id.ResourceGroup ≠ "")
    (hA : findFold equalFold "profiles" (rangeOrder (keys id.Path)) = kA)
    (gA : getKey kA id.Path = some pn)
    (hB : findFold equalFold "customDomains" (rangeOrder (keys (deleteKey kA id.Path))) = kB)
    (gB : getKey kB (deleteKey kA id.Path) = some cn)
    (he : deleteKey kB (deleteKey kA id.Path) = []) :
    FrontDoorCustomDomainIDInsensitively requestURIPath equalFold rangeOrder input
      = .ok { SubscriptionId := id.SubscriptionID, ResourceGroup := id.ResourceGroup,
              ProfileName := pn, CustomDomainName := cn } := by
  unfold FrontDoorCustomDomainIDInsensitively ParseAzureResourceID
  simp only [hpath, hp, hs, hr, if_false, ResourceID.PopSegment, hA, gA, hB, gB,
    finishFrontDoorCustomDomainID, ResourceID.ValidateNoEmptySegments, he, List.length_nil,
    if_true]

/-- The path with replaced segment keys is parsed to the same `ResourceID` with
the keys of its path replaced. -/
theorem parseAzureResourcePath_replaceKeys (equalFold : String → String → Bool)
    (k1 k2 : String) (V : Variants equalFold k1 k2) (path path2 : String) (id : ResourceID)
    (hvar : pathComponents path2 = replaceKeys k1 k2 (pathComponents path))
    (hp : parseAzureResourcePath path = .ok id)
    (hk : ∀ k ∈ keys id.Path, k = "profiles" ∨ k = "customDomains") :
    parseAzureResourcePath path2 = .ok { id with Path := renameMap k1 k2 id.Path } := by
  unfold parseAzureResourcePath at hp ⊢
  rw [hvar, length_replaceKeys]
  by_cases hlen : (pathComponents path).length % 2 ≠ 0
  · simp [hlen] at hp
  simp only [hlen, if_false] at hp ⊢
  cases hc : parseComponents (pathComponents path) "" "" [] with
  | error e => simp [hc] at hp
  | ok res =>
    obtain ⟨s, p, m⟩ := res
    simp only [hc] at hp
    have hm : ∀ k ∈ keys m, knownKey k := by
      intro k hkm
      rcases buildResourceID_keys s p m id hp k hkm with c | c | c | c
      · rcases hk k c with d | d
        · exact d ▸ known_profiles
        · exact d ▸ known_customDomains
      · exact c ▸ known_resourceGroups
      · exact c ▸ known_resourcegroups
      · exact c ▸ known_providers
    have hseg : ∀ k ∈ segmentKeys (pathComponents path), knownKey k := by
      intro k hks
      rcases (parseComponents_keys _ "" "" [] s p m hc).1 k hks with c | c | c
      · exact c ▸ known_subscriptions
      · exact c ▸ known_providers
      · exact hm k c
    have h1 := parseComponents_replaceKeys equalFold k1 k2 V (pathComponents path) "" "" []
      hseg (by simp [keys])
    have h0 : renameMap k1 k2 [] = [] := rfl
    rw [h0, hc] at h1
    rw [h1]
    simp only
    rw [buildResourceID_renameMap equalFold k1 k2 V s p m hm, hp]

/-- For two variants `k1` of `profiles` and `k2` of `customDomains`: the
case-insensitive parser on the ID with the replaced segment keys returns what
the strict parser returns on the ID. -/
theorem insensitively_of_variants (requestURIPath : String → Option String)
    (equalFold : String → String → Bool) (rangeOrder : List String → List String)
    (hrange : ∀ l, (rangeOrder l).Perm l)
    (k1 k2 : String) (V : Variants equalFold k1 k2)
    (input variant path path2 : String) (r : FrontDoorCustomDomainId)
    (hpath : requestURIPath input = some path) (hpath2 : requestURIPath variant = some path2)
    (hvar : pathComponents path2 = replaceKeys k1 k2 (pathComponents path))
    (hstrict : FrontDoorCustomDomainID requestURIPath input = .ok r) :
    FrontDoorCustomDomainIDInsensitively requestURIPath equalFold rangeOrder variant = .ok r := by
  obtain ⟨id, pn, cn, hp, hs, hr, g1, g2, he, rfl⟩ :=
    FrontDoorCustomDomainID_inv requestURIPath input path r hpath hstrict
  have hk : ∀ k ∈ keys id.Path, k = "profiles" ∨ k = "customDomains" := by
    intro k hkm
    by_contra hcon
    simp only [not_or] at hcon
    have hin : k ∈ keys (deleteKey "customDomains" (deleteKey "profiles" id.Path)) :=
      (mem_keys_deleteKey_iff _ _ _).2 ⟨(mem_keys_deleteKey_iff _ _ _).2 ⟨hkm, hcon.1⟩, hcon.2⟩
    rw [he] at hin
    simp [keys] at hin
  have hkn : ∀ k ∈ keys id.Path, knownKey k := by
    intro k hkm
    rcases hk k hkm with d | d
    · exact d ▸ known_profiles
    · exact d ▸ known_customDomains
  have hkn1 := known_deleteKey "profiles" id.Path hkn
  have hp2 := parseAzureResourcePath_replaceKeys equalFold k1 k2 V path path2 id hvar hp hk
  have f1 : renameKey k1 k2 "profiles" = k1 := by simp [renameKey]
  have f2 : renameKey k1 k2 "customDomains" = k2 := by simp [renameKey]
  have d1 : deleteKey k1 (renameMap k1 k2 id.Path)
      = renameMap k1 k2 (deleteKey "profiles" id.Path) := by
    have h := deleteKey_renameMap equalFold k1 k2 V "profiles" id.Path known_profiles hkn
    rwa [f1] at h
  have d2 : deleteKey k2 (renameMap k1 k2 (deleteKey "profiles" id.Path)) = [] := by
    have h := deleteKey_renameMap equalFold k1 k2 V "customDomains"
      (deleteKey "profiles" id.Path) known_customDomains hkn1
    rw [f2, he] at h
    exact h
  have gA : getKey k1 (renameMap k1 k2 id.Path) = some pn := by
    have h := getKey_renameMap equalFold k1 k2 V "profiles" id.Path known_profiles hkn
    rwa [f1, g1] at h
  have gB : getKey k2 (renameMap k1 k2 (deleteKey "profiles" id.Path)) = some cn := by
    have h := getKey_renameMap equalFold k1 k2 V "customDomains"
      (deleteKey "profiles" id.Path) known_customDomains hkn1
    rwa [f2, g2] at h
  have hA : findFold equalFold "profiles" (rangeOrder (keys (renameMap k1 k2 id.Path))) = k1 := by
    apply findFold_eq equalFold "profiles" k1 V.fold11
    · intro k hkm
      rw [(hrange _).mem_iff, keys_renameMap, List.mem_map] at hkm
      obtain ⟨x, hx, rfl⟩ := hkm
      rcases hk x hx with d | d
      · left; rw [d, f1]
      · right; rw [d, f2]; exact V.fold21
    · rw [(hrange _).mem_iff, keys_renameMap, List.mem_map]
      exact ⟨"profiles", (mem_keys_iff_getKey _ _).2 ⟨pn, g1⟩, f1⟩
  have hB : findFold equalFold "customDomains"
      (rangeOrder (keys (renameMap k1 k2 (deleteKey "profiles" id.Path)))) = k2 := by
    apply findFold_eq equalFold "customDomains" k2 V.fold22
    · intro k hkm
      rw [(hrange _).mem_iff, keys_renameMap, List.mem_map] at hkm
      obtain ⟨x, hx, rfl⟩ := hkm
      have hx2 := (mem_keys_deleteKey_iff _ _ _).1 hx
      rcases hk x hx2.1 with d | d
      · exact absurd d hx2.2
      · left; rw [d, f2]
    · rw [(hrange _).mem_iff, keys_renameMap, List.mem_map]
      exact ⟨"customDomains", (mem_keys_iff_getKey _ _).2 ⟨cn, g2⟩, f2⟩
  exact FrontDoorCustomDomainIDInsensitively_intro requestURIPath equalFold rangeOrder variant
    path2 { id with Path := renameMap k1 k2 id.Path } pn cn k1 k2 hpath2 hp2 hs hr hA gA
    (by rw [d1]; exact hB) (by rw [d1]; exact gB) (by rw [d1]; exact d2)

/-! ## Segments left after the two keys are popped -/

theorem deleteKey_of_not_mem (k : String) (m : List (String × String)) (h : k ∉ keys m) :
    deleteKey k m = m := by
  induction m with
  | nil => rfl
  | cons hd tl ih =>
    obtain ⟨k3, v⟩ := hd
    have h1 : ¬ k3 = k := fun e => h (by simp [keys, e])
    have h2 : k ∉ keys tl := fun c => h (by
      have c2 : k ∈ List.map Prod.fst tl := c
      simp [keys, c2])
    simp [deleteKey, h1, ih h2]

theorem keys_deleteKey_sublist (k : String) (m : List (String × String)) :
    (keys (deleteKey k m)).Sublist (keys m) := by
  induction m with
  | nil => simp [deleteKey, keys]
  | cons hd tl ih =>
    obtain ⟨k3, v⟩ := hd
    have ih2 : (List.map Prod.fst (deleteKey k tl)).Sublist (List.map Prod.fst tl) := ih
    by_cases h : k3 = k
    · simp only [deleteKey, h, if_true, keys, List.map_cons]
      exact ih2.trans (List.sublist_cons_self _ _)
    · simp only [deleteKey, h, if_false, keys, List.map_cons]
      exact ih2.cons₂ _

theorem distinctKeys_deleteKey (k : String) (m : List (String × String))
    (hd : distinctKeys m) : distinctKeys (deleteKey k m) :=
  List.Nodup.sublist (keys_deleteKey_sublist k m) hd

/-- The statement `delete(m, k)` takes at most one entry out of a map. -/
theorem length_le_deleteKey (k : String) (m : List (String × String))
    (hd : distinctKeys m) : m.length ≤ (deleteKey k m).length + 1 := by
  induction m with
  | nil => simp
  | cons hd2 tl ih =>
    obtain ⟨k3, v⟩ := hd2
    have hn : k3 ∉ keys tl ∧ distinctKeys tl := by
      have h := hd
      simp only [distinctKeys, keys, List.map_cons, List.nodup_cons] at h
      exact h
    by_cases h : k3 = k
    · subst h
      simp [deleteKey, deleteKey_of_not_mem k3 tl hn.1]
    · have := ih hn.2
      simp only [deleteKey, h, if_false, List.length_cons]
      omega

/-- An ID whose path keeps three or more segments after `ParseAzureResourceID`
is rejected by the case-insensitive parser, whatever `strings.EqualFold` and the
order of `range` are: two segments are popped, and one is left. -/
theorem insensitively_error_of_three (requestURIPath : String → Option String)
    (equalFold : String → String → Bool) (rangeOrder : List String → List String)
    (input path : String) (id : ResourceID)
    (hpath : requestURIPath input = some path)
    (hp : parseAzureResourcePath path = .ok id)
    (hd : distinctKeys id.Path) (hlen : 3 ≤ id.Path.length) :
    ∃ e, FrontDoorCustomDomainIDInsensitively requestURIPath equalFold rangeOrder input
      = .error e := by
  unfold FrontDoorCustomDomainIDInsensitively ParseAzureResourceID
  simp only [hpath, hp]
  by_cases hs : id.SubscriptionID = ""
  · simp [hs]
  by_cases hr : id.ResourceGroup = ""
  · simp [hs, hr]
  simp only [hs, hr, if_false, ResourceID.PopSegment]
  generalize findFold equalFold "profiles" (rangeOrder (keys id.Path)) = kA
  cases gA : getKey kA id.Path with
  | none => exact ⟨_, rfl⟩
  | some pn =>
    simp only
    generalize findFold equalFold "customDomains" (rangeOrder (keys (deleteKey kA id.Path))) = kB
    cases gB : getKey kB (deleteKey kA id.Path) with
    | none => exact ⟨_, rfl⟩
    | some cn =>
      have h1 := length_le_deleteKey kA id.Path hd
      have h2 := length_le_deleteKey kB (deleteKey kA id.Path) (distinctKeys_deleteKey kA _ hd)
      have h3 : ¬ (deleteKey kB (deleteKey kA id.Path)).length = 0 := by omega
      simp only [finishFrontDoorCustomDomainID, ResourceID.ValidateNoEmptySegments, h3, if_false]
      exact ⟨_, rfl⟩

/-! ## The claims on the Front Door custom domain ID -/

/-- C14: for a subscription, a resource group, a profile name and a custom
domain name that are not empty and have no `/` and no character special to
`url.ParseRequestURI`, the ID of `NewFrontDoorCustomDomainID` is the ID string
with those four segments, and `FrontDoorCustomDomainID` parses it back into the
struct with the same four fields. -/
theorem FrontDoorCustomDomainID_roundtrip (requestURIPath : String → Option String)
    (hurl : ∀ s, urlPlain s = true → requestURIPath s = some s)
    (subscriptionId resourceGroup profileName customDomainName : String)
    (h1 : segmentOk subscriptionId) (h2 : segmentOk resourceGroup)
    (h3 : segmentOk profileName) (h4 : segmentOk customDomainName) :
    (NewFrontDoorCustomDomainID subscriptionId resourceGroup profileName customDomainName).ID
      = "/subscriptions/" ++ subscriptionId ++ "/resourceGroups/" ++ resourceGroup ++
        "/providers/Microsoft.Cdn/profiles/" ++ profileName ++ "/customDomains/" ++
        customDomainName ∧
    FrontDoorCustomDomainID requestURIPath
        (NewFrontDoorCustomDomainID subscriptionId resourceGroup profileName
          customDomainName).ID
      = .ok (NewFrontDoorCustomDomainID subscriptionId resourceGroup profileName
          customDomainName) := by
  refine ⟨rfl, ?_⟩
  have n1 := ne_empty_of_segmentOk _ h1
  have n2 := ne_empty_of_segmentOk _ h2
  have n3 := ne_empty_of_segmentOk _ h3
  have n4 := ne_empty_of_segmentOk _ h4
  have hp := pathComponents_ID
    (NewFrontDoorCustomDomainID subscriptionId resourceGroup profileName customDomainName)
    h1 h2 h3 h4
  have hu := hurl _ (urlPlain_ID
    (NewFrontDoorCustomDomainID subscriptionId resourceGroup profileName customDomainName)
    h1 h2 h3 h4)
  simp only [NewFrontDoorCustomDomainID] at hp hu ⊢
  simp [FrontDoorCustomDomainID, ParseAzureResourceID, parseAzureResourcePath, hu, hp,
    parseComponents, n1, n2, n3, n4,
    setKey, buildResourceID, getKey, deleteKey, ResourceID.PopSegment,
    finishFrontDoorCustomDomainID, ResourceID.ValidateNoEmptySegments]

/-- Witness of C14 at the segments `sub1`, `rg1`, `prof`, `dom`. -/
theorem FrontDoorCustomDomainID_roundtrip_witness :
    (segmentOk "sub1" ∧ segmentOk "rg1" ∧ segmentOk "prof" ∧ segmentOk "dom") ∧
    (NewFrontDoorCustomDomainID "sub1" "rg1" "prof" "dom").ID
      = "/subscriptions/sub1/resourceGroups/rg1/providers/Microsoft.Cdn/profiles/prof/customDomains/dom" ∧
    FrontDoorCustomDomainID plainRequestURIPath
        (NewFrontDoorCustomDomainID "sub1" "rg1" "prof" "dom").ID
      = .ok (NewFrontDoorCustomDomainID "sub1" "rg1" "prof" "dom") :=
  have h1 : segmentOk "sub1" := by unfold segmentOk; decide
  have h2 : segmentOk "rg1" := by unfold segmentOk; decide
  have h3 : segmentOk "prof" := by unfold segmentOk; decide
  have h4 : segmentOk "dom" := by unfold segmentOk; decide
  ⟨⟨h1, h2, h3, h4⟩,
   FrontDoorCustomDomainID_roundtrip plainRequestURIPath plainRequestURIPath_of_urlPlain
    "sub1" "rg1" "prof" "dom" h1 h2 h3 h4⟩

/-- C15 as stated fails: `FrontDoorCustomDomainID` accepts the ID that has the
segment key `profiles` twice, with the later value `p1`, and the ID with the
first `profiles` written `PROFILES` is rejected by
`FrontDoorCustomDomainIDInsensitively`, with the keys visited in the order of
the path and, for every `url.ParseRequestURI` that leaves plain paths as they
are, with every `strings.EqualFold` and every order of `range`: the map keeps
both keys, and a segment is left after the two keys are popped. -/
theorem FrontDoorCustomDomainIDInsensitively_repeated_counterexample :
    (FrontDoorCustomDomainID plainRequestURIPath
        "/subscriptions/s1/resourceGroups/rg1/providers/Microsoft.Cdn/profiles/p0/profiles/p1/customDomains/d1"
      = .ok (NewFrontDoorCustomDomainID "s1" "rg1" "p1" "d1") ∧
    pathComponents
        "/subscriptions/s1/resourceGroups/rg1/providers/Microsoft.Cdn/profiles/p0/profiles/p1/customDomains/d1"
      = ["subscriptions", "s1", "resourceGroups", "rg1", "providers", "Microsoft.Cdn",
          "profiles", "p0", "profiles", "p1", "customDomains", "d1"] ∧
    pathComponents
        "/subscriptions/s1/resourceGroups/rg1/providers/Microsoft.Cdn/PROFILES/p0/profiles/p1/customDomains/d1"
      = ["subscriptions", "s1", "resourceGroups", "rg1", "providers", "Microsoft.Cdn",
          "PROFILES", "p0", "profiles", "p1", "customDomains", "d1"] ∧
    asciiEqualFold "PROFILES" "profiles" = true ∧
    FrontDoorCustomDomainIDInsensitively plainRequestURIPath asciiEqualFold (fun l => l)
        "/subscriptions/s1/resourceGroups/rg1/providers/Microsoft.Cdn/PROFILES/p0/profiles/p1/customDomains/d1"
      = .error ("ID contained more segments than required: " ++
          "/subscriptions/s1/resourceGroups/rg1/providers/Microsoft.Cdn/PROFILES/p0/profiles/p1/customDomains/d1")) ∧
    ¬ ∃ (requestURIPath : String → Option String) (equalFold : String → String → Bool)
        (rangeOrder : List String → List String),
      (∀ s, urlPlain s = true → requestURIPath s = some s) ∧
      (FrontDoorCustomDomainID requestURIPath
          "/subscriptions/s1/resourceGroups/rg1/providers/Microsoft.Cdn/profiles/p0/profiles/p1/customDomains/d1"
        = .ok (NewFrontDoorCustomDomainID "s1" "rg1" "p1" "d1") →
        ∃ r, FrontDoorCustomDomainIDInsensitively requestURIPath equalFold rangeOrder
          "/subscriptions/s1/resourceGroups/rg1/providers/Microsoft.Cdn/PROFILES/p0/profiles/p1/customDomains/d1"
          = .ok r) := by
  refine ⟨⟨rfl, by decide, by decide, by decide, rfl⟩, ?_⟩
  rintro ⟨requestURIPath, equalFold, rangeOrder, hurl, h⟩
  have hu1 := hurl
    "/subscriptions/s1/resourceGroups/rg1/providers/Microsoft.Cdn/profiles/p0/profiles/p1/customDomains/d1"
    (by decide)
  have hu2 := hurl
    "/subscriptions/s1/resourceGroups/rg1/providers/Microsoft.Cdn/PROFILES/p0/profiles/p1/customDomains/d1"
    (by decide)
  have hs : FrontDoorCustomDomainID requestURIPath
      "/subscriptions/s1/resourceGroups/rg1/providers/Microsoft.Cdn/profiles/p0/profiles/p1/customDomains/d1"
      = .ok (NewFrontDoorCustomDomainID "s1" "rg1" "p1" "d1") := by
    unfold FrontDoorCustomDomainID ParseAzureResourceID
    rw [hu1]
    rfl
  obtain ⟨r, hr⟩ := h hs
  have hp : parseAzureResourcePath
      "/subscriptions/s1/resourceGroups/rg1/providers/Microsoft.Cdn/PROFILES/p0/profiles/p1/customDomains/d1"
      = .ok { SubscriptionID := "s1", ResourceGroup := "rg1", Provider := "Microsoft.Cdn",
              SecondaryProvider := "",
              Path := [("PROFILES", "p0"), ("profiles", "p1"), ("customDomains", "d1")] } := rfl
  obtain ⟨e, he⟩ := insensitively_error_of_three requestURIPath equalFold rangeOrder _ _ _ hu2 hp
    (by unfold distinctKeys keys; decide) (by decide)
  rw [he] at hr
  exact Except.noConfusion hr

/-- C15, amended: on every input that `FrontDoorCustomDomainID` accepts, with
result `r`: the input in which every segment key `profiles` is replaced by one
letter-case variant `k1` of it and every segment key `customDomains` by one
letter-case variant `k2` of it is accepted by
`FrontDoorCustomDomainIDInsensitively` with the same result `r`, and so is the
input itself.  `equalFold` is `strings.EqualFold`, which compares ASCII strings
up to the case of their letters, `rangeOrder` is any order in which `range`
visits the keys of the map, and the variant is the input with the keys replaced
in the path components `url.ParseRequestURI` finds. -/
theorem FrontDoorCustomDomainIDInsensitively_variants
    (requestURIPath : String → Option String)
    (equalFold : String → String → Bool) (rangeOrder : List String → List String)
    (hfold : ∀ s t, isAscii s → isAscii t → equalFold s t = asciiEqualFold s t)
    (hrange : ∀ l, (rangeOrder l).Perm l)
    (input variant path path2 k1 k2 : String) (r : FrontDoorCustomDomainId)
    (hk1 : asciiEqualFold k1 "profiles" = true)
    (hk2 : asciiEqualFold k2 "customDomains" = true)
    (hpath : requestURIPath input = some path) (hpath2 : requestURIPath variant = some path2)
    (hvar : pathComponents path2 = replaceKeys k1 k2 (pathComponents path))
    (hstrict : FrontDoorCustomDomainID requestURIPath input = .ok r) :
    FrontDoorCustomDomainIDInsensitively requestURIPath equalFold rangeOrder variant = .ok r ∧
    FrontDoorCustomDomainIDInsensitively requestURIPath equalFold rangeOrder input = .ok r :=
  ⟨insensitively_of_variants requestURIPath equalFold rangeOrder hrange k1 k2
      (variants_of_asciiEqualFold equalFold hfold k1 k2 hk1 hk2) input variant path path2 r
      hpath hpath2 hvar hstrict,
   insensitively_of_variants requestURIPath equalFold rangeOrder hrange "profiles"
      "customDomains"
      (variants_of_asciiEqualFold equalFold hfold "profiles" "customDomains"
        (by simp [asciiEqualFold]) (by simp [asciiEqualFold]))
      input input path path r hpath hpath
      (replaceKeys_self (pathComponents path)).symm hstrict⟩

/-- Witness of the amended C15 at the ID of `s1`, `rg1`, `p1`, `d1`, with the
segment keys written `PROFILES` and `customdomains`, and the keys visited in
reverse order. -/
theorem FrontDoorCustomDomainIDInsensitively_variants_witness :
    FrontDoorCustomDomainID plainRequestURIPath
        "/subscriptions/s1/resourceGroups/rg1/providers/Microsoft.Cdn/profiles/p1/customDomains/d1"
      = .ok (NewFrontDoorCustomDomainID "s1" "rg1" "p1" "d1") ∧
    FrontDoorCustomDomainIDInsensitively plainRequestURIPath asciiEqualFold List.reverse
        "/subscriptions/s1/resourceGroups/rg1/providers/Microsoft.Cdn/PROFILES/p1/customdomains/d1"
      = .ok (NewFrontDoorCustomDomainID "s1" "rg1" "p1" "d1") ∧
    FrontDoorCustomDomainIDInsensitively plainRequestURIPath asciiEqualFold List.reverse
        "/subscriptions/s1/resourceGroups/rg1/providers/Microsoft.Cdn/profiles/p1/customDomains/d1"
      = .ok (NewFrontDoorCustomDomainID "s1" "rg1" "p1" "d1") :=
  ⟨rfl,
   FrontDoorCustomDomainIDInsensitively_variants plainRequestURIPath asciiEqualFold List.reverse
    (fun _ _ _ _ => rfl) (fun l => List.reverse_perm l)
    "/subscriptions/s1/resourceGroups/rg1/providers/Microsoft.Cdn/profiles/p1/customDomains/d1"
    "/subscriptions/s1/resourceGroups/rg1/providers/Microsoft.Cdn/PROFILES/p1/customdomains/d1"
    "/subscriptions/s1/resourceGroups/rg1/providers/Microsoft.Cdn/profiles/p1/customDomains/d1"
    "/subscriptions/s1/resourceGroups/rg1/providers/Microsoft.Cdn/PROFILES/p1/customdomains/d1"
    "PROFILES" "customdomains" (NewFrontDoorCustomDomainID "s1" "rg1" "p1" "d1")
    (by decide) (by decide) (by decide) (by decide) (by decide) rfl⟩

end Parse

namespace Pipelines

open ResourceBinder

/-! ## Maps of the JSON encoder and decoder -/

theorem nodup_keys_setKey {α : Type} (k : String) (v : α) (m : List (String × α))
    (h : distinctKeys m) : distinctKeys (setKey k v m) := by
  unfold distinctKeys at h ⊢
  by_cases hk : k ∈ keys m
  · rw [keys_setKey_of_mem k v m hk]
    exact h
  · rw [keys_setKey_of_not_mem k v m hk]
    exact List.Nodup.append h (List.nodup_singleton k) (by
      intro a ha hb
      rw [List.mem_singleton] at hb
      exact hk (hb ▸ ha))

theorem getKey_perm {α : Type} (k : String) (l1 l2 : List (String × α)) (hp : l1.Perm l2)
    (hd : distinctKeys l1) : getKey k l1 = getKey k l2 := by
  have hd2 : distinctKeys l2 := (List.Perm.nodup_iff (hp.map Prod.fst)).1 hd
  cases h : getKey k l1 with
  | some v =>
    have hm : (k, v) ∈ l2 := hp.subset (mem_of_getKey k v l1 h)
    exact (getKey_of_mem k v l2 hd2 hm).symm
  | none =>
    have h1 : k ∉ keys l1 := (getKey_eq_none_iff k l1).1 h
    have h2 : k ∉ keys l2 := fun hk => h1 ((hp.map Prod.fst).symm.subset hk)
    exact ((getKey_eq_none_iff k l2).2 h2).symm

theorem getKey_sortFields (k : String) (fields : List (String × JsonText))
    (hd : distinctKeys fields) : getKey k (sortFields fields) = getKey k fields :=
  (getKey_perm k fields (sortFields fields) (List.perm_insertionSort _ fields).symm hd).symm

theorem unmarshalObject_distinctKeys (fields : List (String × JsonText)) (m m2 : Document)
    (hm : distinctKeys m) (h : unmarshalObject fields m = .ok m2) : distinctKeys m2 := by
  induction fields generalizing m with
  | nil =>
    simp only [unmarshalObject, Except.ok.injEq] at h
    exact h ▸ hm
  | cons hd tl ih =>
    obtain ⟨k, v⟩ := hd
    cases hv : unmarshalValue v with
    | error e => simp [unmarshalObject, hv] at h
    | ok j =>
      simp only [unmarshalObject, hv] at h
      exact ih _ (nodup_keys_setKey k j m hm) h

/-- Reading a key of the decoded map: a key of the text reads as its decoded
value, any other key as before. -/
theorem getKey_unmarshalObject (fields : List (String × JsonText)) (m m2 : Document)
    (hd : distinctKeys fields) (h : unmarshalObject fields m = .ok m2) (k : String) :
    (∀ v, getKey k fields = some v →
      ∃ j, unmarshalValue v = .ok j ∧ getKey k m2 = some j) ∧
    (getKey k fields = none → getKey k m2 = getKey k m) := by
  induction fields generalizing m with
  | nil =>
    simp only [unmarshalObject, Except.ok.injEq] at h
    subst h
    simp [getKey]
  | cons hd2 tl ih =>
    obtain ⟨key, v⟩ := hd2
    have hnd : key ∉ keys tl ∧ distinctKeys tl := by
      simpa [distinctKeys, keys] using hd
    cases hv : unmarshalValue v with
    | error e => simp [unmarshalObject, hv] at h
    | ok j =>
      simp only [unmarshalObject, hv] at h
      obtain ⟨ih1, ih2⟩ := ih _ hnd.2 h
      by_cases hk : key = k
      · subst hk
        have hn : getKey key tl = none := (getKey_eq_none_iff key tl).2 hnd.1
        constructor
        · intro v2 hv2
          simp only [getKey, if_true, Option.some.injEq] at hv2
          subst hv2
          exact ⟨j, hv, by rw [ih2 hn, getKey_setKey_same]⟩
        · intro hnone
          simp [getKey] at hnone
      · have hne : k ≠ key := fun e => hk e.symm
        simp only [getKey, hk, if_false]
        refine ⟨ih1, fun hnone => ?_⟩
        rw [ih2 hnone, getKey_setKey_other key k j m hne]

theorem unmarshalObject_ok (fields : List (String × JsonText)) (m : Document)
    (h : ∀ kv ∈ fields, ∃ j, unmarshalValue kv.2 = .ok j) :
    ∃ m2, unmarshalObject fields m = .ok m2 := by
  induction fields generalizing m with
  | nil => exact ⟨m, rfl⟩
  | cons hd tl ih =>
    obtain ⟨k, v⟩ := hd
    obtain ⟨j, hj⟩ := h (k, v) (List.mem_cons_self _ _)
    obtain ⟨m2, hm2⟩ := ih (setKey k j m) (fun kv hkv => h kv (List.mem_cons_of_mem _ hkv))
    exact ⟨m2, by simp [unmarshalObject, hj, hm2]⟩

/-- Reading a key of the encoded fields of a map: the encoding of what the map
holds under the key. -/
theorem getKey_marshalFields (sd : ℚ → ℚ) (kvs : Document)
    (fields : List (String × JsonText)) (h : marshalFields sd kvs = .ok fields) :
    keys fields = keys kvs ∧
    ∀ k, (∀ j, getKey k kvs = some j →
        ∃ t, marshalValue sd j = .ok t ∧ getKey k fields = some t) ∧
      (getKey k kvs = none → getKey k fields = none) := by
  induction kvs generalizing fields with
  | nil =>
    simp only [marshalFields, Except.ok.injEq] at h
    subst h
    simp [getKey, keys]
  | cons hd tl ih =>
    obtain ⟨key, j⟩ := hd
    cases hv : marshalValue sd j with
    | error e => simp [marshalFields, hv] at h
    | ok t =>
      cases htl : marshalFields sd tl with
      | error e => simp [marshalFields, hv, htl] at h
      | ok fs =>
        simp only [marshalFields, hv, htl, Except.ok.injEq] at h
        subst h
        obtain ⟨ihk, ihv⟩ := ih fs htl
        refine ⟨by simp only [keys, List.map_cons] at ihk ⊢; rw [ihk], fun k => ?_⟩
        by_cases hk : key = k
        · subst hk
          constructor
          · intro j2 hj2
            simp only [getKey, if_true, Option.some.injEq] at hj2
            subst hj2
            exact ⟨t, hv, by simp [getKey]⟩
          · intro hnone
            simp [getKey] at hnone
        · simp only [getKey, hk, if_false]
          exact ihv k

theorem marshalFields_ok (sd : ℚ → ℚ) (kvs : Document)
    (h : ∀ kv ∈ kvs, ∃ t, marshalValue sd kv.2 = .ok t) :
    ∃ fields, marshalFields sd kvs = .ok fields := by
  induction kvs with
  | nil => exact ⟨[], rfl⟩
  | cons hd tl ih =>
    obtain ⟨k, j⟩ := hd
    obtain ⟨t, ht⟩ := h (k, j) (List.mem_cons_self _ _)
    obtain ⟨fs, hfs⟩ := ih (fun kv hkv => h kv (List.mem_cons_of_mem _ hkv))
    exact ⟨(k, t) :: fs, by simp [marshalFields, ht, hfs]⟩

theorem mem_setKey {α : Type} (k k2 : String) (v j : α) (m : List (String × α))
    (h : (k2, j) ∈ setKey k v m) : (k2 = k ∧ j = v) ∨ (k2, j) ∈ m := by
  induction m with
  | nil =>
    simp only [setKey, List.mem_singleton, Prod.mk.injEq] at h
    exact Or.inl h
  | cons hd tl ih =>
    obtain ⟨k3, v3⟩ := hd
    by_cases hk : k3 = k
    · simp only [setKey, hk, if_true, List.mem_cons, Prod.mk.injEq] at h
      rcases h with h | h
      · exact Or.inl h
      · exact Or.inr (List.mem_cons_of_mem _ h)
    · simp only [setKey, hk, if_false, List.mem_cons] at h
      rcases h with h | h
      · exact Or.inr (h ▸ List.mem_cons_self _ _)
      · rcases ih h with h2 | h2
        · exact Or.inl h2
        · exact Or.inr (List.mem_cons_of_mem _ h2)

theorem getKey_append {α : Type} (k : String) (a b : List (String × α)) :
    getKey k (a ++ b) = (getKey k a).orElse (fun _ => getKey k b) := by
  induction a with
  | nil => simp [getKey]
  | cons hd tl ih =>
    obtain ⟨k2, v⟩ := hd
    by_cases hk : k2 = k
    · simp [getKey, hk]
    · simp [getKey, hk, ih]

theorem getKey_omitempty (k name : String) (v : Option JsonText) :
    getKey k (omitempty name v) = if name = k then v else none := by
  cases v with
  | none => simp [omitempty, getKey]
  | some j => simp [omitempty, getKey]

theorem keys_omitempty_sublist (name : String) (v : Option JsonText) :
    (keys (omitempty name v)).Sublist [name] := by
  cases v with
  | none => simp [omitempty, keys]
  | some j => simp [omitempty, keys]

theorem distinctKeys_plainFields (s : AzureDataExplorerSink) : distinctKeys (plainFields s) := by
  have h : (keys (plainFields s)).Sublist
      (["flushImmediately"] ++ ["ingestionMappingAsJson"] ++ ["ingestionMappingName"] ++
        ["disableMetricsCollection"] ++ ["maxConcurrentConnections"] ++ ["sinkRetryCount"] ++
        ["sinkRetryWait"] ++ ["type"] ++ ["writeBatchSize"] ++ ["writeBatchTimeout"]) := by
    unfold plainFields keys
    simp only [List.map_append]
    have e (name : String) (v : Option JsonText) :
        (List.map Prod.fst (omitempty name v)).Sublist [name] := keys_omitempty_sublist name v
    have t : (List.map Prod.fst [("type", JsonText.string s.Type_)]).Sublist ["type"] :=
      List.Sublist.refl _
    have h1 := (e "flushImmediately" (s.FlushImmediately.map .bool)).append
      (e "ingestionMappingAsJson" s.IngestionMappingAsJson)
    have h2 := h1.append (e "ingestionMappingName" s.IngestionMappingName)
    have h3 := h2.append (e "disableMetricsCollection" (s.DisableMetricsCollection.map .bool))
    have h4 := h3.append
      (e "maxConcurrentConnections" (s.MaxConcurrentConnections.map intNumber))
    have h5 := h4.append (e "sinkRetryCount" (s.SinkRetryCount.map intNumber))
    have h6 := h5.append (e "sinkRetryWait" s.SinkRetryWait)
    have h7 := h6.append t
    have h8 := h7.append (e "writeBatchSize" (s.WriteBatchSize.map intNumber))
    exact h8.append (e "writeBatchTimeout" s.WriteBatchTimeout)
  exact h.nodup (by decide)

/-- The object `MarshalJSON` returns: the key `type` holds the name of the
type, and every other key is that of the plain encoding with its value decoded
and encoded again. -/
theorem MarshalJSON_fields (sd : ℚ → ℚ) (s : AzureDataExplorerSink) (out : JsonText)
    (h : s.MarshalJSON sd = .ok out) :
    ∃ fields, out = .object fields ∧
      getKey "type" fields = some (.string "AzureDataExplorerSink") ∧
      ∀ k, k ≠ "type" →
        (getKey k (plainFields s) = none → getKey k fields = none) ∧
        (∀ v, getKey k (plainFields s) = some v →
          ∃ v2, reencode sd v = .ok v2 ∧ getKey k fields = some v2) := by
  unfold AzureDataExplorerSink.MarshalJSON at h
  cases hdec : unmarshalObject (plainFields s) [] with
  | error e => simp [hdec] at h
  | ok decoded =>
    simp only [hdec, marshalValue] at h
    cases hfs : marshalFields sd (setKey "type" (Json.str "AzureDataExplorerSink") decoded) with
    | error e => simp [hfs] at h
    | ok fs =>
      simp only [hfs, Except.ok.injEq] at h
      subst h
      have hdd : distinctKeys decoded :=
        unmarshalObject_distinctKeys _ [] decoded (by simp [distinctKeys, keys]) hdec
      obtain ⟨hkeys, hval⟩ := getKey_marshalFields sd _ fs hfs
      have hdf : distinctKeys fs := by
        unfold distinctKeys
        rw [hkeys]
        exact nodup_keys_setKey _ _ _ hdd
      refine ⟨sortFields fs, rfl, ?_, ?_⟩
      · rw [getKey_sortFields _ fs hdf]
        obtain ⟨t, ht, hg⟩ := (hval "type").1 _ (getKey_setKey_same _ _ _)
        simp only [marshalValue, Except.ok.injEq] at ht
        rw [hg, ← ht]
      · intro k hk
        obtain ⟨hu1, hu2⟩ := getKey_unmarshalObject _ [] decoded (distinctKeys_plainFields s) hdec k
        rw [getKey_sortFields _ fs hdf]
        constructor
        · intro hnone
          apply (hval k).2
          rw [getKey_setKey_other _ k _ _ hk, hu2 hnone]
          rfl
        · intro v hv
          obtain ⟨j, hj, hg⟩ := hu1 v hv
          obtain ⟨t, ht, hg2⟩ := (hval k).1 j (by rw [getKey_setKey_other _ k _ _ hk, hg])
          exact ⟨t, by simp [reencode, hj, ht], hg2⟩

/-- The call `MarshalJSON` returns an object when every value of the plain
encoding can be decoded and encoded again. -/
theorem MarshalJSON_ok (sd : ℚ → ℚ) (s : AzureDataExplorerSink)
    (h : ∀ k v, getKey k (plainFields s) = some v → ∃ v2, reencode sd v = .ok v2) :
    ∃ fields, s.MarshalJSON sd = .ok (.object fields) := by
  have hdp := distinctKeys_plainFields s
  obtain ⟨decoded, hdec⟩ := unmarshalObject_ok (plainFields s) [] (by
    intro kv hkv
    obtain ⟨v2, hv2⟩ := h kv.1 kv.2 (getKey_of_mem _ _ _ hdp hkv)
    unfold reencode at hv2
    cases hj : unmarshalValue kv.2 with
    | error e => simp [hj] at hv2
    | ok j => exact ⟨j, rfl⟩)
  have hdd : distinctKeys decoded :=
    unmarshalObject_distinctKeys _ [] decoded (by simp [distinctKeys, keys]) hdec
  obtain ⟨fs, hfs⟩ := marshalFields_ok sd (setKey "type" (Json.str "AzureDataExplorerSink") decoded)
    (by
      intro kv hkv
      obtain ⟨k, j⟩ := kv
      rcases mem_setKey _ _ _ _ _ hkv with ⟨_, hj⟩ | hmem
      · exact ⟨.string "AzureDataExplorerSink", by simp [hj, marshalValue]⟩
      · have hg : getKey k decoded = some j := getKey_of_mem k j decoded hdd hmem
        obtain ⟨hu1, hu2⟩ := getKey_unmarshalObject _ [] decoded hdp hdec k
        cases hp : getKey k (plainFields s) with
        | none =>
          rw [hu2 hp] at hg
          simp [getKey] at hg
        | some v =>
          obtain ⟨j2, hj2, hg2⟩ := hu1 v hp
          rw [hg] at hg2
          injection hg2 with hg2
          subst hg2
          obtain ⟨v2, hv2⟩ := h k v hp
          simp only [reencode, hj2] at hv2
          exact ⟨v2, hv2⟩)
  exact ⟨sortFields fs, by simp [AzureDataExplorerSink.MarshalJSON, hdec, marshalValue, hfs]⟩

theorem unmarshalNumber_finite (x r : ℚ) (h : bigFloatFloat64 x = .finite r) :
    unmarshalNumber x = .ok (.num (.finite r)) := by
  unfold unmarshalNumber
  rw [h]

theorem unmarshalValue_number (x r : ℚ) (h : bigFloatFloat64 x = .finite r) :
    unmarshalValue (.number x) = .ok (.num (.finite r)) := by
  rw [unmarshalValue, unmarshalNumber_finite x r h]

theorem reencode_number (sd : ℚ → ℚ) (x r : ℚ) (h : bigFloatFloat64 x = .finite r) :
    reencode sd (.number x) = .ok (.number (sd r)) := by
  unfold reencode
  rw [unmarshalValue_number x r h]
  simp only [marshalValue]

theorem reencode_number_int (sd : ℚ → ℚ) (hsd : ∀ n : ℤ, |n| ≤ 2 ^ 53 → sd n = n) (n : ℤ)
    (h : |n| ≤ 2 ^ 53) : reencode sd (intNumber n) = .ok (intNumber n) := by
  have h1 := reencode_number sd _ _ (bigFloatFloat64_intCast n h)
  rw [hsd n h] at h1
  exact h1

theorem reencode_number_int64 (sd : ℚ → ℚ) (n : ℤ) (h : |n| ≤ 2 ^ 63) :
    ∃ r, bigFloatFloat64 (n : ℚ) = .finite r ∧
      reencode sd (intNumber n) = .ok (.number (sd r)) := by
  obtain ⟨r, hr⟩ := bigFloatFloat64_int64 n h
  exact ⟨r, hr, reencode_number sd _ _ hr⟩

theorem reencode_large (sd : ℚ → ℚ) (hsd : ∀ n : ℤ, |n| ≤ 2 ^ 53 → sd n = n) :
    reencode sd (.number 9007199254740993) = .ok (.number 9007199254740992) := by
  have h1 := reencode_number sd _ _ bigFloatFloat64_example
  have h2 := hsd 9007199254740992 (by norm_num)
  have h3 : ((9007199254740992 : ℤ) : ℚ) = 9007199254740992 := Int.cast_ofNat 9007199254740992
  rw [h3] at h2
  rw [h2] at h1
  exact h1

/-! ## The claim on the sink encoder -/

theorem plainFields_largeSink :
    plainFields largeSink = [("flushImmediately", .bool true),
      ("maxConcurrentConnections", .number 9007199254740993), ("type", .string "Custom")] := by
  have h : ((9007199254740993 : ℤ) : ℚ) = 9007199254740993 := Int.cast_ofNat 9007199254740993
  simp only [plainFields, largeSink, omitempty, Option.map, intNumber, List.append_nil,
    List.nil_append, List.cons_append, h]

theorem plainFields_smallSink :
    plainFields smallSink = [("flushImmediately", .bool true),
      ("ingestionMappingName", .string "m"),
      ("maxConcurrentConnections", intNumber 4), ("type", .string "Custom")] := by
  simp only [plainFields, smallSink, omitempty, Option.map, List.append_nil,
    List.nil_append, List.cons_append]

/-- What `MarshalJSON` returns for `largeSink`, whatever decimals are written
for the doubles that are not integers of magnitude up to `2 ^ 53`. -/
theorem MarshalJSON_largeSink (sd : ℚ → ℚ) (hsd : ∀ n : ℤ, |n| ≤ 2 ^ 53 → sd n = n) :
    ∃ fields, largeSink.MarshalJSON sd = .ok (.object fields) ∧
      getKey "maxConcurrentConnections" (plainFields largeSink)
        = some (.number 9007199254740993) ∧
      getKey "maxConcurrentConnections" fields = some (.number 9007199254740992) := by
  have hplain : getKey "maxConcurrentConnections" (plainFields largeSink)
      = some (.number 9007199254740993) := by
    rw [plainFields_largeSink]
    simp [getKey]
  obtain ⟨fields, hf⟩ := MarshalJSON_ok sd largeSink (by
    intro k v hk
    rw [plainFields_largeSink] at hk
    have hm := mem_of_getKey k v _ hk
    simp only [List.mem_cons, List.mem_singleton, Prod.mk.injEq, List.not_mem_nil,
      or_false] at hm
    rcases hm with ⟨_, rfl⟩ | ⟨_, rfl⟩ | ⟨_, rfl⟩
    · exact ⟨_, rfl⟩
    · exact ⟨_, reencode_large sd hsd⟩
    · exact ⟨_, rfl⟩)
  obtain ⟨fields2, h2, _, hrest⟩ := MarshalJSON_fields sd largeSink _ hf
  injection h2 with h2
  subst h2
  obtain ⟨v2, hv2, hg⟩ := (hrest "maxConcurrentConnections" (by decide)).2 _ hplain
  rw [reencode_large sd hsd] at hv2
  injection hv2 with hv2
  subst hv2
  exact ⟨fields, hf, hplain, hg⟩

theorem number_large_ne :
    (some (JsonText.number 9007199254740992) : Option JsonText)
      ≠ some (JsonText.number 9007199254740993) := by
  intro h
  injection h with h
  injection h with h
  norm_num at h

/-- C18 as stated fails: for a sink whose `MaxConcurrentConnections` is
`9007199254740993`, `MarshalJSON` returns an object whose key
`maxConcurrentConnections` holds `9007199254740992`, which is not the value of
the plain encoding, and this is so whatever decimals are written for the
doubles other than the integers of magnitude up to `2 ^ 53`. -/
theorem MarshalJSON_large_counterexample :
    (∃ fields, largeSink.MarshalJSON (fun r => r) = .ok (.object fields) ∧
      getKey "maxConcurrentConnections" (plainFields largeSink)
        = some (.number 9007199254740993) ∧
      getKey "maxConcurrentConnections" fields = some (.number 9007199254740992)) ∧
    ¬ (∃ shortestDecimal : ℚ → ℚ, (∀ n : ℤ, |n| ≤ 2 ^ 53 → shortestDecimal n = n) ∧
      ∀ fields, largeSink.MarshalJSON shortestDecimal = .ok (.object fields) →
        ∀ k, k ≠ "type" → getKey k fields = getKey k (plainFields largeSink)) := by
  refine ⟨MarshalJSON_largeSink (fun r => r) (fun n _ => rfl), ?_⟩
  rintro ⟨sd, hsd, hall⟩
  obtain ⟨fields, hf, hplain, hg⟩ := MarshalJSON_largeSink sd hsd
  have := hall fields hf "maxConcurrentConnections" (by decide)
  rw [hg, hplain] at this
  exact number_large_ne this

/-- C18, amended: whatever the `Type` field holds, the object `MarshalJSON`
returns has `type` equal to `AzureDataExplorerSink`, and every other key is a
key of the plain field-by-field encoding, which has no key for a nil optional
field, with the value of the plain encoding decoded and encoded again by
`encoding/json`; that value is the plain one for a bool, a string, a null and
an integer of magnitude up to `2 ^ 53`, for every `int64` it is the decimal
written for the nearest `float64`, and `MarshalJSON` returns an object when
every plain value can be decoded and encoded again.
`CopySink` returns `Type` and the six other inherited fields unchanged. -/
theorem MarshalJSON_type_and_fields (shortestDecimal : ℚ → ℚ)
    (hsd : ∀ n : ℤ, |n| ≤ 2 ^ 53 → shortestDecimal n = n) (s : AzureDataExplorerSink) :
    ((∀ k v, getKey k (plainFields s) = some v → ∃ v2, reencode shortestDecimal v = .ok v2) →
      ∃ fields, s.MarshalJSON shortestDecimal = .ok (.object fields)) ∧
    (∀ out, s.MarshalJSON shortestDecimal = .ok out →
      ∃ fields, out = .object fields ∧
        getKey "type" fields = some (.string "AzureDataExplorerSink") ∧
        ∀ k, k ≠ "type" →
          (getKey k (plainFields s) = none → getKey k fields = none) ∧
          (∀ v, getKey k (plainFields s) = some v →
            ∃ v2, reencode shortestDecimal v = .ok v2 ∧ getKey k fields = some v2)) ∧
    ((∀ b, reencode shortestDecimal (.bool b) = .ok (.bool b)) ∧
      (∀ str, reencode shortestDecimal (.string str) = .ok (.string str)) ∧
      reencode shortestDecimal .null = .ok .null ∧
      (∀ n : ℤ, |n| ≤ 2 ^ 53 → reencode shortestDecimal (intNumber n) = .ok (intNumber n)) ∧
      (∀ n : ℤ, |n| ≤ 2 ^ 63 → ∃ r, bigFloatFloat64 (n : ℚ) = .finite r ∧
        reencode shortestDecimal (intNumber n) = .ok (.number (shortestDecimal r)))) ∧
    (getKey "flushImmediately" (plainFields s) = s.FlushImmediately.map .bool ∧
      getKey "ingestionMappingAsJson" (plainFields s) = s.IngestionMappingAsJson ∧
      getKey "ingestionMappingName" (plainFields s) = s.IngestionMappingName ∧
      getKey "disableMetricsCollection" (plainFields s)
        = s.DisableMetricsCollection.map .bool ∧
      getKey "maxConcurrentConnections" (plainFields s)
        = s.MaxConcurrentConnections.map intNumber ∧
      getKey "sinkRetryCount" (plainFields s) = s.SinkRetryCount.map intNumber ∧
      getKey "sinkRetryWait" (plainFields s) = s.SinkRetryWait ∧
      getKey "type" (plainFields s) = some (.string s.Type_) ∧
      getKey "writeBatchSize" (plainFields s) = s.WriteBatchSize.map intNumber ∧
      getKey "writeBatchTimeout" (plainFields s) = s.WriteBatchTimeout) ∧
    (s.CopySink.Type_ = s.Type_ ∧
      s.CopySink.DisableMetricsCollection = s.DisableMetricsCollection ∧
      s.CopySink.MaxConcurrentConnections = s.MaxConcurrentConnections ∧
      s.CopySink.SinkRetryCount = s.SinkRetryCount ∧
      s.CopySink.SinkRetryWait = s.SinkRetryWait ∧
      s.CopySink.WriteBatchSize = s.WriteBatchSize ∧
      s.CopySink.WriteBatchTimeout = s.WriteBatchTimeout) := by
  refine ⟨MarshalJSON_ok shortestDecimal s, MarshalJSON_fields shortestDecimal s,
    ⟨fun b => rfl, fun str => rfl, rfl, reencode_number_int shortestDecimal hsd,
      reencode_number_int64 shortestDecimal⟩, ?_,
    ⟨rfl, rfl, rfl, rfl, rfl, rfl, rfl⟩⟩
  refine ⟨?_, ?_, ?_, ?_, ?_, ?_, ?_, ?_, ?_, ?_⟩ <;>
    simp [plainFields, getKey_append, getKey_omitempty, getKey]

/-- Witness of the amended C18 at `smallSink`, with every double written by
the digits that denote it: `MarshalJSON` returns an object. -/
theorem MarshalJSON_type_and_fields_witness :
    (∀ n : ℤ, |n| ≤ 2 ^ 53 → (fun r : ℚ => r) n = n) ∧
    (∀ k v, getKey k (plainFields smallSink) = some v →
      ∃ v2, reencode (fun r => r) v = .ok v2) ∧
    ∃ fields, smallSink.MarshalJSON (fun r => r) = .ok (.object fields) :=
  have h0 : ∀ n : ℤ, |n| ≤ 2 ^ 53 → (fun r : ℚ => r) n = n := fun _ _ => rfl
  have h : ∀ k v, getKey k (plainFields smallSink) = some v →
      ∃ v2, reencode (fun r => r) v = .ok v2 := by
    intro k v hk
    rw [plainFields_smallSink] at hk
    have hm := mem_of_getKey k v _ hk
    simp only [List.mem_cons, List.mem_singleton, Prod.mk.injEq, List.not_mem_nil,
      or_false] at hm
    rcases hm with ⟨_, rfl⟩ | ⟨_, rfl⟩ | ⟨_, rfl⟩ | ⟨_, rfl⟩
    · exact ⟨_, rfl⟩
    · exact ⟨_, rfl⟩
    · exact ⟨_, reencode_number_int (fun r => r) h0 4 (by norm_num)⟩
    · exact ⟨_, rfl⟩
  ⟨h0, h, (MarshalJSON_type_and_fields (fun r => r) h0 smallSink).1 h⟩

end Pipelines
